import Mathlib

/-!
# VSFS: a FAT-style virtual file system held in one backing file

A shallow embedding of `src/vsfs.c`.  The C globals (`superblock`, `fattable`,
`rootdir`, `openfiletable`) and the backing file behind `vs_fd` become the
fields of one record that every operation takes and returns.  C arrays are
total maps from the index to the element, loops are structural recursions
that perform the same tests in the same order, and an access that C leaves
undefined (an index outside `openfiletable`, a null `entry` pointer) or a
loop that has not finished within its fuel is an explicit `Fault`.  Only the
index into `openfiletable` comes from the caller and is checked against the
array bound; the indices into `fattable`, `rootdir` and the data blocks are
the ones the program computes and are used as they are.  Byte counts (`int n`)
and name lengths are natural numbers below `2^31`.

The heap is not part of the record.  One call site depends on it: the branch
of `vsappend` that overflows a partly filled last block frees its scratch block
twice, the second time after its last write and assignment.  For that branch
`vsappend` gives the globals and the backing file as they are when the second
`free` is reached; `overflows_last_block` is the test that leads there, and a
property that says a call returns leaves that branch out.
-/

namespace Vsfs

/-! ## Constants -/

/-- Modelled from the spec: `vsfs.h`, which defines `BLOCKSIZE`, is not among
the sources; the spec fixes the block size at 2048 bytes (and the struct sizes
in `vsfs.c`, 512 four-byte FAT entries per block, agree). -/
def BLOCKSIZE : Nat := 2048

/-- Modelled from the spec: `vsfs.h` is not among the sources; the spec names
`MODE_READ` and `MODE_APPEND` as the two distinct open modes. -/
def MODE_READ : Int := 0

/-- Modelled from the spec: the second of the two open modes of the absent
`vsfs.h`, different from `MODE_READ`. -/
def MODE_APPEND : Int := 1

def MAX_BLOCK_COUNT : Nat := 4096

def FREEBLOCK_BITVECTOR_SIZE : Nat := MAX_BLOCK_COUNT / 16

def NO_START_BLOCK : Nat := 0

def FAT_LIST_NULL : Nat := 0

/-- The macro `FAT_OFFSET(blocknumber)`: `blocknumber & 0x000000ff`. -/
def FAT_OFFSET (blocknumber : Nat) : Nat := blocknumber &&& 0x000000ff

/-- The macro `FAT_BLOCK(blocknumber)`: `(blocknumber & 0xffffff00) >> 8`. -/
def FAT_BLOCK (blocknumber : Nat) : Nat := (blocknumber &&& 0xffffff00) >>> 8

/-! ## Data model -/

/-- A `data_block`: `uint8_t data[BLOCKSIZE]`, as the map from offset to byte. -/
abbrev data_block := Nat → Nat

/-- A `fat_table_block`: `uint32_t entries[512]`. -/
abbrev fat_table_block := Nat → Nat

/-- The `super_block`.  `blockcount` is a C `int` that format writes as
`2^m / BLOCKSIZE`; it is never negative and is kept as a natural number.
`freeblock_bitvector` maps the word index to the 16-bit word. -/
structure super_block where
  blockcount : Nat
  blocksize : Nat
  freeblock_bitvector : Nat → Nat

/-- A `directory_entry`.  `filename` is the `char[30]` array, `filesize` a
`uintmax_t`, `startblock` a `uint32_t`. -/
structure directory_entry where
  isoccupied : Bool
  filename : List Nat
  filesize : Nat
  startblock : Nat
deriving DecidableEq

/-- A `root_dir_block`: `directory_entry entries[16]`. -/
abbrev root_dir_block := Nat → directory_entry

/-- An `openfiletable_entry`.  The pointer `entry` into `rootdir` is the pair
(block index, entry index) it points at, `none` for the null pointer. -/
structure openfiletable_entry where
  entry : Option (Nat × Nat)
  mode : Int
  free : Bool
deriving DecidableEq

/-- One block of the backing file, holding the value last written to it.  The
byte layout of the structs is not modelled: a block is read back at the type it
was written with. -/
inductive disk_block where
  | super (b : super_block)
  | fat (b : fat_table_block)
  | rootdir (b : root_dir_block)
  | data (b : data_block)

/-- The backing file: its length in blocks and, block by block, what it
holds.  Only `block k` for `k < nblocks` is inside the file. -/
structure vdisk where
  nblocks : Nat
  block : Nat → disk_block

/-- The globals of `vsfs.c` together with the backing file behind `vs_fd`. -/
structure FS where
  disk : vdisk
  superblock : super_block
  fattable : Nat → fat_table_block
  rootdir : Nat → root_dir_block
  openfiletable : Nat → openfiletable_entry

/-- What the C program leaves undefined, or a loop that outran its fuel. -/
inductive Fault where
  | outOfBounds
  | nullPointer
  | outOfFuel
deriving DecidableEq

deriving instance DecidableEq for Except

/-! ## Block device -/

/-- The function `new_datablock`: a `calloc`ed block, all zero. -/
def new_datablock : data_block := fun _ => 0

/-- The function `write_block`: block `k` of the backing file becomes `block`.
A positioned write of a whole block succeeds (the short write of the source is
a failure of the host, outside the model, so the callers never see status -1
from it); a write past the end lengthens the file and the host fills the gap
with zero bytes. -/
def write_block (d : vdisk) (block : disk_block) (k : Nat) : vdisk :=
  { nblocks := max d.nblocks (k + 1),
    block := fun k' =>
      if k' = k then block
      else if d.nblocks ≤ k' ∧ k' < k then .data new_datablock
      else d.block k' }

/-- The function `read_block` into a `data_block` buffer; `none` is the
source's -1 (a short read, past the end of the file).  A block that holds a
value of another type has no reading as data in this model and is `none` too. -/
def read_data_block (d : vdisk) (k : Nat) : Option data_block :=
  if k < d.nblocks then
    match d.block k with
    | .data b => some b
    | _ => none
  else none

/-- The function `read_block` into `superblock`. -/
def read_super_block (d : vdisk) (k : Nat) : Option super_block :=
  if k < d.nblocks then
    match d.block k with
    | .super b => some b
    | _ => none
  else none

/-- The function `read_block` into one element of `fattable`. -/
def read_fat_block (d : vdisk) (k : Nat) : Option fat_table_block :=
  if k < d.nblocks then
    match d.block k with
    | .fat b => some b
    | _ => none
  else none

/-- The function `read_block` into one element of `rootdir`. -/
def read_rootdir_block (d : vdisk) (k : Nat) : Option root_dir_block :=
  if k < d.nblocks then
    match d.block k with
    | .rootdir b => some b
    | _ => none
  else none

/-! ## Free-block allocator -/

/-- Bit `i` of the free bitmap: bit `i % 16` of word `i / 16`.  It stands for
data block `41 + i`. -/
def bitfree (sb : super_block) (i : Nat) : Bool :=
  (sb.freeblock_bitvector (i / 16)).testBit (i % 16)

/-- The assignment `superblock.freeblock_bitvector[i] = currentportion & ~j`:
`~j` is the complement of the 32-bit `int` and the result is stored in a
`uint16_t`. -/
def mark_unavailable (sb : super_block) (i currentportion j : Nat) : super_block :=
  { sb with freeblock_bitvector := fun w =>
      if w = i then (currentportion &&& (0xffffffff - j)) % 0x10000
      else sb.freeblock_bitvector w }

/-- The inner loop of `get_nextfreeblock`, `for (j = 0x0001; j <= 0x8000; j <<= 1)`,
with `k` iterations still to run.  `Sum.inl` is a `return` out of the function
(the block number and the superblock), `Sum.inr` the value of
`from_basedatablock` when the loop runs to its end. -/
def get_nextfreeblock_bits (sb : super_block) (i currentportion : Nat) :
    Nat → Nat → Nat → (Nat × super_block) ⊕ Nat
  | 0, _, from_basedatablock => .inr from_basedatablock
  | k + 1, j, from_basedatablock =>
    if (j % 0x10000) &&& currentportion ≠ 0 then
      .inl (from_basedatablock, mark_unavailable sb i currentportion j)
    else if from_basedatablock + 1 = sb.blockcount then
      .inl (0, sb)
    else
      get_nextfreeblock_bits sb i currentportion k (j <<< 1) (from_basedatablock + 1)

/-- The outer loop of `get_nextfreeblock`, `for (i = 0; i < FREEBLOCK_BITVECTOR_SIZE; i++)`,
with `r` words still to scan. -/
def get_nextfreeblock_words (sb : super_block) : Nat → Nat → Nat → Nat × super_block
  | 0, _, _ => (0, sb)
  | r + 1, i, from_basedatablock =>
    match get_nextfreeblock_bits sb i (sb.freeblock_bitvector i) 16 0x0001
        from_basedatablock with
    | .inl res => res
    | .inr from_basedatablock' => get_nextfreeblock_words sb r (i + 1) from_basedatablock'

/-- The function `get_nextfreeblock`: the block number returned (0 for none)
and the superblock afterwards. -/
def get_nextfreeblock (sb : super_block) : Nat × super_block :=
  get_nextfreeblock_words sb FREEBLOCK_BITVECTOR_SIZE 0 41

/-- The inner loop of `get_freeblockcount`; its `break` leaves this loop only.
Returns `from_basedatablock` and `freeblockcount`. -/
def get_freeblockcount_bits (sb : super_block) (currentportion : Nat) :
    Nat → Nat → Nat → Nat → Nat × Nat
  | 0, _, from_basedatablock, freeblockcount => (from_basedatablock, freeblockcount)
  | k + 1, j, from_basedatablock, freeblockcount =>
    let freeblockcount :=
      if (j % 0x10000) &&& currentportion ≠ 0 then freeblockcount + 1 else freeblockcount
    if from_basedatablock + 1 = sb.blockcount then
      (from_basedatablock + 1, freeblockcount)
    else
      get_freeblockcount_bits sb currentportion k (j <<< 1) (from_basedatablock + 1)
        freeblockcount

/-- The outer loop of `get_freeblockcount`: it goes on to the next word after
the inner `break`. -/
def get_freeblockcount_words (sb : super_block) : Nat → Nat → Nat → Nat → Nat
  | 0, _, _, freeblockcount => freeblockcount
  | r + 1, i, from_basedatablock, freeblockcount =>
    let res := get_freeblockcount_bits sb (sb.freeblock_bitvector i) 16 0x0001
      from_basedatablock freeblockcount
    get_freeblockcount_words sb r (i + 1) res.1 res.2

/-- The function `get_freeblockcount`. -/
def get_freeblockcount (sb : super_block) : Nat :=
  get_freeblockcount_words sb FREEBLOCK_BITVECTOR_SIZE 0 41 0

/-- The function `get_freesize`. -/
def get_freesize (sb : super_block) : Nat :=
  get_freeblockcount sb * BLOCKSIZE

/-- The superblock that `format_superblock(count)` builds: every word of the
bit vector is `UINT16_MAX`. -/
def fresh_superblock (count : Nat) : super_block :=
  { blockcount := count, blocksize := BLOCKSIZE, freeblock_bitvector := fun _ => 0xffff }


/-! ## FAT chain operations -/

/-- The read `fattable[FAT_BLOCK(b)].entries[FAT_OFFSET(b)]`. -/
def fat_get (fattable : Nat → fat_table_block) (b : Nat) : Nat :=
  fattable (FAT_BLOCK b) (FAT_OFFSET b)

/-- The assignment `fattable[FAT_BLOCK(b)].entries[FAT_OFFSET(b)] = v`. -/
def fat_set (fattable : Nat → fat_table_block) (b v : Nat) : Nat → fat_table_block :=
  fun x y => if x = FAT_BLOCK b ∧ y = FAT_OFFSET b then v else fattable x y

/-- The `while (currfatentry != FAT_LIST_NULL)` loop of `get_lastallocatedblock`.
The body takes the FAT position from the old `prevfatentry`, then moves
`prevfatentry` to `currfatentry` and reloads `currfatentry` from that position.
`none`: the fuel ran out. -/
def get_lastallocatedblock_loop (fattable : Nat → fat_table_block) :
    Nat → Nat → Nat → Option Nat
  | 0, _, _ => none
  | fuel + 1, prevfatentry, currfatentry =>
    if currfatentry ≠ FAT_LIST_NULL then
      get_lastallocatedblock_loop fattable fuel currfatentry (fat_get fattable prevfatentry)
    else some prevfatentry

/-- The function `get_lastallocatedblock`. -/
def get_lastallocatedblock (fuel : Nat) (fattable : Nat → fat_table_block)
    (startblock : Nat) : Option Nat :=
  if startblock = NO_START_BLOCK then some NO_START_BLOCK
  else get_lastallocatedblock_loop fattable fuel startblock (fat_get fattable startblock)

/-! ## C strings -/

/-- The C string in a `char` buffer: the bytes before the first NUL. -/
def cstr (s : List Nat) : List Nat := s.takeWhile (fun c => c != 0)

/-- The function `strlen`. -/
def strlen (s : List Nat) : Nat := (cstr s).length

/-- The test `strcmp(a, b) == 0`. -/
def streq (a b : List Nat) : Bool := cstr a == cstr b

/-- The first `n` bytes that `strncpy(dest, src, n)` leaves in `dest`: the
string, cut at `n` bytes, then NULs up to `n`. -/
def strncpy (src : List Nat) (n : Nat) : List Nat :=
  (cstr src).take n ++ List.replicate (n - (cstr src).length) 0

/-! ## Root directory -/

/-- A loop `for (j = 0; j < n; j++) if (p j) { ...; leave }`: the first index
at which the test holds, with `k` iterations still to run from `j`. -/
def first_index (p : Nat → Bool) : Nat → Nat → Option Nat
  | 0, _ => none
  | k + 1, j => if p j then some j else first_index p k (j + 1)

/-- The nested loops `for (i = 0; i < 8; i++) for (j = 0; j < 16; j++)` that
return at the first entry of `rootdir` passing the test, with `r` blocks still
to scan from `i`. -/
def find_entry (p : directory_entry → Bool) (rootdir : Nat → root_dir_block) :
    Nat → Nat → Option (Nat × Nat)
  | 0, _ => none
  | r + 1, i =>
    match first_index (fun j => p (rootdir i j)) 16 0 with
    | some j => some (i, j)
    | none => find_entry p rootdir r (i + 1)

/-- The assignment of a whole entry `rootdir[i].entries[j]`. -/
def set_entry (rootdir : Nat → root_dir_block) (i j : Nat) (e : directory_entry) :
    Nat → root_dir_block :=
  fun a b => if a = i ∧ b = j then e else rootdir a b

/-- The assignment of a whole slot `openfiletable[t]`. -/
def set_slot (openfiletable : Nat → openfiletable_entry) (t : Nat)
    (e : openfiletable_entry) : Nat → openfiletable_entry :=
  fun a => if a = t then e else openfiletable a

/-- The function `vscreate`.  It writes `isoccupied` and `filename` of the entry
it takes and nothing else. -/
def vscreate (s : FS) (filename : List Nat) : Int × FS :=
  if strlen filename ≥ 30 then (-1, s)
  else
    match find_entry (fun e => e.isoccupied && streq e.filename filename) s.rootdir 8 0 with
    | some _ => (-1, s)
    | none =>
      match find_entry (fun e => !e.isoccupied) s.rootdir 8 0 with
      | some (i, j) =>
        let entry : directory_entry :=
          { s.rootdir i j with isoccupied := true, filename := strncpy filename 29 ++ [0] }
        (0, { s with rootdir := set_entry s.rootdir i j entry })
      | none => (-1, s)

/-- The function `vsopen`.  `tableoffset` is incremented once for every entry
passed, so at entry `(i, j)` it is `i * 16 + j`. -/
def vsopen (s : FS) (file : List Nat) (mode : Int) : Int × FS :=
  match find_entry (fun e => streq e.filename file) s.rootdir 8 0 with
  | some (i, j) =>
    let tableoffset := i * 16 + j
    if !(s.openfiletable tableoffset).free ∧ (s.openfiletable tableoffset).mode ≠ mode then
      (-1, s)
    else
      let slot : openfiletable_entry := { entry := some (i, j), mode := mode, free := false }
      ((tableoffset : Nat), { s with openfiletable := set_slot s.openfiletable tableoffset slot })
  | none => (-1, s)

/-- The function `vsclose`.  The guard is the source's `fd < 0 && fd > 128`;
`openfiletable[fd]` has 128 slots. -/
def vsclose (s : FS) (fd : Int) : Except Fault (Int × FS) :=
  if fd < 0 ∧ fd > 128 then .ok (-1, s)
  else if fd < 0 ∨ fd ≥ 128 then .error .outOfBounds
  else if (s.openfiletable fd.toNat).free then .ok (-1, s)
  else
    let slot : openfiletable_entry := { s.openfiletable fd.toNat with free := true }
    .ok (0, { s with openfiletable := set_slot s.openfiletable fd.toNat slot })

/-- The conversion of a `uintmax_t` to the `int` a function returns. -/
def to_int (x : Nat) : Int :=
  if x % 2 ^ 32 < 2 ^ 31 then (x % 2 ^ 32 : Nat) else ((x % 2 ^ 32 : Nat) : Int) - 2 ^ 32

/-- The function `vssize`. -/
def vssize (s : FS) (fd : Int) : Except Fault Int :=
  if fd < 0 ∧ fd > 128 then .ok (-1)
  else if fd < 0 ∨ fd ≥ 128 then .error .outOfBounds
  else if (s.openfiletable fd.toNat).free = true then .ok (-1)
  else
    match (s.openfiletable fd.toNat).entry with
    | none => .error .nullPointer
    | some (i, j) => .ok (to_int (s.rootdir i j).filesize)

/-! ## Read -/

/-- The `for (i = 0; i < n; i++)` loop of `vsread`, with `k` iterations still to
run.  The result is the status returned and the caller's buffer. -/
def vsread_loop (s : FS) : Nat → Nat → (Nat → Nat) → data_block → Nat → Int × (Nat → Nat)
  | 0, _, bytestream, _, _ => (0, bytestream)
  | k + 1, i, bytestream, datablock, currblocknumber =>
    let datablockindex := i % BLOCKSIZE
    let bytestream := fun x => if x = i then datablock datablockindex else bytestream x
    if datablockindex = BLOCKSIZE - 1 then
      let currblocknumber := fat_get s.fattable currblocknumber
      if currblocknumber = FAT_LIST_NULL then (0, bytestream)
      else
        match read_data_block s.disk currblocknumber with
        | none => (-1, bytestream)
        | some datablock => vsread_loop s k (i + 1) bytestream datablock currblocknumber
    else vsread_loop s k (i + 1) bytestream datablock currblocknumber

/-- The function `vsread`: the status and the caller's buffer `buf` afterwards.
`n` is the `int` byte count, not negative.  The guard `fd > 128` lets 128
through to `openfiletable[128]`. -/
def vsread (s : FS) (fd : Int) (buf : Nat → Nat) (n : Nat) :
    Except Fault (Int × (Nat → Nat)) :=
  if fd < 0 ∨ fd > 128 then .ok (-1, buf)
  else if fd ≥ 128 then .error .outOfBounds
  else if (s.openfiletable fd.toNat).free = true then .ok (-1, buf)
  else if (s.openfiletable fd.toNat).mode ≠ MODE_READ then .ok (-1, buf)
  else
    match (s.openfiletable fd.toNat).entry with
    | none => .error .nullPointer
    | some (i, j) =>
      if (s.rootdir i j).filesize = 0 then .ok (0, buf)
      else
        match read_data_block s.disk (s.rootdir i j).startblock with
        | none => .ok (-1, buf)
        | some datablock => .ok (vsread_loop s n 0 buf datablock (s.rootdir i j).startblock)

/-! ## Append -/

/-- The globals that `itervative_append` changes and its local variables. -/
structure append_state where
  superblock : super_block
  fattable : Nat → fat_table_block
  disk : vdisk
  datablock : data_block
  currblocknumber : Nat
  prevblocknumber : Nat
  flagnewblock : Bool

/-- The body of the `for` loop of `itervative_append` at stream index `i`.  The
scratch `datablock` is not cleared when a new block is started. -/
def itervative_append_body (bytestream : Nat → Nat) (startingstreamidx : Nat) (i : Nat)
    (st : append_state) : append_state :=
  let st : append_state :=
    if st.flagnewblock then
      let prevblocknumber := st.currblocknumber
      let r := get_nextfreeblock st.superblock
      let currblocknumber := r.1
      { st with
        prevblocknumber := prevblocknumber,
        currblocknumber := currblocknumber,
        superblock := r.2,
        fattable := fat_set (fat_set st.fattable prevblocknumber currblocknumber)
          currblocknumber FAT_LIST_NULL,
        flagnewblock := false }
    else st
  let datablockindex := i % BLOCKSIZE
  let byte :=
    if startingstreamidx ≠ 0 then bytestream (startingstreamidx + i + 1)
    else bytestream i
  let st : append_state :=
    { st with datablock := fun x => if x = datablockindex then byte else st.datablock x }
  if datablockindex = BLOCKSIZE - 1 then
    { st with
      disk := write_block st.disk (.data st.datablock) st.currblocknumber,
      flagnewblock := true }
  else st

/-- The `for (i = 0; i < endingstreamidx; i++)` loop of `itervative_append`,
with `k` iterations still to run from `i`. -/
def itervative_append_loop (bytestream : Nat → Nat) (startingstreamidx : Nat) :
    Nat → Nat → append_state → append_state
  | 0, _, st => st
  | k + 1, i, st =>
    itervative_append_loop bytestream startingstreamidx k (i + 1)
      (itervative_append_body bytestream startingstreamidx i st)

/-- The function `itervative_append`, on the globals it touches (the superblock,
through the allocator, the FAT and the backing file). -/
def itervative_append (superblock : super_block) (fattable : Nat → fat_table_block)
    (disk : vdisk) (currblock prevblock endingstreamidx : Nat) (bytestream : Nat → Nat)
    (startingstreamidx : Nat) : super_block × (Nat → fat_table_block) × vdisk :=
  let st := itervative_append_loop bytestream startingstreamidx endingstreamidx 0
    { superblock := superblock,
      fattable := fat_set (fat_set fattable prevblock currblock) currblock FAT_LIST_NULL,
      disk := disk,
      datablock := new_datablock,
      currblocknumber := currblock,
      prevblocknumber := prevblock,
      flagnewblock := false }
  if st.flagnewblock = false then
    (st.superblock, fat_set st.fattable st.prevblocknumber st.currblocknumber,
      write_block st.disk (.data st.datablock) st.currblocknumber)
  else (st.superblock, st.fattable, st.disk)

/-- The loops of `vsappend` that copy `bytestream[i], bytestream[i+1], ...` to
`datablock->data[lastblockoffset], ...`, with `k` bytes still to copy. -/
def fill_tail (bytestream : Nat → Nat) : Nat → Nat → Nat → data_block → data_block
  | 0, _, _, datablock => datablock
  | k + 1, i, lastblockoffset, datablock =>
    fill_tail bytestream k (i + 1) (lastblockoffset + 1)
      (fun x => if x = lastblockoffset then bytestream i else datablock x)

/-- The test that sends `vsappend` into the branch that overflows a partly
filled last block: `currsize % BLOCKSIZE != 0` and not
`availablelastblocksize >= n`.  That branch calls `free(datablock)` before
`itervative_append` and again after the assignment of `filesize`; C leaves the
second call undefined. -/
def overflows_last_block (currsize n : Nat) : Bool :=
  decide (currsize % BLOCKSIZE ≠ 0) && !decide (BLOCKSIZE - currsize % BLOCKSIZE ≥ n)

/-- The function `vsappend`.  `buf` holds the caller's bytes and `n` is the
`int` byte count, not negative; `filesize` is a `uintmax_t`.  `fuel` bounds the
walk of `get_lastallocatedblock`.  No branch looks at what the allocator
returned.  In the branch that overflows a partly filled last block (see
`overflows_last_block`) the result is the state at the second
`free(datablock)`, which comes after every write and assignment of the
branch. -/
def vsappend (fuel : Nat) (s : FS) (fd : Int) (buf : Nat → Nat) (n : Nat) :
    Except Fault (Int × FS) :=
  if fd < 0 ∨ fd > 128 then .ok (-1, s)
  else if fd ≥ 128 then .error .outOfBounds
  else if (s.openfiletable fd.toNat).free = true then .ok (-1, s)
  else if (s.openfiletable fd.toNat).mode ≠ MODE_APPEND then .ok (-1, s)
  else
    match (s.openfiletable fd.toNat).entry with
    | none => .error .nullPointer
    | some (ei, ej) =>
      let bytestream := buf
      let startblock := (s.rootdir ei ej).startblock
      match get_lastallocatedblock fuel s.fattable startblock with
      | none => .error .outOfFuel
      | some lastallocatedblock =>
        if lastallocatedblock = NO_START_BLOCK then
          let r := get_nextfreeblock s.superblock
          let g := itervative_append r.2 s.fattable s.disk r.1 0 n bytestream 0
          let entry : directory_entry :=
            { s.rootdir ei ej with startblock := r.1, filesize := n }
          .ok (0, { s with
            superblock := g.1, fattable := g.2.1, disk := g.2.2,
            rootdir := set_entry s.rootdir ei ej entry })
        else
          let currsize := (s.rootdir ei ej).filesize
          if currsize % BLOCKSIZE ≠ 0 then
            let datablock :=
              match read_data_block s.disk lastallocatedblock with
              | some b => b
              | none => new_datablock
            let availablelastblocksize := BLOCKSIZE - currsize % BLOCKSIZE
            let lastblockoffset := currsize % BLOCKSIZE
            if availablelastblocksize ≥ n then
              let datablock := fill_tail bytestream n 0 lastblockoffset datablock
              let entry : directory_entry :=
                { s.rootdir ei ej with filesize := (currsize + n) % 2 ^ 64 }
              .ok (0, { s with
                disk := write_block s.disk (.data datablock) lastallocatedblock,
                rootdir := set_entry s.rootdir ei ej entry })
            else
              let bytestreamidx := availablelastblocksize
              let datablock :=
                fill_tail bytestream availablelastblocksize 0 lastblockoffset datablock
              let disk := write_block s.disk (.data datablock) lastallocatedblock
              let r := get_nextfreeblock s.superblock
              let g := itervative_append r.2 s.fattable disk r.1 lastallocatedblock
                (n - bytestreamidx - 1) bytestream bytestreamidx
              let entry : directory_entry :=
                { s.rootdir ei ej with filesize := (currsize + n) % 2 ^ 64 }
              .ok (0, { s with
                superblock := g.1, fattable := g.2.1, disk := g.2.2,
                rootdir := set_entry s.rootdir ei ej entry })
          else
            let r := get_nextfreeblock s.superblock
            let g := itervative_append r.2 s.fattable s.disk r.1 lastallocatedblock n
              bytestream 0
            let entry : directory_entry :=
              { s.rootdir ei ej with filesize := (currsize + n) % 2 ^ 64 }
            .ok (0, { s with
              superblock := g.1, fattable := g.2.1, disk := g.2.2,
              rootdir := set_entry s.rootdir ei ej entry })

/-! ## Delete -/

/-- The search loops of `vsdelete`: the `break` leaves the inner loop only, so
the scan goes on through the later blocks and the last block with a match
wins.  The accumulator is `(blockidx, offsetidx, exists)`. -/
def vsdelete_find (rootdir : Nat → root_dir_block) (filename : List Nat) :
    Nat → Nat → Nat × Nat × Bool → Nat × Nat × Bool
  | 0, _, acc => acc
  | r + 1, i, acc =>
    match first_index (fun j => streq (rootdir i j).filename filename) 16 0 with
    | some j => vsdelete_find rootdir filename r (i + 1) (i, j, true)
    | none => vsdelete_find rootdir filename r (i + 1) acc

/-- The `while (currblock != FAT_LIST_NULL)` loop of `vsdelete`; `currblock` is
a `uint16_t`.  The FAT entry cleared is that of the block just moved to.  The
free bit vector is not touched. -/
def vsdelete_chain : Nat → vdisk → (Nat → fat_table_block) → Nat →
    Option (vdisk × (Nat → fat_table_block))
  | 0, _, _, _ => none
  | fuel + 1, disk, fattable, currblock =>
    if currblock ≠ FAT_LIST_NULL then
      let disk := write_block disk (.data new_datablock) currblock
      let currblock := fat_get fattable currblock % 0x10000
      let fattable := fat_set fattable currblock FAT_LIST_NULL
      vsdelete_chain fuel disk fattable currblock
    else some (disk, fattable)

/-- The function `vsdelete`; `fuel` bounds its chain loop. -/
def vsdelete (fuel : Nat) (s : FS) (filename : List Nat) : Except Fault (Int × FS) :=
  match vsdelete_find s.rootdir filename 8 0 (0, 0, false) with
  | (_, _, false) => .ok (-1, s)
  | (blockidx, offsetidx, true) =>
    let startblock := (s.rootdir blockidx offsetidx).startblock % 0x10000
    let cleared : directory_entry :=
      { isoccupied := false, filename := List.replicate 30 0, filesize := 0,
        startblock := NO_START_BLOCK }
    let rootdir := set_entry s.rootdir blockidx offsetidx cleared
    match vsdelete_chain fuel s.disk s.fattable startblock with
    | none => .error .outOfFuel
    | some (disk, fattable) =>
      .ok (0, { s with rootdir := rootdir, disk := disk, fattable := fattable })

/-! ## Format, mount, unmount -/

/-- A loop `for (i = lo; ...; i++) write_block(block, i)` over `k` blocks. -/
def write_blocks (d : vdisk) (block : disk_block) : Nat → Nat → vdisk
  | 0, _ => d
  | k + 1, i => write_blocks (write_block d block i) block k (i + 1)

/-- The function `format_superblock`. -/
def format_superblock (d : vdisk) (count : Nat) : vdisk :=
  write_block d (.super (fresh_superblock count)) 0

/-- The entry that `format_rootdir` copies into every position. -/
def blank_entry : directory_entry :=
  { isoccupied := false, filename := strncpy [0] 30, filesize := 0,
    startblock := NO_START_BLOCK }

/-- The function `format_rootdir`: blocks 33 to 40. -/
def format_rootdir (d : vdisk) : vdisk :=
  write_blocks d (.rootdir (fun _ => blank_entry)) 8 33

/-- The function `format_fattable`: blocks 1 to 32. -/
def format_fattable (d : vdisk) : vdisk :=
  write_blocks d (.fat (fun _ => FAT_LIST_NULL)) 32 1

/-- The function `format_datablocks`: blocks 41 to `count - 1`. -/
def format_datablocks (d : vdisk) (count : Nat) : vdisk :=
  write_blocks d (.data new_datablock) (count - 41) 41

/-- The function `vsformat`.  The file is created or truncated and then cut to
`size` bytes, which the host fills with zeros; on a bad `m` it is left alone. -/
def vsformat (d : vdisk) (m : Nat) : Int × vdisk :=
  if m < 18 ∨ m > 23 then (-1, d)
  else
    let size := 1 <<< m
    let count := size / BLOCKSIZE
    let d : vdisk := { nblocks := count, block := fun _ => .data new_datablock }
    (0, format_datablocks (format_fattable (format_rootdir (format_superblock d count))) count)

/-- The loop of `vsmount` over the root directory blocks: `none` is a failed
read, which returns at once with the blocks loaded so far. -/
def mount_rootdir (d : vdisk) : Nat → Nat → (Nat → root_dir_block) →
    (Nat → root_dir_block) × Bool
  | 0, _, rootdir => (rootdir, true)
  | k + 1, i, rootdir =>
    match read_rootdir_block d i with
    | none => (rootdir, false)
    | some b => mount_rootdir d k (i + 1) (fun a => if a = i - 33 then b else rootdir a)

/-- The loop of `vsmount` over the FAT blocks. -/
def mount_fattable (d : vdisk) : Nat → Nat → (Nat → fat_table_block) →
    (Nat → fat_table_block) × Bool
  | 0, _, fattable => (fattable, true)
  | k + 1, i, fattable =>
    match read_fat_block d i with
    | none => (fattable, false)
    | some b => mount_fattable d k (i + 1) (fun a => if a = i - 1 then b else fattable a)

/-- The function `vsmount`, on the backing file of the state. -/
def vsmount (s : FS) : Int × FS :=
  let s : FS := { s with openfiletable := fun i =>
    if i < 128 then { s.openfiletable i with free := true } else s.openfiletable i }
  match read_super_block s.disk 0 with
  | none => (-1, s)
  | some sb =>
    let s : FS := { s with superblock := sb }
    match mount_rootdir s.disk 8 33 s.rootdir with
    | (rootdir, false) => (-1, { s with rootdir := rootdir })
    | (rootdir, true) =>
      let s : FS := { s with rootdir := rootdir }
      match mount_fattable s.disk 32 1 s.fattable with
      | (fattable, false) => (-1, { s with fattable := fattable })
      | (fattable, true) => (0, { s with fattable := fattable })

/-- The loop of `vsumount` over the FAT blocks. -/
def umount_fattable (fattable : Nat → fat_table_block) : Nat → Nat → vdisk → vdisk
  | 0, _, d => d
  | k + 1, i, d => umount_fattable fattable k (i + 1) (write_block d (.fat (fattable (i - 1))) i)

/-- The loop of `vsumount` over the root directory blocks. -/
def umount_rootdir (rootdir : Nat → root_dir_block) : Nat → Nat → vdisk → vdisk
  | 0, _, d => d
  | k + 1, i, d =>
    umount_rootdir rootdir k (i + 1) (write_block d (.rootdir (rootdir (i - 33))) i)

/-- The function `vsumount`. -/
def vsumount (s : FS) : Int × FS :=
  let d := write_block s.disk (.super s.superblock) 0
  let d := umount_fattable s.fattable 32 1 d
  let d := umount_rootdir s.rootdir 8 33 d
  (0, { s with disk := d })

/-- The globals as the program starts, all zero bytes, over a backing file. -/
def boot (d : vdisk) : FS :=
  { disk := d,
    superblock := { blockcount := 0, blocksize := 0, freeblock_bitvector := fun _ => 0 },
    fattable := fun _ _ => 0,
    rootdir := fun _ _ =>
      { isoccupied := false, filename := List.replicate 30 0, filesize := 0, startblock := 0 },
    openfiletable := fun _ => { entry := none, mode := 0, free := false } }

/-- The state after `vsformat(m)` and then `vsmount` in a fresh process. -/
def formatted (m : Nat) : FS :=
  (vsmount (boot (vsformat { nblocks := 0, block := fun _ => .data new_datablock } m).2)).2

/-! ## Definitions used to state and prove the properties -/

/-- The scan of `get_nextfreeblock` written over the flat bit index `t`
(the bit that stands for block `41 + t`), used to reason about the nested
loops. -/
def scan_from (sb : super_block) : Nat → Nat → Nat × super_block
  | 0, _ => (0, sb)
  | f + 1, t =>
    if bitfree sb t then
      (41 + t, mark_unavailable sb (t / 16) (sb.freeblock_bitvector (t / 16)) (2 ^ (t % 16)))
    else if 42 + t = sb.blockcount then (0, sb)
    else scan_from sb f (t + 1)

/-- A superblock of 128 blocks in which blocks 41 and 42 are taken. -/
def two_taken : super_block :=
  { blockcount := 128, blocksize := 2048,
    freeblock_bitvector := fun w => if w = 0 then 0xfffc else 0xffff }

/-- The `k`-th block of the FAT chain that starts at `start`. -/
def nth_block (fattable : Nat → fat_table_block) (start : Nat) : Nat → Nat
  | 0 => start
  | k + 1 => fat_get fattable (nth_block fattable start k)

/-- The number of free data blocks the allocator can reach: the set bits `i`
with `41 + i < blockcount`. -/
def free_in_range (sb : super_block) : Nat :=
  (List.range (sb.blockcount - 41)).countP (fun i => bitfree sb i)

/-- The chain from `start` holds the `n` bytes `data`: block `k` of the chain
is a data block of the backing file with the bytes `data (2048 k + x)`, and
the chain ends after the last of them. -/
def stores (fattable : Nat → fat_table_block) (disk : vdisk) (start n : Nat)
    (data : Nat → Nat) : Prop :=
  (∀ k, k * 2048 < n → nth_block fattable start k ≠ 0 ∧
    ∃ b, read_data_block disk (nth_block fattable start k) = some b ∧
      ∀ x, x < 2048 → k * 2048 + x < n → b x = data (k * 2048 + x)) ∧
  nth_block fattable start ((n + 2047) / 2048) = FAT_LIST_NULL

/-- The invariant of the loop of `itervative_append` writing `data` into a fresh
chain that starts at `b0`, after `i` bytes: the block in hand is block
`(i - 1) / 2048` of the chain and ends it, the chain so far consists of
distinct allocated data blocks, every block the first `i` bytes fill is on
disk, the scratch block holds the bytes of the block in hand, and enough free
blocks are left for the `n` bytes. -/
structure AppendInv (data : Nat → Nat) (b0 bc n i : Nat) (st : append_state) : Prop where
  bc_eq : st.superblock.blockcount = bc
  flag_iff : st.flagnewblock = true ↔ (0 < i ∧ i % 2048 = 0)
  curr_eq : nth_block st.fattable b0 ((i - 1) / 2048) = st.currblocknumber
  curr_end : fat_get st.fattable st.currblocknumber = 0
  prev_link : fat_get st.fattable st.prevblocknumber = st.currblocknumber
  alloc : ∀ m, m ≤ (i - 1) / 2048 →
    41 ≤ nth_block st.fattable b0 m ∧ nth_block st.fattable b0 m < bc ∧
      bitfree st.superblock (nth_block st.fattable b0 m - 41) = false
  distinct : ∀ m, m < (i - 1) / 2048 → nth_block st.fattable b0 m ≠ st.currblocknumber
  written : ∀ m, m * 2048 + 2048 ≤ i →
    ∃ b, read_data_block st.disk (nth_block st.fattable b0 m) = some b ∧
      ∀ y, y < 2048 → b y = data (m * 2048 + y)
  part : ∀ y, y < 2048 → (i - 1) / 2048 * 2048 + y < i →
    st.datablock y = data ((i - 1) / 2048 * 2048 + y)
  free : (n + 2047) / 2048 ≤ free_in_range st.superblock + ((i - 1) / 2048 + 1)

/-! ## Scenarios: sequences of calls after `vsformat(18)` and `vsmount` -/

/-- The file name "a". -/
def name_a : List Nat := [97]

/-- The file name "x". -/
def name_x : List Nat := [120]

/-- The calls create "x"; open "x" for reading; delete "x": the handle in slot 0
outlives the file. -/
def stale_read_handle : Except Fault FS := do
  let s1 := (vscreate (formatted 18) name_x).2
  let s2 := (vsopen s1 name_x MODE_READ).2
  let r3 ← vsdelete 3 s2 name_x
  pure r3.2

/-- The calls create "x"; open "x" for appending; delete "x"; append one byte
through the handle that outlived the file. -/
def stale_append : Except Fault FS := do
  let s1 := (vscreate (formatted 18) name_x).2
  let s2 := (vsopen s1 name_x MODE_APPEND).2
  let r3 ← vsdelete 3 s2 name_x
  let r4 ← vsappend 1 r3.2 0 (fun _ => 65) 1
  pure r4.2

/-- The calls create "x"; create ""; delete "x": the file with the empty name
sits at position 1 behind the blank entry at position 0. -/
def empty_name_second : Except Fault FS := do
  let s1 := (vscreate (formatted 18) name_x).2
  let s2 := (vscreate s1 []).2
  let r3 ← vsdelete 3 s2 name_x
  pure r3.2

/-- The five bytes of "HELLO", zero after them. -/
def hello : Nat → Nat := fun k => [72, 69, 76, 76, 79].getD k 0

/-- The calls create "a"; open "a" for appending; append the one byte 65. -/
def one_byte_file : Except Fault FS := do
  let s1 := (vscreate (formatted 18) name_a).2
  let s2 := (vsopen s1 name_a MODE_APPEND).2
  let r3 ← vsappend 1 s2 0 (fun _ => 65) 1
  pure r3.2

/-- The 2048 bytes appended next: 66 everywhere but the last, which is 90. -/
def overflow_input : Nat → Nat := fun i => if i = 2047 then 90 else 66

/-- After `one_byte_file`, append the 2048 bytes of `overflow_input`. -/
def overflow_append : Except Fault FS := do
  let s ← one_byte_file
  let r ← vsappend 1 s 0 overflow_input 2048
  pure r.2

/-- After `overflow_append`: close, open "a" for reading and read the 2049
bytes of the file into a buffer filled with 7. -/
def overflow_read_back : Except Fault (Int × (Nat → Nat)) := do
  let s ← overflow_append
  let r ← vsclose s 0
  let s2 := (vsopen r.2 name_a MODE_READ).2
  vsread s2 0 (fun _ => 7) 2049

/-- The calls create "a"; open "a" for appending; append 3000 bytes of 0x41. -/
def two_block_file : Except Fault FS := do
  let s1 := (vscreate (formatted 18) name_a).2
  let s2 := (vsopen s1 name_a MODE_APPEND).2
  let r3 ← vsappend 1 s2 0 (fun _ => 0x41) 3000
  pure r3.2

/-- After `two_block_file`, delete "a". -/
def two_block_file_deleted : Except Fault FS := do
  let s ← two_block_file
  let r ← vsdelete 3 s name_a
  pure r.2

/-- A superblock of 128 blocks in which every data block, 41 to 127, is taken:
bits 0 to 86 are clear. -/
def full_superblock : super_block :=
  { blockcount := 128, blocksize := BLOCKSIZE,
    freeblock_bitvector := fun w => if w < 5 then 0 else if w = 5 then 0xff80 else 0xffff }

/-- The image of `vsformat(18)` with the superblock of a full data region, as an
earlier session that used up the 87 data blocks leaves it. -/
def full_image : vdisk :=
  write_block (vsformat { nblocks := 0, block := fun _ => .data new_datablock } 18).2
    (.super full_superblock) 0

/-- Mount the full image, create "a" and open it for appending. -/
def full_with_handle : FS :=
  (vsopen (vscreate (vsmount (boot full_image)).2 name_a).2 name_a MODE_APPEND).2

/-! ## Definitions for the properties of chains and reachable states -/

/-- Block `b` is on the chain that starts at `start`: the walk reaches it
before it reaches `FAT_LIST_NULL`. -/
def InChain (fattable : Nat → fat_table_block) (start b : Nat) : Prop :=
  ∃ k, nth_block fattable start k = b ∧ ∀ m, m ≤ k → nth_block fattable start m ≠ FAT_LIST_NULL

/-- The walk from `start` visits exactly `len` blocks and then reaches
`FAT_LIST_NULL`. -/
def chain_has_length (fattable : Nat → fat_table_block) (start len : Nat) : Prop :=
  (∀ m, m < len → nth_block fattable start m ≠ FAT_LIST_NULL) ∧
  nth_block fattable start len = FAT_LIST_NULL

instance (fattable : Nat → fat_table_block) (start len : Nat) :
    Decidable (chain_has_length fattable start len) := by
  unfold chain_has_length
  exact inferInstance

/-- The chains of the directory entries, with `starts i j` the start block of
entry `(i, j)`: the block count is one that format writes, every block on a
chain is a data block in range whose free bit is clear, and the chains of two
different entries have no block in common. -/
def ChainsOK (sb : super_block) (fattable : Nat → fat_table_block)
    (starts : Nat → Nat → Nat) : Prop :=
  (128 ≤ sb.blockcount ∧ sb.blockcount ≤ 4096) ∧
  (∀ i j b, InChain fattable (starts i j) b →
    41 ≤ b ∧ b < sb.blockcount ∧ bitfree sb (b - 41) = false) ∧
  (∀ i j i' j' b, ¬ (i = i' ∧ j = j') →
    InChain fattable (starts i j) b → InChain fattable (starts i' j') b → False)

/-- No two different occupied entries of the root directory hold the same file
name, as C strings. -/
def NamesUnique (rootdir : Nat → root_dir_block) : Prop :=
  ∀ i j i' j', i < 8 → j < 16 → i' < 8 → j' < 16 → ¬ (i = i' ∧ j = j') →
    (rootdir i j).isoccupied = true → (rootdir i' j').isoccupied = true →
    cstr (rootdir i j).filename ≠ cstr (rootdir i' j').filename

/-- The invariant of the loop of `itervative_append` as far as the chains go:
the chains are in order, the block in hand is 0 or an allocated data block, and
the FAT entry of `prevblocknumber` is `currblocknumber`. -/
structure LinkInv (starts : Nat → Nat → Nat) (st : append_state) : Prop where
  ok : ChainsOK st.superblock st.fattable starts
  curr_ok : st.currblocknumber = 0 ∨
    (41 ≤ st.currblocknumber ∧ st.currblocknumber < st.superblock.blockcount ∧
      bitfree st.superblock (st.currblocknumber - 41) = false)
  prev_link : fat_get st.fattable st.prevblocknumber = st.currblocknumber

/-- The image that `vsformat` leaves for `count` blocks, block by block. -/
def fresh_disk (count : Nat) : vdisk :=
  { nblocks := count,
    block := fun k =>
      if k = 0 then .super (fresh_superblock count)
      else if k ≤ 32 then .fat (fun _ => FAT_LIST_NULL)
      else if k ≤ 40 then .rootdir (fun _ => blank_entry)
      else .data new_datablock }

/-- The state right after `vsformat` and `vsmount` for `count` blocks, in closed
form: nothing allocated, no file, no handle. -/
def fresh (count : Nat) : FS :=
  { disk := fresh_disk count,
    superblock := fresh_superblock count,
    fattable := fun _ _ => FAT_LIST_NULL,
    rootdir := fun _ _ => blank_entry,
    openfiletable := fun i =>
      if i < 128 then { entry := none, mode := 0, free := true }
      else { entry := none, mode := 0, free := false } }

/-- The states reached from `vsformat(m)` and `vsmount` by calls of `vscreate`,
`vsopen`, `vsclose`, `vsappend` and `vsdelete` that return. -/
inductive Reachable : FS → Prop where
  | init (m : Nat) (h1 : 18 ≤ m) (h2 : m ≤ 23) : Reachable (formatted m)
  | create (s : FS) (name : List Nat) : Reachable s → Reachable (vscreate s name).2
  | opened (s : FS) (name : List Nat) (mode : Int) :
      Reachable s → Reachable (vsopen s name mode).2
  | closed (s : FS) (fd r : Int) (s' : FS) :
      Reachable s → vsclose s fd = .ok (r, s') → Reachable s'
  | appended (fuel : Nat) (s : FS) (fd : Int) (buf : Nat → Nat) (n : Nat) (r : Int) (s' : FS) :
      Reachable s → vsappend fuel s fd buf n = .ok (r, s') → Reachable s'
  | deleted (fuel : Nat) (s : FS) (name : List Nat) (r : Int) (s' : FS) :
      Reachable s → vsdelete fuel s name = .ok (r, s') → Reachable s'

/-- The calls of `vsappend(fd, buf, n)` repeated `k` times: the statuses
returned, in order, and the state after the last call. -/
def append_times (fuel : Nat) (fd : Int) (buf : Nat → Nat) (n : Nat) :
    Nat → FS → Except Fault (List Int × FS)
  | 0, s => .ok ([], s)
  | k + 1, s =>
    match vsappend fuel s fd buf n with
    | .error e => .error e
    | .ok (r, s') =>
      match append_times fuel fd buf n k s' with
      | .error e => .error e
      | .ok (rs, s'') => .ok (r :: rs, s'')

/-- The state `s` after `m` one-byte appends of `v` through the handle of entry
`(i, j)`, which started in `s0`: the handle table is as it was, the entry has
size `m` and start block `b0`, the chain from `b0` has `⌈m / 2048⌉` distinct
allocated data blocks that hold `m` copies of `v`, and enough free blocks are
left for `k` bytes in all. -/
structure SingleInv (s0 : FS) (i j v k b0 m : Nat) (s : FS) : Prop where
  oft : s.openfiletable = s0.openfiletable
  rd_other : ∀ a b, ¬ (a = i ∧ b = j) → s.rootdir a b = s0.rootdir a b
  rd_name : (s.rootdir i j).filename = (s0.rootdir i j).filename
  rd_size : (s.rootdir i j).filesize = m
  rd_start : (s.rootdir i j).startblock = b0
  bc : s.superblock.blockcount = s0.superblock.blockcount
  alloc : ∀ t, t < (m + 2047) / 2048 →
    41 ≤ nth_block s.fattable b0 t ∧ nth_block s.fattable b0 t < s.superblock.blockcount ∧
      bitfree s.superblock (nth_block s.fattable b0 t - 41) = false
  chain_end : nth_block s.fattable b0 ((m + 2047) / 2048) = 0
  distinct : ∀ t t', t < t' → t' < (m + 2047) / 2048 →
    nth_block s.fattable b0 t ≠ nth_block s.fattable b0 t'
  data : ∀ t, t < (m + 2047) / 2048 →
    ∃ blk, read_data_block s.disk (nth_block s.fattable b0 t) = some blk ∧
      ∀ x, x < 2048 → t * 2048 + x < m → blk x = v
  free : (k + 2047) / 2048 ≤ free_in_range s.superblock + (m + 2047) / 2048

/-- The state after a call that returned, and `s` when it did not. -/
def state_after (r : Except Fault (Int × FS)) (s : FS) : FS :=
  match r with
  | .ok p => p.2
  | .error _ => s

/-- The calls create "a"; create "x"; open "a" for appending; append the one
byte 0x41; open "x" for appending; append the one byte 0x42. -/
def two_files : FS :=
  let s1 := (vscreate (formatted 18) name_a).2
  let s2 := (vscreate s1 name_x).2
  let s3 := (vsopen s2 name_a MODE_APPEND).2
  let s4 := state_after (vsappend 1 s3 0 (fun _ => 0x41) 1) s3
  let s5 := (vsopen s4 name_x MODE_APPEND).2
  state_after (vsappend 1 s5 1 (fun _ => 0x42) 1) s5

/-- The calls create "a"; open "a" for appending: an empty file behind slot
0. -/
def empty_file_open : FS :=
  (vsopen (vscreate (formatted 18) name_a).2 name_a MODE_APPEND).2

/-- A FAT with the one chain 41 -> 42 -> 43. -/
def three_block_fat : Nat → fat_table_block :=
  fat_set (fat_set (fun _ _ => FAT_LIST_NULL) 41 42) 42 43

/-! ## More scenarios after `vsformat(18)` and `vsmount` -/

/-- The calls create ""; delete "". -/
def empty_name_deleted : Except Fault (Int × FS) :=
  vsdelete 3 (vscreate (formatted 18) []).2 []

/-- The calls create "a"; open "a" for appending; append zero bytes. -/
def zero_byte_append : Except Fault FS := do
  let s1 := (vscreate (formatted 18) name_a).2
  let s2 := (vsopen s1 name_a MODE_APPEND).2
  let r3 ← vsappend 1 s2 0 (fun _ => 65) 0
  pure r3.2

/-- After `one_byte_file`, append 4096 bytes of 66: one byte past what fills
the first block and one whole block more. -/
def short_chain : Except Fault FS := do
  let s ← one_byte_file
  let r ← vsappend 1 s 0 (fun _ => 66) 4096
  pure r.2

/-- The states reached from `vsformat(m)` and `vsmount` by calls of `vscreate`,
`vsopen`, `vsclose`, `vsappend` and `vsdelete` that return, where every
`vsappend` goes through a slot whose directory entry is occupied (not a handle
that outlived the `vsdelete` of its file). -/
inductive ReachableLive : FS → Prop where
  | init (m : Nat) (h1 : 18 ≤ m) (h2 : m ≤ 23) : ReachableLive (formatted m)
  | create (s : FS) (name : List Nat) : ReachableLive s → ReachableLive (vscreate s name).2
  | opened (s : FS) (name : List Nat) (mode : Int) :
      ReachableLive s → ReachableLive (vsopen s name mode).2
  | closed (s : FS) (fd r : Int) (s' : FS) :
      ReachableLive s → vsclose s fd = .ok (r, s') → ReachableLive s'
  | appended (fuel : Nat) (s : FS) (fd : Int) (buf : Nat → Nat) (n : Nat) (r : Int) (s' : FS) :
      ReachableLive s → vsappend fuel s fd buf n = .ok (r, s') →
      (∀ i j, (s.openfiletable fd.toNat).entry = some (i, j) →
        (s.rootdir i j).isoccupied = true) →
      ReachableLive s'
  | deleted (fuel : Nat) (s : FS) (name : List Nat) (r : Int) (s' : FS) :
      ReachableLive s → vsdelete fuel s name = .ok (r, s') → ReachableLive s'

/-- The calls create "a"; delete "a". -/
def created_and_deleted : FS :=
  state_after (vsdelete 3 (vscreate (formatted 18) name_a).2 name_a)
    (vscreate (formatted 18) name_a).2

/-! ## The blocks of the backing file that an append writes -/

/-- The invariant of the loop of `itervative_append` as far as the backing file
goes, against the file `d0` the call started with: the block count is `bc`,
the block in hand is a data block in range (or 0, when `lo = 1`: the
allocator had no block), the file has the size of `d0`, and its blocks from
`lo` to 40 are those of `d0`. -/
structure DiskInv (d0 : vdisk) (bc lo : Nat) (st : append_state) : Prop where
  bc_eq : st.superblock.blockcount = bc
  curr_ok : (lo = 1 ∧ st.currblocknumber = 0) ∨
    (41 ≤ st.currblocknumber ∧ st.currblocknumber < bc)
  size : st.disk.nblocks = d0.nblocks
  low : ∀ k, lo ≤ k → k < 41 → st.disk.block k = d0.block k

/-- The invariant of the loop of `itervative_append` writing `cnt` bytes, after
`i` of them, that says the allocator will not run out: a new block is due
exactly at the positive multiples of 2048, and the free blocks in range cover
the blocks still to come. -/
structure FreeInv (cnt i : Nat) (st : append_state) : Prop where
  flag_iff : st.flagnewblock = true ↔ (0 < i ∧ i % 2048 = 0)
  free : (cnt + 2047) / 2048 ≤ free_in_range st.superblock + ((i - 1) / 2048 + 1)

/-- The calls create the file named by the one byte `97 + f`; open it for
appending, which gives slot `f`; append zero bytes three times.  Each of the
appends takes one block. -/
def fill_step (f : Nat) (s : FS) : Except Fault FS := do
  let s1 := (vscreate s [97 + f]).2
  let s2 := (vsopen s1 [97 + f] MODE_APPEND).2
  let r ← append_times 7 (f : Int) (fun _ => 0) 0 3 s2
  pure r.2

/-- The steps `fill_step f`, `fill_step (f + 1)`, ... for `k` files. -/
def fill_files : Nat → Nat → FS → Except Fault FS
  | 0, _, s => .ok s
  | k + 1, f, s =>
    match fill_step f s with
    | .error e => .error e
    | .ok s' => fill_files k (f + 1) s'

/-- After `vsformat(18)` and `vsmount`: 29 files of three blocks each, which
takes all 87 data blocks. -/
def exhausted : Except Fault FS := fill_files 29 0 (formatted 18)

/-! ## The code evaluated at concrete inputs -/

/-- C18 (code at the failing input): after one append of 3000 bytes of 0x41 to
the new file "a", `filesize` is 3000 and the chain is 41 -> 42; block 42 holds
0x41 in its first 952 bytes and 0x41 again in its last 1096 bytes, not zeros:
the scratch block still holds the bytes of block 41 there. -/
theorem last_block_keeps_stale_bytes :
    two_block_file.map (fun s => ((s.rootdir 0 0).filesize, (s.rootdir 0 0).startblock))
      = .ok (3000, 41) ∧
    two_block_file.map (fun s => decide (chain_has_length s.fattable 41 2)) = .ok true ∧
    two_block_file.map (fun s => (read_data_block s.disk 41).map fun b => (b 0, b 2047))
      = .ok (some (0x41, 0x41)) ∧
    two_block_file.map (fun s => (read_data_block s.disk 42).map fun b => (b 0, b 951))
      = .ok (some (0x41, 0x41)) ∧
    two_block_file.map (fun s =>
        (read_data_block s.disk 42).map fun b => (b 952, b 1500, b 2047))
      = .ok (some (0x41, 0x41, 0x41)) := by
  decide!

/-- C3 (counterexample): the file "a" of 3000 bytes has the chain 41 -> 42; after
`vsdelete` returned 0, the bits of blocks 41 and 42 are still 0, the FAT entry
of block 41 is still 42, and `get_freeblockcount` is 4085 as after the append,
not the 4087 from before it. -/
theorem vsdelete_leaks_blocks :
    (two_block_file.map fun s =>
        ((s.rootdir 0 0).startblock, fat_get s.fattable 41, fat_get s.fattable 42))
      = .ok (41, 42, FAT_LIST_NULL) ∧
    (two_block_file.bind fun s => vsdelete 3 s name_a).map Prod.fst = .ok 0 ∧
    (two_block_file_deleted.map fun s =>
        (bitfree s.superblock 0, bitfree s.superblock 1, fat_get s.fattable 41))
      = .ok (false, false, 42) ∧
    get_freeblockcount (formatted 18).superblock = 4087 ∧
    (two_block_file.map fun s => get_freeblockcount s.superblock) = .ok 4085 ∧
    (two_block_file_deleted.map fun s => get_freeblockcount s.superblock) = .ok 4085 := by
  decide!

/-- C2 (code at the failing input): the file "a" holds one byte and is open for
appending; appending the 2048 bytes of `overflow_input` returns 0 and sets the
size to 2049; the first 2047 input bytes fill block 41, but the chunked writer
is called with an ending index of 0 and writes nothing, so block 42 starts
with 0 and the byte read back at file position 2048 is 0, not input byte 2047,
which is 90. -/
theorem vsappend_overflow_drops_byte :
    (one_byte_file.map fun s =>
        ((s.rootdir 0 0).filesize, (s.openfiletable 0).free, (s.openfiletable 0).mode))
      = .ok (1, false, MODE_APPEND) ∧
    (one_byte_file.bind fun s => vsappend 1 s 0 overflow_input 2048).map Prod.fst = .ok 0 ∧
    (overflow_append.map fun s =>
        ((s.rootdir 0 0).filesize, (s.rootdir 0 0).startblock, fat_get s.fattable 41,
          fat_get s.fattable 42)) = .ok (2049, 41, 42, FAT_LIST_NULL) ∧
    (overflow_append.map fun s => (read_data_block s.disk 41).map fun b => (b 0, b 1, b 2047))
      = .ok (some (65, overflow_input 0, overflow_input 2046)) ∧
    overflow_input 2047 = 90 ∧
    (overflow_append.map fun s => (read_data_block s.disk 42).map fun b => b 0) = .ok (some 0) ∧
    (overflow_read_back.map fun r => (r.1, r.2 0, r.2 2047, r.2 2048)) = .ok (0, 65, 66, 0) := by
  decide!

/-- C14 (code at the failing input): the file "a" holds one byte; appending 4096
bytes returns 0 and sets `filesize` to 4097, which needs 3 blocks, but the
walk from `startblock` 41 visits 2 blocks and then reaches `FAT_LIST_NULL`:
after the 2047 bytes that fill block 41 the chunked writer is given 2048
bytes, not 2049. -/
theorem chain_shorter_than_filesize :
    (one_byte_file.bind fun s => vsappend 1 s 0 (fun _ => 66) 4096).map Prod.fst = .ok 0 ∧
    short_chain.map (fun s =>
        ((s.rootdir 0 0).isoccupied, (s.rootdir 0 0).filesize, (s.rootdir 0 0).startblock))
      = .ok (true, 4097, 41) ∧
    short_chain.map (fun s => decide (chain_has_length s.fattable 41 2)) = .ok true ∧
    (4097 + 2047) / 2048 = 3 := by
  decide!

/-- C1 (counterexample): after create "x", open "x" for reading and delete "x",
slot 0 is still in use in mode `MODE_READ`.  `vscreate` accepts "a" and puts it
at position 0, a free block is in range, but `vsopen` of "a" for appending
returns -1, so the round trip fails at its second step. -/
theorem round_trip_fails_after_stale_handle :
    (stale_read_handle.map fun s =>
        ((s.openfiletable 0).free, (s.openfiletable 0).mode, (s.rootdir 0 0).isoccupied))
      = .ok (false, MODE_READ, false) ∧
    (stale_read_handle.map fun s =>
        ((vscreate s name_a).1, ((vscreate s name_a).2.rootdir 0 0).isoccupied,
          decide (1 ≤ free_in_range s.superblock)))
      = .ok (0, true, true) ∧
    (stale_read_handle.map fun s => (vsopen (vscreate s name_a).2 name_a MODE_APPEND).1)
      = .ok (-1) := by
  decide!

/-- C5 (code at the failing input): after `vsformat(18)` and `vsmount`, both
returning 0, the block count is 128 and `get_freeblockcount` returns 4087, not
128 - 41 = 87: the `break` leaves only the inner loop, so every bit of the
words after the one that reaches `blockcount` is counted as well. -/
theorem get_freeblockcount_after_format :
    (vsformat { nblocks := 0, block := fun _ => .data new_datablock } 18).1 = 0 ∧
    (vsmount (boot (vsformat { nblocks := 0, block := fun _ => .data new_datablock } 18).2)).1
      = 0 ∧
    (formatted 18).superblock.blockcount = 128 ∧
    (∀ i, i < 87 → bitfree (formatted 18).superblock i = true) ∧
    get_freeblockcount (formatted 18).superblock = 4087 := by
  decide!

/-- C6 (counterexample): on the mounted full image, where the allocator returns 0
because bits 0 to 86 are clear, the file "a" is open for appending in slot 0
and is empty, so the append of one byte needs a new block; `vsappend` returns
0, not -1, and records a size of 1 with start block 0. -/
theorem vsappend_ignores_exhaustion :
    (∀ i, i < 87 → bitfree full_with_handle.superblock i = false) ∧
    full_with_handle.superblock.blockcount = 128 ∧
    (get_nextfreeblock full_with_handle.superblock).1 = 0 ∧
    ((full_with_handle.openfiletable 0).free, (full_with_handle.openfiletable 0).mode,
      (full_with_handle.openfiletable 0).entry) = (false, MODE_APPEND, some (0, 0)) ∧
    (full_with_handle.rootdir 0 0).filesize = 0 ∧
    (vsappend 1 full_with_handle 0 (fun _ => 65) 1).map Prod.fst = .ok 0 ∧
    (vsappend 1 full_with_handle 0 (fun _ => 65) 1).map
        (fun r => ((r.2.rootdir 0 0).filesize, (r.2.rootdir 0 0).startblock)) = .ok (1, 0) := by
  decide!

/-- C8 (counterexample): after create "x", open "x" for appending, delete "x" and
an append of one byte through the handle that is still open, entry 0 is
unoccupied with `filesize` 1 and `startblock` 41; `vscreate` of "a" returns 0
and takes entry 0, whose `filesize` is then 1 and whose `startblock` is 41,
not 0 and `NO_START_BLOCK`. -/
theorem vscreate_keeps_stale_size :
    (stale_append.map fun s =>
        ((s.rootdir 0 0).isoccupied, (s.rootdir 0 0).filesize, (s.rootdir 0 0).startblock))
      = .ok (false, 1, 41) ∧
    (stale_append.map fun s =>
        ((vscreate s name_a).1, ((vscreate s name_a).2.rootdir 0 0).isoccupied,
          ((vscreate s name_a).2.rootdir 0 0).filesize,
          ((vscreate s name_a).2.rootdir 0 0).startblock))
      = .ok (0, true, 1, 41) := by
  decide!

/-- C9 (code at the failing input): after create "x", create "" and delete "x",
the file with the empty name is the occupied entry at position 1 and position 0
is unoccupied; `vsopen` of the empty name returns 0, not 1, and it is slot 0
that becomes in use, pointing at entry 0, while slot 1 stays free. -/
theorem vsopen_returns_unoccupied_position :
    (empty_name_second.map fun s =>
        ((s.rootdir 0 0).isoccupied, (s.rootdir 0 1).isoccupied, cstr (s.rootdir 0 1).filename))
      = .ok (false, true, []) ∧
    (empty_name_second.map fun s => (vsopen s [] MODE_READ).1) = .ok 0 ∧
    (empty_name_second.map fun s =>
        (((vsopen s [] MODE_READ).2.openfiletable 0).free,
          ((vsopen s [] MODE_READ).2.openfiletable 0).entry,
          ((vsopen s [] MODE_READ).2.openfiletable 1).free))
      = .ok (false, some (0, 0), true) := by
  decide!

/-- C10 (code at the failing input): right after `vsformat(18)` and `vsmount` no
entry is occupied, yet `vsopen` of the empty name returns 0 and takes slot 0 of
the open-file table, and `vsdelete` of the empty name returns 0; a missing name
that is not empty gets -1 from both. -/
theorem vsopen_vsdelete_empty_name :
    (∀ i, i < 8 → ∀ j, j < 16 → ((formatted 18).rootdir i j).isoccupied = false) ∧
    (vsopen (formatted 18) [] MODE_READ).1 = 0 ∧
    ((formatted 18).openfiletable 0).free = true ∧
    ((vsopen (formatted 18) [] MODE_READ).2.openfiletable 0).free = false ∧
    (vsdelete 3 (formatted 18) []).map Prod.fst = .ok 0 ∧
    (vsopen (formatted 18) name_x MODE_READ).1 = -1 ∧
    (vsdelete 3 (formatted 18) name_x).map Prod.fst = .ok (-1) := by
  decide!

/-- C13 (code at the failing input): after create "" the file with the empty
name is the occupied entry at position 0 (block 0, entry 0); `vsdelete` of the
empty name returns 0 but entry 0 is still occupied: the search compares the
names of unoccupied entries too and its `break` leaves the inner loop only,
so the blank entry at the head of the last block, (7, 0), is the one
cleared. -/
theorem vsdelete_clears_other_entry :
    (vscreate (formatted 18) []).1 = 0 ∧
    (((vscreate (formatted 18) []).2.rootdir 0 0).isoccupied,
      cstr ((vscreate (formatted 18) []).2.rootdir 0 0).filename) = (true, []) ∧
    vsdelete_find (vscreate (formatted 18) []).2.rootdir [] 8 0 (0, 0, false) = (7, 0, true) ∧
    empty_name_deleted.map (fun r => (r.1, (r.2.rootdir 0 0).isoccupied)) = .ok (0, true) := by
  decide!

/-- C15 (code at the failing input): after create "a" and open for appending,
`vsappend` of zero bytes returns 0, takes block 41 as `startblock` and leaves
`filesize` at 0: an occupied entry with `filesize == 0` and
`startblock != NO_START_BLOCK`. -/
theorem zero_append_takes_block :
    (vsappend 1 (vsopen (vscreate (formatted 18) name_a).2 name_a MODE_APPEND).2 0
        (fun _ => 65) 0).map Prod.fst = .ok 0 ∧
    zero_byte_append.map (fun s =>
        ((s.rootdir 0 0).isoccupied, (s.rootdir 0 0).filesize, (s.rootdir 0 0).startblock))
      = .ok (true, 0, 41) ∧
    NO_START_BLOCK = 0 := by
  decide!

/-- C23 (counterexample): after create "a", open for appending and one append
of one byte, the FAT entry of block 0 is 41, the start block of the file:
`vsappend` calls `itervative_append` with `prevblock = 0`, which sets the FAT
entry of `prevblock` to the new block. -/
theorem first_append_writes_fat_zero :
    (one_byte_file.map fun s => ((s.rootdir 0 0).startblock, fat_get s.fattable 0))
      = .ok (41, 41) := by
  decide!

/-- C25 (counterexample): after create "x", open "x" for appending, delete "x"
and an append of one byte through the handle that is still open, entry 0 is
unoccupied with `filesize = 1` and `startblock = 41`. -/
theorem unoccupied_entry_with_size :
    (stale_append.map fun s =>
        ((s.rootdir 0 0).isoccupied, (s.rootdir 0 0).filesize, (s.rootdir 0 0).startblock))
      = .ok (false, 1, 41) := by
  decide!

/-- C26 (counterexample): after 29 files of three blocks each no block in range
is free and block 0 of the backing file still holds the superblock; the next
append of one byte 0x41 through slot 0 returns 0 and block 0 of the backing
file is then a data block that starts with 0x41: the allocator returned 0 and
`itervative_append` wrote its data block there. -/
theorem append_overwrites_block_zero :
    (exhausted.map fun s =>
        (free_in_range s.superblock, (get_nextfreeblock s.superblock).1,
          (read_super_block s.disk 0).isSome))
      = .ok (0, 0, true) ∧
    ((exhausted.bind fun s => vsappend 7 s 0 (fun _ => 0x41) 1).map fun r =>
        (r.1, (read_super_block r.2.disk 0).isSome,
          (read_data_block r.2.disk 0).map fun b => b 0))
      = .ok (0, false, some 0x41) := by
  decide!

/-! ## The allocator -/

theorem mask_test (p cp : Nat) (hp : p < 16) :
    ((2 ^ p % 0x10000) &&& cp ≠ 0) ↔ cp.testBit p = true := by
  have h1 : 2 ^ p < 0x10000 := by
    have : 2 ^ p < 2 ^ 16 := Nat.pow_lt_pow_right (by norm_num) hp
    simpa using this
  rw [Nat.mod_eq_of_lt h1, Nat.two_pow_and]
  cases h : cp.testBit p
  · simp
  · simp

theorem bits_spec (sb : super_block) (i F : Nat) :
    ∀ k p, k + p = 16 →
      (match get_nextfreeblock_bits sb i (sb.freeblock_bitvector i) k (2 ^ p)
          (41 + (16 * i + p)) with
        | .inl r => r
        | .inr _ => scan_from sb F (16 * i + 16))
      = scan_from sb (k + F) (16 * i + p) := by
  intro k
  induction k with
  | zero =>
    intro p hp
    have : p = 16 := by omega
    subst this
    simp [get_nextfreeblock_bits]
  | succ k ih =>
    intro p hp
    have hp16 : p < 16 := by omega
    have hdiv : (16 * i + p) / 16 = i := by omega
    have hmod : (16 * i + p) % 16 = p := by omega
    have hfuel : k + 1 + F = (k + F) + 1 := by omega
    rw [hfuel]
    simp only [get_nextfreeblock_bits, scan_from, bitfree, hdiv, hmod]
    by_cases hb : (sb.freeblock_bitvector i).testBit p = true
    · have := (mask_test p (sb.freeblock_bitvector i) hp16).2 hb
      simp [this, hb]
    · have hm : ¬ ((2 ^ p % 0x10000) &&& sb.freeblock_bitvector i ≠ 0) :=
        fun h => hb ((mask_test p (sb.freeblock_bitvector i) hp16).1 h)
      have hsh : (2 ^ p) <<< 1 = 2 ^ (p + 1) := by
        rw [Nat.shiftLeft_eq]; ring
      have hbc : (41 + (16 * i + p) + 1 = sb.blockcount) ↔ (42 + (16 * i + p) = sb.blockcount) := by
        omega
      simp only [hm, hb, if_false, hbc, hsh]
      by_cases hc : 42 + (16 * i + p) = sb.blockcount
      · simp [hc]
      · simp only [hc, if_false]
        have := ih (p + 1) (by omega)
        simpa [Nat.add_assoc] using this

theorem bits_inr (sb : super_block) (i cp : Nat) :
    ∀ k j fb fb', get_nextfreeblock_bits sb i cp k j fb = .inr fb' → fb' = fb + k := by
  intro k
  induction k with
  | zero =>
    intro j fb fb' h
    simp [get_nextfreeblock_bits] at h
    omega
  | succ k ih =>
    intro j fb fb' h
    simp only [get_nextfreeblock_bits] at h
    split at h
    · simp at h
    · split at h
      · simp at h
      · have := ih _ _ _ h
        omega

theorem words_spec (sb : super_block) :
    ∀ r i, get_nextfreeblock_words sb r i (41 + 16 * i) = scan_from sb (16 * r) (16 * i) := by
  intro r
  induction r with
  | zero => intro i; simp [get_nextfreeblock_words, scan_from]
  | succ r ih =>
    intro i
    have hb := bits_spec sb i (16 * r) 16 0 (by omega)
    have hfuel : 16 * (r + 1) = 16 + 16 * r := by omega
    rw [hfuel]
    simp only [Nat.add_zero, pow_zero] at hb
    rw [← hb]
    simp only [get_nextfreeblock_words]
    cases h : get_nextfreeblock_bits sb i (sb.freeblock_bitvector i) 16 1 (41 + 16 * i) with
    | inl res => rfl
    | inr fb' =>
      have := bits_inr sb i _ _ _ _ _ h
      subst this
      have := ih (i + 1)
      have h2 : 41 + 16 * i + 16 = 41 + 16 * (i + 1) := by omega
      have h3 : 16 * i + 16 = 16 * (i + 1) := by omega
      simp only [h2, h3]
      exact this

theorem get_nextfreeblock_eq_scan (sb : super_block) :
    get_nextfreeblock sb = scan_from sb 4096 0 := by
  have := words_spec sb 256 0
  simpa [get_nextfreeblock, FREEBLOCK_BITVECTOR_SIZE, MAX_BLOCK_COUNT] using this

theorem scan_from_found (sb : super_block) :
    ∀ f t i, t ≤ i → i < t + f → bitfree sb i = true →
      (∀ k, t ≤ k → k < i → bitfree sb k = false) → 41 + i < sb.blockcount →
      scan_from sb f t =
        (41 + i, mark_unavailable sb (i / 16) (sb.freeblock_bitvector (i / 16)) (2 ^ (i % 16))) := by
  intro f
  induction f with
  | zero => intro t i h1 h2; omega
  | succ f ih =>
    intro t i h1 h2 hi hlow hbc
    simp only [scan_from]
    by_cases hti : t = i
    · subst hti
      simp [hi]
    · have hlt : t < i := by omega
      have hb := hlow t (le_refl _) hlt
      have hne : ¬ (42 + t = sb.blockcount) := by omega
      simp only [hb, hne, if_false, Bool.false_eq_true]
      exact ih (t + 1) i (by omega) (by omega) hi (fun k hk1 hk2 => hlow k (by omega) hk2) hbc

theorem scan_from_none (sb : super_block)
    (hnone : ∀ i, 41 + i < sb.blockcount → bitfree sb i = false) :
    ∀ f t, 41 + t < sb.blockcount → scan_from sb f t = (0, sb) := by
  intro f
  induction f with
  | zero => intro t _; rfl
  | succ f ih =>
    intro t ht
    simp only [scan_from, hnone t ht, Bool.false_eq_true, if_false]
    by_cases hc : 42 + t = sb.blockcount
    · simp [hc]
    · simp only [hc, if_false]
      exact ih (t + 1) (by omega)

theorem bitfree_mark_unavailable (sb : super_block) (i k : Nat) :
    bitfree (mark_unavailable sb (i / 16) (sb.freeblock_bitvector (i / 16)) (2 ^ (i % 16))) k
      = (bitfree sb k && decide (k ≠ i)) := by
  simp only [bitfree, mark_unavailable]
  by_cases hw : k / 16 = i / 16
  · have hlt : 2 ^ (i % 16) < 2 ^ 32 :=
      Nat.pow_lt_pow_right (by norm_num) (by omega)
    have h1 : (0xffffffff : Nat) - 2 ^ (i % 16) = 2 ^ 32 - (2 ^ (i % 16) + 1) := by
      norm_num; omega
    have h2 : (0x10000 : Nat) = 2 ^ 16 := by norm_num
    rw [if_pos hw, h1, h2, Nat.testBit_mod_two_pow, Nat.testBit_and,
      Nat.testBit_two_pow_sub_succ hlt, Nat.testBit_two_pow, hw]
    have h16 : k % 16 < 16 := Nat.mod_lt _ (by norm_num)
    have h32 : k % 16 < 32 := by omega
    by_cases hki : k = i
    · subst hki
      simp
    · have : i % 16 ≠ k % 16 := by omega
      simp [h16, h32, this, hki]
  · have : k ≠ i := fun h => hw (by rw [h])
    simp [hw, this]

/-! ## Scanning the root directory -/

theorem first_index_none (p : Nat → Bool) :
    ∀ k j0, first_index p k j0 = none ↔ ∀ j, j0 ≤ j → j < j0 + k → p j = false := by
  intro k
  induction k with
  | zero => intro j0; simp [first_index]; intro j h1 h2; omega
  | succ k ih =>
    intro j0
    simp only [first_index]
    by_cases hp : p j0 = true
    · simp only [hp, if_true]
      constructor
      · intro h; cases h
      · intro h
        have := h j0 (le_refl _) (by omega)
        rw [hp] at this
        cases this
    · have hp' : p j0 = false := by simpa using hp
      simp only [hp', Bool.false_eq_true, if_false]
      rw [ih (j0 + 1)]
      constructor
      · intro h j h1 h2
        by_cases hj : j = j0
        · subst hj; exact hp'
        · exact h j (by omega) (by omega)
      · intro h j h1 h2
        exact h j (by omega) (by omega)

theorem first_index_some (p : Nat → Bool) :
    ∀ k j0 j, first_index p k j0 = some j ↔
      (j0 ≤ j ∧ j < j0 + k ∧ p j = true ∧ ∀ j', j0 ≤ j' → j' < j → p j' = false) := by
  intro k
  induction k with
  | zero => intro j0 j; simp [first_index]; intro h1 h2; omega
  | succ k ih =>
    intro j0 j
    simp only [first_index]
    by_cases hp : p j0 = true
    · simp only [hp, if_true, Option.some.injEq]
      constructor
      · intro h
        subst h
        exact ⟨le_refl _, by omega, hp, fun j' h1 h2 => by omega⟩
      · rintro ⟨h1, _, _, h4⟩
        by_contra hne
        have := h4 j0 (le_refl _) (by omega)
        rw [hp] at this
        cases this
    · have hp' : p j0 = false := by simpa using hp
      simp only [hp', Bool.false_eq_true, if_false]
      rw [ih (j0 + 1) j]
      constructor
      · rintro ⟨h1, h2, h3, h4⟩
        refine ⟨by omega, by omega, h3, ?_⟩
        intro j' h5 h6
        by_cases hj : j' = j0
        · subst hj; exact hp'
        · exact h4 j' (by omega) h6
      · rintro ⟨h1, h2, h3, h4⟩
        have hne : j ≠ j0 := by
          intro h
          subst h
          rw [hp'] at h3
          cases h3
        exact ⟨by omega, by omega, h3, fun j' h5 h6 => h4 j' (by omega) h6⟩

theorem find_entry_none (p : directory_entry → Bool) (rootdir : Nat → root_dir_block) :
    ∀ r i0, find_entry p rootdir r i0 = none ↔
      ∀ i j, i0 ≤ i → i < i0 + r → j < 16 → p (rootdir i j) = false := by
  intro r
  induction r with
  | zero => intro i0; simp [find_entry]; intro i j h1 h2; omega
  | succ r ih =>
    intro i0
    simp only [find_entry]
    cases h : first_index (fun j => p (rootdir i0 j)) 16 0 with
    | some j =>
      simp only
      rw [first_index_some] at h
      constructor
      · intro h'; cases h'
      · intro h'
        have := h' i0 j (le_refl _) (by omega) (by omega)
        rw [h.2.2.1] at this
        cases this
    | none =>
      simp only
      rw [first_index_none] at h
      rw [ih (i0 + 1)]
      constructor
      · intro h' i j h1 h2 h3
        by_cases hi : i = i0
        · subst hi; exact h j (Nat.zero_le _) (by omega)
        · exact h' i j (by omega) (by omega) h3
      · intro h' i j h1 h2 h3
        exact h' i j (by omega) (by omega) h3

theorem find_entry_some (p : directory_entry → Bool) (rootdir : Nat → root_dir_block) :
    ∀ r i0 i j, find_entry p rootdir r i0 = some (i, j) ↔
      (i0 ≤ i ∧ i < i0 + r ∧ j < 16 ∧ p (rootdir i j) = true ∧
        ∀ i' j', i0 ≤ i' → j' < 16 → i' * 16 + j' < i * 16 + j → p (rootdir i' j') = false) := by
  intro r
  induction r with
  | zero => intro i0 i j; simp [find_entry]; intro h1 h2; omega
  | succ r ih =>
    intro i0 i j
    simp only [find_entry]
    cases h : first_index (fun j => p (rootdir i0 j)) 16 0 with
    | some j1 =>
      simp only [Option.some.injEq, Prod.mk.injEq]
      rw [first_index_some] at h
      obtain ⟨_, h2, h3, h4⟩ := h
      constructor
      · rintro ⟨rfl, rfl⟩
        refine ⟨le_refl _, by omega, by omega, h3, ?_⟩
        intro i' j' h5 h6 h7
        have : i' = i0 := by omega
        subst this
        exact h4 j' (Nat.zero_le _) (by omega)
      · rintro ⟨h5, h6, h7, h8, h9⟩
        by_cases hi : i = i0
        · subst hi
          refine ⟨rfl, ?_⟩
          by_contra hne
          rcases Nat.lt_or_gt_of_ne hne with hlt | hgt
          · have := h9 i j1 (le_refl _) (by omega) (by omega)
            rw [h3] at this
            cases this
          · have := h4 j (Nat.zero_le _) hgt
            rw [h8] at this
            cases this
        · exfalso
          have := h9 i0 j1 (le_refl _) (by omega) (by omega)
          rw [h3] at this
          cases this
    | none =>
      simp only
      rw [first_index_none] at h
      rw [ih (i0 + 1) i j]
      constructor
      · rintro ⟨h1, h2, h3, h4, h5⟩
        refine ⟨by omega, by omega, h3, h4, ?_⟩
        intro i' j' h6 h7 h8
        by_cases hi : i' = i0
        · subst hi; exact h j' (Nat.zero_le _) (by omega)
        · exact h5 i' j' (by omega) h7 h8
      · rintro ⟨h1, h2, h3, h4, h5⟩
        have hne : i ≠ i0 := by
          intro hi
          subst hi
          have := h j (Nat.zero_le _) (by omega)
          simp only at this
          rw [h4] at this
          cases this
        exact ⟨by omega, by omega, h3, h4, fun i' j' h6 h7 h8 => h5 i' j' (by omega) h7 h8⟩

theorem streq_iff (a b : List Nat) : streq a b = true ↔ cstr a = cstr b := by
  simp [streq]

theorem cstr_replicate_zero (n : Nat) : cstr (List.replicate n 0) = [] := by
  cases n with
  | zero => rfl
  | succ n => simp [cstr, List.replicate_succ, List.takeWhile]

theorem cstr_all_ne_zero (l : List Nat) : ∀ c ∈ cstr l, c ≠ 0 := by
  intro c hc
  have := List.mem_takeWhile_imp hc
  simpa using this

theorem cstr_append_zero (l r : List Nat) (h : ∀ c ∈ l, c ≠ 0) : cstr (l ++ 0 :: r) = l := by
  induction l with
  | nil => simp [cstr, List.takeWhile]
  | cons a l ih =>
    have ha : a ≠ 0 := h a (List.mem_cons_self _ _)
    have := ih (fun c hc => h c (List.mem_cons_of_mem _ hc))
    simp only [cstr] at this ⊢
    have hb : (a != 0) = true := by simpa using ha
    simp [List.takeWhile, hb, this]

/-- The name that `vscreate` stores is, as a C string, the name it was given. -/
theorem cstr_stored_name (name : List Nat) (h : strlen name < 30) :
    cstr (strncpy name 29 ++ [0]) = cstr name ∧ (strncpy name 29 ++ [0]).length = 30 := by
  have hlen : (cstr name).length ≤ 29 := by simp only [strlen] at h; omega
  have htake : (cstr name).take 29 = cstr name := List.take_of_length_le hlen
  constructor
  · simp only [strncpy, htake, List.append_assoc]
    have : List.replicate (29 - (cstr name).length) 0 ++ [0]
        = 0 :: List.replicate (29 - (cstr name).length) 0 := by
      rw [← List.replicate_succ, List.replicate_succ']
    rw [this]
    exact cstr_append_zero _ _ (cstr_all_ne_zero name)
  · simp only [strncpy, htake, List.length_append, List.length_replicate, List.length_singleton]
    omega

/-! ## FAT positions and the block device -/

theorem FAT_OFFSET_eq (b : Nat) : FAT_OFFSET b = b % 256 := by
  have : (0x000000ff : Nat) = 2 ^ 8 - 1 := by norm_num
  simp only [FAT_OFFSET, this, Nat.and_pow_two_sub_one_eq_mod]

theorem FAT_BLOCK_eq (b : Nat) (hb : b < 2 ^ 32) : FAT_BLOCK b = b / 256 := by
  have h1 : (0xffffff00 : Nat) = 2 ^ 32 - (255 + 1) := by norm_num
  have h255 : (255 : Nat) = 2 ^ 8 - 1 := by norm_num
  have hs : b / 256 = b >>> 8 := by rw [Nat.shiftRight_eq_div_pow]
  rw [hs]
  apply Nat.eq_of_testBit_eq
  intro k
  simp only [FAT_BLOCK, Nat.testBit_shiftRight, Nat.testBit_and]
  rw [h1, Nat.testBit_two_pow_sub_succ (by norm_num), h255, Nat.testBit_two_pow_sub_one]
  by_cases hk : k < 24
  · have a1 : 8 + k < 32 := by omega
    have a2 : ¬ (8 + k < 8) := by omega
    simp [a1, a2]
  · have : b.testBit (8 + k) = false := by
      apply Nat.testBit_lt_two_pow
      calc b < 2 ^ 32 := hb
        _ ≤ 2 ^ (8 + k) := Nat.pow_le_pow_right (by norm_num) (by omega)
    simp [this]

theorem fat_get_fat_set_eq (fattable : Nat → fat_table_block) (b v : Nat) :
    fat_get (fat_set fattable b v) b = v := by
  simp [fat_get, fat_set]

theorem fat_get_fat_set_ne (fattable : Nat → fat_table_block) (b b' v : Nat)
    (hb : b < 2 ^ 32) (hb' : b' < 2 ^ 32) (hne : b' ≠ b) :
    fat_get (fat_set fattable b v) b' = fat_get fattable b' := by
  simp only [fat_get, fat_set]
  rw [if_neg]
  rw [FAT_BLOCK_eq b hb, FAT_BLOCK_eq b' hb', FAT_OFFSET_eq, FAT_OFFSET_eq]
  omega

theorem fat_set_same (fattable : Nat → fat_table_block) (b v : Nat)
    (h : fat_get fattable b = v) : fat_set fattable b v = fattable := by
  funext x y
  simp only [fat_set]
  split
  · rename_i hxy
    rw [hxy.1, hxy.2]
    exact h.symm
  · rfl

theorem read_write_same (d : vdisk) (b : data_block) (k : Nat) :
    read_data_block (write_block d (.data b) k) k = some b := by
  simp [read_data_block, write_block]

theorem read_write_other (d : vdisk) (blk : disk_block) (k k' : Nat) (b : data_block)
    (hne : k' ≠ k) (h : read_data_block d k' = some b) :
    read_data_block (write_block d blk k) k' = some b := by
  simp only [read_data_block] at h
  by_cases hlt : k' < d.nblocks
  · simp only [hlt, if_true] at h
    have h1 : k' < max d.nblocks (k + 1) := lt_of_lt_of_le hlt (le_max_left _ _)
    have h2 : ¬ (d.nblocks ≤ k' ∧ k' < k) := by omega
    simp only [read_data_block, write_block, h1, if_true, hne, if_false, h2]
    exact h
  · simp [hlt] at h

theorem nth_block_congr (fat fat' : Nat → fat_table_block) (start : Nat) :
    ∀ m, (∀ m', m' < m → fat_get fat' (nth_block fat start m') = fat_get fat (nth_block fat start m')) →
      nth_block fat' start m = nth_block fat start m := by
  intro m
  induction m with
  | zero => intro _; rfl
  | succ m ih =>
    intro h
    simp only [nth_block]
    rw [ih (fun m' hm' => h m' (by omega))]
    exact h m (by omega)

/-! ## Counting the free blocks -/

theorem countP_flip_one (l : List Nat) (hnd : l.Nodup) (t : Nat) (ht : t ∈ l)
    (p p' : Nat → Bool) (hpt : p t = true) (hpt' : p' t = false)
    (hother : ∀ k, k ≠ t → p' k = p k) : l.countP p' + 1 = l.countP p := by
  induction l with
  | nil => cases ht
  | cons a l ih =>
    rw [List.nodup_cons] at hnd
    by_cases hat : a = t
    · subst hat
      have hsame : l.countP p' = l.countP p := by
        apply List.countP_congr
        intro k hk
        have : k ≠ a := fun h => hnd.1 (h ▸ hk)
        rw [hother k this]
      simp [List.countP_cons, hpt, hpt', hsame]
    · have ht' : t ∈ l := by
        rcases List.mem_cons.1 ht with h | h
        · exact absurd h.symm hat
        · exact h
      have := ih hnd.2 ht'
      simp only [List.countP_cons, hother a hat]
      omega

/-- While a free block is in range the allocator returns it: the lowest such
bit is cleared, nothing else changes and the count goes down by one. -/
theorem get_nextfreeblock_of_free (sb : super_block) (hhi : sb.blockcount ≤ 4096)
    (hfree : 0 < free_in_range sb) :
    ∃ t, 41 + t < sb.blockcount ∧ bitfree sb t = true ∧
      (∀ k, k < t → bitfree sb k = false) ∧
      (get_nextfreeblock sb).1 = 41 + t ∧
      (get_nextfreeblock sb).2.blockcount = sb.blockcount ∧
      (∀ k, bitfree (get_nextfreeblock sb).2 k = (bitfree sb k && decide (k ≠ t))) ∧
      free_in_range (get_nextfreeblock sb).2 + 1 = free_in_range sb := by
  have hex : ∃ i, 41 + i < sb.blockcount ∧ bitfree sb i = true := by
    simp only [free_in_range, List.countP_pos_iff, List.mem_range] at hfree
    obtain ⟨a, ha, hp⟩ := hfree
    exact ⟨a, by omega, hp⟩
  have hspec := Nat.find_spec hex
  have hmin : ∀ k, k < Nat.find hex → bitfree sb k = false := by
    intro k hk
    have := Nat.find_min hex hk
    have hk2 : 41 + k < sb.blockcount := by omega
    cases hbk : bitfree sb k
    · rfl
    · exact absurd ⟨hk2, hbk⟩ this
  have heq : get_nextfreeblock sb =
      (41 + Nat.find hex, mark_unavailable sb (Nat.find hex / 16)
        (sb.freeblock_bitvector (Nat.find hex / 16)) (2 ^ (Nat.find hex % 16))) := by
    rw [get_nextfreeblock_eq_scan]
    exact scan_from_found sb 4096 0 _ (Nat.zero_le _) (by have := hspec.1; omega)
      hspec.2 (fun k _ hk => hmin k hk) hspec.1
  refine ⟨Nat.find hex, hspec.1, hspec.2, hmin, ?_, ?_, ?_, ?_⟩
  · rw [heq]
  · rw [heq]; rfl
  · intro k
    rw [heq]
    exact bitfree_mark_unavailable sb _ k
  · have hbc : (get_nextfreeblock sb).2.blockcount = sb.blockcount := by rw [heq]; rfl
    simp only [free_in_range, hbc]
    apply countP_flip_one _ (List.nodup_range _) (Nat.find hex)
    · rw [List.mem_range]; have := hspec.1; omega
    · exact hspec.2
    · rw [heq]
      simp [bitfree_mark_unavailable]
    · intro k hk
      rw [heq]
      simp [bitfree_mark_unavailable, hk]

/-! ## The loop of `itervative_append` -/

theorem body_flag_false (data : Nat → Nat) (i : Nat) (st : append_state)
    (hflag : st.flagnewblock = false) :
    itervative_append_body data 0 i st =
      if i % 2048 = 2047 then
        { st with
          datablock := fun x => if x = i % 2048 then data i else st.datablock x,
          disk := write_block st.disk
            (.data (fun x => if x = i % 2048 then data i else st.datablock x))
            st.currblocknumber,
          flagnewblock := true }
      else
        { st with datablock := fun x => if x = i % 2048 then data i else st.datablock x } := by
  simp [itervative_append_body, hflag, BLOCKSIZE]

theorem body_flag_true (data : Nat → Nat) (i : Nat) (st : append_state)
    (hflag : st.flagnewblock = true) (hmod : i % 2048 = 0) :
    itervative_append_body data 0 i st =
      { superblock := (get_nextfreeblock st.superblock).2,
        fattable := fat_set (fat_set st.fattable st.currblocknumber
          (get_nextfreeblock st.superblock).1) (get_nextfreeblock st.superblock).1 0,
        disk := st.disk,
        datablock := fun x => if x = 0 then data i else st.datablock x,
        currblocknumber := (get_nextfreeblock st.superblock).1,
        prevblocknumber := st.currblocknumber,
        flagnewblock := false } := by
  simp [itervative_append_body, hflag, BLOCKSIZE, hmod, FAT_LIST_NULL]

theorem append_step_alloc (data : Nat → Nat) (b0 bc n i : Nat) (st : append_state)
    (hbc : bc ≤ 4096) (hi : i < n) (inv : AppendInv data b0 bc n i st)
    (hflag : st.flagnewblock = true) :
    AppendInv data b0 bc n (i + 1) (itervative_append_body data 0 i st) := by
  obtain ⟨hpos, hmod⟩ := inv.flag_iff.1 hflag
  have hc : i / 2048 = (i - 1) / 2048 + 1 := by omega
  have hfree : 0 < free_in_range st.superblock := by
    have := inv.free
    have : (i - 1) / 2048 + 2 ≤ (n + 2047) / 2048 := by omega
    omega
  obtain ⟨t, ht, hbit, _, hnew, hbc', hbits, hcount⟩ :=
    get_nextfreeblock_of_free st.superblock (by rw [inv.bc_eq]; exact hbc) hfree
  rw [inv.bc_eq] at ht
  rw [body_flag_true data i st hflag hmod, hnew]
  have hcurr_lt : st.currblocknumber < bc := by
    have := (inv.alloc _ (le_refl _)).2.1
    rwa [inv.curr_eq] at this
  have hne : ∀ m, m ≤ (i - 1) / 2048 → nth_block st.fattable b0 m ≠ 41 + t := by
    intro m hm heq
    obtain ⟨h1, _, h3⟩ := inv.alloc m hm
    rw [heq] at h3
    simp only [Nat.add_sub_cancel_left] at h3
    rw [hbit] at h3
    cases h3
  have hcurr_ne : st.currblocknumber ≠ 41 + t := by
    have := hne _ (le_refl _)
    rwa [inv.curr_eq] at this
  have hnth : ∀ m, m ≤ (i - 1) / 2048 →
      nth_block (fat_set (fat_set st.fattable st.currblocknumber (41 + t)) (41 + t) 0) b0 m
        = nth_block st.fattable b0 m := by
    intro m hm
    apply nth_block_congr
    intro m' hm'
    have hlt := (inv.alloc m' (by omega)).2.1
    rw [fat_get_fat_set_ne _ _ _ _ (by omega) (by omega) (hne m' (by omega)),
      fat_get_fat_set_ne _ _ _ _ (by omega) (by omega) (inv.distinct m' (by omega))]
  have hlink : fat_get (fat_set (fat_set st.fattable st.currblocknumber (41 + t)) (41 + t) 0)
      st.currblocknumber = 41 + t := by
    rw [fat_get_fat_set_ne _ _ _ _ (by omega) (by omega) hcurr_ne, fat_get_fat_set_eq]
  have hidx : (i + 1 - 1) / 2048 = (i - 1) / 2048 + 1 := by
    rw [Nat.add_sub_cancel]; exact hc
  constructor
  · exact hbc'.trans inv.bc_eq
  · simp only [Bool.false_eq_true, false_iff]
    omega
  · simp only [hidx, nth_block]
    rw [hnth _ (le_refl _), inv.curr_eq]
    exact hlink
  · exact fat_get_fat_set_eq _ _ _
  · exact hlink
  · intro m hm
    rw [hidx] at hm
    by_cases hmc : m ≤ (i - 1) / 2048
    · rw [hnth m hmc]
      obtain ⟨h1, h2, h3⟩ := inv.alloc m hmc
      refine ⟨h1, h2, ?_⟩
      simp only [hbits, h3, Bool.false_and]
    · have hm' : m = (i - 1) / 2048 + 1 := by omega
      subst hm'
      simp only [nth_block]
      rw [hnth _ (le_refl _), inv.curr_eq, hlink]
      refine ⟨by omega, ht, ?_⟩
      simp [hbits]
  · intro m hm
    rw [hidx] at hm
    rw [hnth m (by omega)]
    exact hne m (by omega)
  · intro m hm
    have hm' : m * 2048 + 2048 ≤ i := by omega
    obtain ⟨b, hb1, hb2⟩ := inv.written m hm'
    rw [hnth m (by omega)]
    exact ⟨b, hb1, hb2⟩
  · intro y hy hlt
    rw [hidx] at hlt ⊢
    have hy0 : y = 0 := by omega
    subst hy0
    simp only [if_true]
    congr 1
    omega
  · show (n + 2047) / 2048 ≤
      free_in_range (get_nextfreeblock st.superblock).2 + ((i + 1 - 1) / 2048 + 1)
    rw [hidx]
    have := inv.free
    omega

theorem append_step_fill (data : Nat → Nat) (b0 bc n i : Nat) (st : append_state)
    (inv : AppendInv data b0 bc n i st) (hflag : st.flagnewblock = false) :
    AppendInv data b0 bc n (i + 1) (itervative_append_body data 0 i st) := by
  have hnot : ¬ (0 < i ∧ i % 2048 = 0) := by
    intro h
    have := inv.flag_iff.2 h
    rw [hflag] at this
    cases this
  have hc : (i - 1) / 2048 = i / 2048 := by omega
  have hidx : (i + 1 - 1) / 2048 = (i - 1) / 2048 := by
    rw [Nat.add_sub_cancel]; exact hc.symm
  have hdata : ∀ y, y < 2048 → (i - 1) / 2048 * 2048 + y < i + 1 →
      (fun x => if x = i % 2048 then data i else st.datablock x) y
        = data ((i - 1) / 2048 * 2048 + y) := by
    intro y hy hlt
    simp only
    by_cases hyi : y = i % 2048
    · rw [if_pos hyi]
      congr 1
      omega
    · rw [if_neg hyi]
      exact inv.part y hy (by omega)
  rw [body_flag_false data i st hflag]
  by_cases hlast : i % 2048 = 2047
  · rw [if_pos hlast]
    constructor
    · exact inv.bc_eq
    · simp only [true_iff]
      omega
    · rw [hidx]; exact inv.curr_eq
    · exact inv.curr_end
    · exact inv.prev_link
    · intro m hm
      rw [hidx] at hm
      exact inv.alloc m hm
    · intro m hm
      rw [hidx] at hm
      exact inv.distinct m hm
    · intro m hm
      by_cases hmc : m = (i - 1) / 2048
      · subst hmc
        refine ⟨_, ?_, fun y hy => hdata y hy (by omega)⟩
        show read_data_block (write_block st.disk _ st.currblocknumber)
          (nth_block st.fattable b0 ((i - 1) / 2048)) = _
        rw [inv.curr_eq]
        exact read_write_same _ _ _
      · have hlt : m < (i - 1) / 2048 := by omega
        obtain ⟨b, hb1, hb2⟩ := inv.written m (by omega)
        exact ⟨b, read_write_other _ _ _ _ _ (inv.distinct m hlt) hb1, hb2⟩
    · intro y hy hlt
      rw [hidx] at hlt ⊢
      exact hdata y hy hlt
    · show (n + 2047) / 2048 ≤ free_in_range st.superblock + ((i + 1 - 1) / 2048 + 1)
      rw [hidx]
      exact inv.free
  · rw [if_neg hlast]
    constructor
    · exact inv.bc_eq
    · show st.flagnewblock = true ↔ _
      rw [hflag]
      simp only [Bool.false_eq_true, false_iff]
      omega
    · rw [hidx]; exact inv.curr_eq
    · exact inv.curr_end
    · exact inv.prev_link
    · intro m hm
      rw [hidx] at hm
      exact inv.alloc m hm
    · intro m hm
      rw [hidx] at hm
      exact inv.distinct m hm
    · intro m hm
      exact inv.written m (by omega)
    · intro y hy hlt
      rw [hidx] at hlt ⊢
      exact hdata y hy hlt
    · show (n + 2047) / 2048 ≤ free_in_range st.superblock + ((i + 1 - 1) / 2048 + 1)
      rw [hidx]
      exact inv.free

theorem append_loop_inv (data : Nat → Nat) (b0 bc n : Nat) (hbc : bc ≤ 4096) :
    ∀ k i st, i + k = n → AppendInv data b0 bc n i st →
      AppendInv data b0 bc n n (itervative_append_loop data 0 k i st) := by
  intro k
  induction k with
  | zero =>
    intro i st hik inv
    have : i = n := by omega
    subst this
    exact inv
  | succ k ih =>
    intro i st hik inv
    simp only [itervative_append_loop]
    apply ih (i + 1) _ (by omega)
    cases hflag : st.flagnewblock
    · exact append_step_fill data b0 bc n i st inv hflag
    · exact append_step_alloc data b0 bc n i st hbc (by omega) inv hflag

/-! ## A first append stores its bytes, and a read returns them -/

/-- The chunked writer on a freshly allocated first block: with enough free
blocks in range for `n` bytes, the chain from the block the allocator returned
holds the `n` bytes afterwards. -/
theorem itervative_append_stores (sb : super_block) (fattable : Nat → fat_table_block)
    (disk : vdisk) (prev n : Nat) (data : Nat → Nat)
    (hbc : sb.blockcount ≤ 4096) (hn : 1 ≤ n) (hprev : prev < 41)
    (hfree : (n + 2047) / 2048 ≤ free_in_range sb) :
    41 ≤ (get_nextfreeblock sb).1 ∧ (get_nextfreeblock sb).1 < sb.blockcount ∧
    stores
      (itervative_append (get_nextfreeblock sb).2 fattable disk (get_nextfreeblock sb).1 prev n
        data 0).2.1
      (itervative_append (get_nextfreeblock sb).2 fattable disk (get_nextfreeblock sb).1 prev n
        data 0).2.2
      (get_nextfreeblock sb).1 n data := by
  obtain ⟨t, ht, hbit, _, hnew, hbc', hbits, hcount⟩ :=
    get_nextfreeblock_of_free sb hbc (by omega)
  rw [hnew]
  refine ⟨by omega, ht, ?_⟩
  have inv0 : AppendInv data (41 + t) sb.blockcount n 0
      { superblock := (get_nextfreeblock sb).2,
        fattable := fat_set (fat_set fattable prev (41 + t)) (41 + t) FAT_LIST_NULL,
        disk := disk,
        datablock := new_datablock,
        currblocknumber := 41 + t,
        prevblocknumber := prev,
        flagnewblock := false } := by
    constructor
    · exact hbc'
    · simp
    · rfl
    · exact fat_get_fat_set_eq _ _ _
    · show fat_get (fat_set (fat_set fattable prev (41 + t)) (41 + t) FAT_LIST_NULL) prev = 41 + t
      rw [fat_get_fat_set_ne _ _ _ _ (by omega) (by omega) (by omega), fat_get_fat_set_eq]
    · intro m hm
      have : m = 0 := by omega
      subst this
      simp only [nth_block]
      refine ⟨by omega, ht, ?_⟩
      simp [hbits]
    · intro m hm
      omega
    · intro m hm
      omega
    · intro y _ hlt
      omega
    · show (n + 2047) / 2048 ≤ free_in_range (get_nextfreeblock sb).2 + ((0 - 1) / 2048 + 1)
      omega
  have invF := append_loop_inv data (41 + t) sb.blockcount n hbc n 0 _ (by omega) inv0
  simp only [itervative_append]
  generalize itervative_append_loop data 0 n 0
      { superblock := (get_nextfreeblock sb).2,
        fattable := fat_set (fat_set fattable prev (41 + t)) (41 + t) FAT_LIST_NULL,
        disk := disk,
        datablock := new_datablock,
        currblocknumber := 41 + t,
        prevblocknumber := prev,
        flagnewblock := false } = final at invF
  have hceil : (n + 2047) / 2048 = (n - 1) / 2048 + 1 := by omega
  have hend : nth_block final.fattable (41 + t) ((n + 2047) / 2048) = FAT_LIST_NULL := by
    rw [hceil]
    simp only [nth_block]
    rw [invF.curr_eq]
    exact invF.curr_end
  cases hflag : final.flagnewblock
  · have hmod : n % 2048 ≠ 0 := by
      intro h
      have := invF.flag_iff.2 ⟨by omega, h⟩
      rw [hflag] at this
      cases this
    simp only [if_true]
    rw [fat_set_same _ _ _ invF.prev_link]
    refine ⟨?_, hend⟩
    intro k hk
    have hkc : k ≤ (n - 1) / 2048 := by omega
    refine ⟨by have := (invF.alloc k hkc).1; omega, ?_⟩
    by_cases hlt : k < (n - 1) / 2048
    · obtain ⟨b, hb1, hb2⟩ := invF.written k (by omega)
      exact ⟨b, read_write_other _ _ _ _ _ (invF.distinct k hlt) hb1, fun x hx _ => hb2 x hx⟩
    · have hkeq : k = (n - 1) / 2048 := by omega
      subst hkeq
      rw [invF.curr_eq]
      exact ⟨_, read_write_same _ _ _, fun x hx hlt' => invF.part x hx hlt'⟩
  · obtain ⟨_, hmod⟩ := invF.flag_iff.1 hflag
    simp only [Bool.true_eq_false, if_false]
    refine ⟨?_, hend⟩
    intro k hk
    have hkc : k ≤ (n - 1) / 2048 := by omega
    refine ⟨by have := (invF.alloc k hkc).1; omega, ?_⟩
    obtain ⟨b, hb1, hb2⟩ := invF.written k (by omega)
    exact ⟨b, hb1, fun x hx _ => hb2 x hx⟩

/-- The loop of `vsread` over a chain that holds `n` bytes: it returns 0 and the
first `n` bytes of the buffer are the stored bytes. -/
theorem vsread_loop_reads (s : FS) (start n : Nat) (data : Nat → Nat)
    (hst : stores s.fattable s.disk start n data) :
    ∀ k i buf db, i + k = n →
      (0 < k → read_data_block s.disk (nth_block s.fattable start (i / 2048)) = some db) →
      (∀ x, x < i → buf x = data x) →
      (vsread_loop s k i buf db (nth_block s.fattable start (i / 2048))).1 = 0 ∧
      ∀ x, x < n → (vsread_loop s k i buf db (nth_block s.fattable start (i / 2048))).2 x
        = data x := by
  intro k
  induction k with
  | zero =>
    intro i buf db hik _ hbuf
    have : i = n := by omega
    subst this
    exact ⟨rfl, hbuf⟩
  | succ k ih =>
    intro i buf db hik hdb hbuf
    have hin : i < n := by omega
    have hq : i / 2048 * 2048 < n := by omega
    obtain ⟨_, b, hb1, hb2⟩ := hst.1 (i / 2048) hq
    rw [hdb (by omega)] at hb1
    cases hb1
    have hbyte : db (i % 2048) = data i := by
      have := hb2 (i % 2048) (by omega) (by omega)
      rw [this]
      congr 1
      omega
    have hbuf' : ∀ x, x < i + 1 →
        (fun x => if x = i then db (i % 2048) else buf x) x = data x := by
      intro x hx
      simp only
      by_cases hxi : x = i
      · rw [if_pos hxi, hxi]; exact hbyte
      · rw [if_neg hxi]; exact hbuf x (by omega)
    simp only [vsread_loop, BLOCKSIZE]
    by_cases hlast : i % 2048 = 2047
    · have hnext : (i + 1) / 2048 = i / 2048 + 1 := by omega
      have hnb : fat_get s.fattable (nth_block s.fattable start (i / 2048))
          = nth_block s.fattable start ((i + 1) / 2048) := by
        rw [hnext]; rfl
      simp only [hlast, if_true, hnb]
      simp only [hlast] at hbuf'
      by_cases hzero : nth_block s.fattable start ((i + 1) / 2048) = FAT_LIST_NULL
      · simp only [hzero, if_true]
        have hn : i + 1 = n := by
          by_contra hne
          have hlt : (i + 1) / 2048 * 2048 < n := by omega
          exact (hst.1 _ hlt).1 hzero
        exact ⟨trivial, fun x hx => hbuf' x (by omega)⟩
      · simp only [hzero, if_false]
        have hlt : i + 1 < n := by
          by_contra hge
          have hn : i + 1 = n := by omega
          have hceil : (n + 2047) / 2048 = (i + 1) / 2048 := by omega
          have := hst.2
          rw [hceil] at this
          exact hzero this
        obtain ⟨_, b', hb1', _⟩ := hst.1 ((i + 1) / 2048) (by omega)
        simp only [hb1']
        exact ih (i + 1) _ b' (by omega) (fun _ => hb1') hbuf'
    · have hsame : (i + 1) / 2048 = i / 2048 := by omega
      simp only [hlast, if_false]
      have := ih (i + 1) (fun x => if x = i then db (i % 2048) else buf x) db (by omega)
        (fun hk => by rw [hsame]; exact hdb (by omega)) hbuf'
      rw [hsame] at this
      exact this

/-! ## The calls of the round trip, one by one -/

/-- What `vscreate` does when it returns 0: no occupied entry had the name, and
the first unoccupied entry was taken. -/
theorem vscreate_ok (s : FS) (name : List Nat) (h : (vscreate s name).1 = 0) :
    strlen name < 30 ∧
    find_entry (fun e => e.isoccupied && streq e.filename name) s.rootdir 8 0 = none ∧
    ∃ i j,
      find_entry (fun e => !e.isoccupied) s.rootdir 8 0 = some (i, j) ∧
      (vscreate s name).2 =
        { s with
          rootdir := set_entry s.rootdir i j
                      { s.rootdir i j with
                        isoccupied := true, filename := strncpy name 29 ++ [0] } } := by
  unfold vscreate at h ⊢
  by_cases hl : strlen name ≥ 30
  · simp [hl] at h
  · simp only [hl, if_false] at h ⊢
    refine ⟨by omega, ?_⟩
    cases h1 : find_entry (fun e => e.isoccupied && streq e.filename name) s.rootdir 8 0 with
    | some x => simp [h1] at h
    | none =>
      simp only [h1] at h ⊢
      refine ⟨trivial, ?_⟩
      cases h2 : find_entry (fun e => !e.isoccupied) s.rootdir 8 0 with
      | none => simp [h2] at h
      | some x =>
        obtain ⟨i, j⟩ := x
        exact ⟨i, j, rfl, rfl⟩

/-- The two outcomes of `vscreate`: -1 with the state untouched, or 0. -/
theorem vscreate_cases (s : FS) (name : List Nat) :
    vscreate s name = (-1, s) ∨ (vscreate s name).1 = 0 := by
  unfold vscreate
  by_cases hl : strlen name ≥ 30
  · simp [hl]
  · simp only [hl, if_false]
    cases find_entry (fun e => e.isoccupied && streq e.filename name) s.rootdir 8 0 with
    | some x => simp
    | none =>
      cases find_entry (fun e => !e.isoccupied) s.rootdir 8 0 with
      | none => simp
      | some x => simp

/-- The result of `vsopen` when the first entry with the name is `(i, j)` and
its slot is free. -/
theorem vsopen_found (s : FS) (name : List Nat) (mode : Int) (i j : Nat)
    (hfind : find_entry (fun e => streq e.filename name) s.rootdir 8 0 = some (i, j))
    (hslot : (s.openfiletable (i * 16 + j)).free = true) :
    vsopen s name mode =
      (((i * 16 + j : Nat) : Int),
        { s with
          openfiletable := set_slot s.openfiletable (i * 16 + j)
                            { entry := some (i, j), mode := mode, free := false } }) := by
  simp [vsopen, hfind, hslot]

/-- The first append to an entry without a start block: the allocator is asked
once and the chunked writer runs from the block it returned. -/
theorem vsappend_first (fuel : Nat) (s : FS) (data : Nat → Nat) (n i j : Nat)
    (hi : i < 8) (hj : j < 16)
    (hfree : (s.openfiletable (i * 16 + j)).free = false)
    (hmode : (s.openfiletable (i * 16 + j)).mode = MODE_APPEND)
    (hentry : (s.openfiletable (i * 16 + j)).entry = some (i, j))
    (hstart : (s.rootdir i j).startblock = NO_START_BLOCK) :
    vsappend fuel s ((i * 16 + j : Nat) : Int) data n =
      .ok (0,
        { s with
          superblock := (itervative_append (get_nextfreeblock s.superblock).2 s.fattable s.disk
            (get_nextfreeblock s.superblock).1 0 n data 0).1,
          fattable := (itervative_append (get_nextfreeblock s.superblock).2 s.fattable s.disk
            (get_nextfreeblock s.superblock).1 0 n data 0).2.1,
          disk := (itervative_append (get_nextfreeblock s.superblock).2 s.fattable s.disk
            (get_nextfreeblock s.superblock).1 0 n data 0).2.2,
          rootdir := set_entry s.rootdir i j
                      { s.rootdir i j with
                        startblock := (get_nextfreeblock s.superblock).1, filesize := n } }) := by
  have hg1 : ¬ (((i * 16 + j : Nat) : Int) < 0 ∨ ((i * 16 + j : Nat) : Int) > 128) := by omega
  have hg2 : ¬ (((i * 16 + j : Nat) : Int) ≥ 128) := by omega
  have hnat : ((i * 16 + j : Nat) : Int).toNat = i * 16 + j := Int.toNat_natCast _
  unfold vsappend
  simp only [hg1, hg2, hnat, hfree, hmode, hentry, hstart, if_false, ne_eq, not_true_eq_false,
    Bool.false_eq_true, get_lastallocatedblock, if_true]

/-- Close, reopen for reading and read a file whose chain holds its `n` bytes. -/
theorem close_open_read (s3 : FS) (name : List Nat) (data buf : Nat → Nat) (n i j b0 : Nat)
    (hi : i < 8) (hj : j < 16)
    (hslot : (s3.openfiletable (i * 16 + j)).free = false)
    (hfind : find_entry (fun e => streq e.filename name) s3.rootdir 8 0 = some (i, j))
    (hsize : (s3.rootdir i j).filesize = n) (hstart : (s3.rootdir i j).startblock = b0)
    (hst : stores s3.fattable s3.disk b0 n data) (hn : 1 ≤ n) (hint : n < 2 ^ 31) :
    ∃ s4, vsclose s3 ((i * 16 + j : Nat) : Int) = .ok (0, s4) ∧
      (vsopen s4 name MODE_READ).1 = ((i * 16 + j : Nat) : Int) ∧
      vssize (vsopen s4 name MODE_READ).2 ((i * 16 + j : Nat) : Int) = .ok (n : Int) ∧
      ∃ buf', vsread (vsopen s4 name MODE_READ).2 ((i * 16 + j : Nat) : Int) buf n
          = .ok (0, buf') ∧
        ∀ k, k < n → buf' k = data k := by
  have hg0 : ¬ (((i * 16 + j : Nat) : Int) < 0 ∧ ((i * 16 + j : Nat) : Int) > 128) := by omega
  have hg0' : ¬ (((i * 16 + j : Nat) : Int) < 0 ∨ ((i * 16 + j : Nat) : Int) ≥ 128) := by omega
  have hg1 : ¬ (((i * 16 + j : Nat) : Int) < 0 ∨ ((i * 16 + j : Nat) : Int) > 128) := by omega
  have hg2 : ¬ (((i * 16 + j : Nat) : Int) ≥ 128) := by omega
  have hnat : ((i * 16 + j : Nat) : Int).toNat = i * 16 + j := Int.toNat_natCast _
  have hclose : vsclose s3 ((i * 16 + j : Nat) : Int) =
      .ok (0, { s3 with
        openfiletable := set_slot s3.openfiletable (i * 16 + j)
                          { s3.openfiletable (i * 16 + j) with free := true } }) := by
    simp only [vsclose, hg0, hg0', hnat, hslot, if_false, Bool.false_eq_true]
  refine ⟨_, hclose, ?_⟩
  have hopen := vsopen_found
    { s3 with
      openfiletable := set_slot s3.openfiletable (i * 16 + j)
                        { s3.openfiletable (i * 16 + j) with free := true } }
    name MODE_READ i j hfind (by simp [set_slot])
  rw [hopen]
  refine ⟨rfl, ?_, ?_⟩
  · have hto : to_int n = (n : Int) := by
      have h1 : n % 2 ^ 32 = n := Nat.mod_eq_of_lt (by omega)
      simp only [to_int, h1]
      rw [if_pos hint]
    simp only [vssize, hg0, hg0', hnat, set_slot, if_true, if_false, Bool.false_eq_true, hsize,
      hto]
  · obtain ⟨_, db, hdb, _⟩ := hst.1 0 (by omega)
    simp only [nth_block] at hdb
    have hne : ¬ n = 0 := by omega
    have hloop := vsread_loop_reads
      { s3 with
        openfiletable := set_slot
          (set_slot s3.openfiletable (i * 16 + j)
            { s3.openfiletable (i * 16 + j) with free := true })
          (i * 16 + j) { entry := some (i, j), mode := MODE_READ, free := false } }
      b0 n data hst n 0 buf db (by omega) (fun _ => hdb) (fun x hx => by omega)
    simp only [Nat.zero_div, nth_block] at hloop
    refine ⟨(vsread_loop _ n 0 buf db b0).2, ?_, hloop.2⟩
    simp only [vsread, hg1, hg2, hnat, set_slot, if_true, if_false, Bool.false_eq_true, hsize,
      hstart, hne, hdb, ne_eq, not_true_eq_false]
    congr 1
    exact Prod.ext hloop.1 rfl

/-! ## The state after format and mount, in closed form -/

theorem write_block_inside (d : vdisk) (blk : disk_block) (k : Nat) (hk : k < d.nblocks) :
    write_block d blk k =
      { nblocks := d.nblocks, block := fun x => if x = k then blk else d.block x } := by
  simp only [write_block]
  congr 1
  · exact max_eq_left (by omega)
  · funext x
    have : ¬ (d.nblocks ≤ x ∧ x < k) := by omega
    simp [this]

theorem write_blocks_inside (blk : disk_block) :
    ∀ k i (d : vdisk), i + k ≤ d.nblocks →
      write_blocks d blk k i =
        { nblocks := d.nblocks,
          block := fun x => if i ≤ x ∧ x < i + k then blk else d.block x } := by
  intro k
  induction k with
  | zero =>
    intro i d _
    simp only [write_blocks]
    cases d with
    | mk nb blkf =>
      congr 1
      funext x
      split_ifs <;> first | rfl | (exfalso; omega)
  | succ k ih =>
    intro i d h
    simp only [write_blocks]
    rw [write_block_inside d blk i (by omega), ih (i + 1) _ (by simp only; omega)]
    congr 1
    funext x
    simp only
    split_ifs <;> first | rfl | (exfalso; omega)

theorem format_image (count : Nat) (hc : 41 ≤ count) :
    format_datablocks (format_fattable (format_rootdir (format_superblock
      { nblocks := count, block := fun _ => .data new_datablock } count))) count
      = fresh_disk count := by
  simp only [format_datablocks, format_fattable, format_rootdir, format_superblock]
  rw [write_block_inside _ _ 0 (by simp only; omega),
    write_blocks_inside _ 8 33 _ (by simp only; omega),
    write_blocks_inside _ 32 1 _ (by simp only; omega),
    write_blocks_inside _ (count - 41) 41 _ (by simp only; omega)]
  simp only [fresh_disk]
  congr 1
  funext x
  split_ifs <;> first | rfl | (exfalso; omega)

theorem mount_rootdir_all (d : vdisk) (B : root_dir_block) :
    ∀ k i rd, 33 ≤ i → (∀ x, i ≤ x → x < i + k → read_rootdir_block d x = some B) →
      mount_rootdir d k i rd =
        (fun a => if i - 33 ≤ a ∧ a < i + k - 33 then B else rd a, true) := by
  intro k
  induction k with
  | zero =>
    intro i rd hi _
    simp only [mount_rootdir, Prod.mk.injEq, and_true]
    funext a
    split_ifs <;> first | rfl | (exfalso; omega)
  | succ k ih =>
    intro i rd hi hread
    simp only [mount_rootdir, hread i (le_refl _) (by omega)]
    rw [ih (i + 1) _ (by omega) (fun x h1 h2 => hread x (by omega) (by omega))]
    simp only [Prod.mk.injEq, and_true]
    funext a
    split_ifs <;> first | rfl | (exfalso; omega)

theorem mount_fattable_all (d : vdisk) (B : fat_table_block) :
    ∀ k i fat, 1 ≤ i → (∀ x, i ≤ x → x < i + k → read_fat_block d x = some B) →
      mount_fattable d k i fat =
        (fun a => if i - 1 ≤ a ∧ a < i + k - 1 then B else fat a, true) := by
  intro k
  induction k with
  | zero =>
    intro i fat hi _
    simp only [mount_fattable, Prod.mk.injEq, and_true]
    funext a
    split_ifs <;> first | rfl | (exfalso; omega)
  | succ k ih =>
    intro i fat hi hread
    simp only [mount_fattable, hread i (le_refl _) (by omega)]
    rw [ih (i + 1) _ (by omega) (fun x h1 h2 => hread x (by omega) (by omega))]
    simp only [Prod.mk.injEq, and_true]
    funext a
    split_ifs <;> first | rfl | (exfalso; omega)

theorem mount_fresh_disk (count : Nat) (hc : 41 ≤ count) :
    vsmount (boot (fresh_disk count)) = (0, fresh count) := by
  have hsb : read_super_block (fresh_disk count) 0 = some (fresh_superblock count) := by
    have : 0 < count := by omega
    simp [read_super_block, fresh_disk, this]
  have hrd : ∀ x, 33 ≤ x → x < 33 + 8 →
      read_rootdir_block (fresh_disk count) x = some (fun _ => blank_entry) := by
    intro x h1 h2
    have a0 : x < count := by omega
    have a1 : ¬ x = 0 := by omega
    have a2 : ¬ x ≤ 32 := by omega
    have a3 : x ≤ 40 := by omega
    simp [read_rootdir_block, fresh_disk, a0, a1, a2, a3]
  have hfat : ∀ x, 1 ≤ x → x < 1 + 32 →
      read_fat_block (fresh_disk count) x = some (fun _ => FAT_LIST_NULL) := by
    intro x h1 h2
    have a0 : x < count := by omega
    have a1 : ¬ x = 0 := by omega
    have a2 : x ≤ 32 := by omega
    simp [read_fat_block, fresh_disk, a0, a1, a2]
  simp only [vsmount, boot, hsb]
  rw [mount_rootdir_all _ _ 8 33 _ (le_refl _) hrd, mount_fattable_all _ _ 32 1 _ (le_refl _) hfat]
  simp only [fresh, Prod.mk.injEq, true_and]
  congr 1
  · funext a o
    simp only [FAT_LIST_NULL]
    split_ifs <;> rfl
  · funext a j
    have hb : blank_entry =
        { isoccupied := false, filename := List.replicate 30 0, filesize := 0, startblock := 0 } := by
      decide
    split_ifs
    · rfl
    · exact hb.symm

/-- For every valid `m`, `vsformat(m)` returns 0, `vsmount` returns 0, and the
state is the fresh state of `2^m / 2048` blocks, between 128 and 4096. -/
theorem formatted_eq (m : Nat) (h1 : 18 ≤ m) (h2 : m ≤ 23) :
    formatted m = fresh (2 ^ m / 2048) ∧ 128 ≤ 2 ^ m / 2048 ∧ 2 ^ m / 2048 ≤ 4096 := by
  have hcount : (1 <<< m) / BLOCKSIZE = 2 ^ m / 2048 := by
    rw [Nat.one_shiftLeft]; rfl
  have hb : 128 ≤ 2 ^ m / 2048 ∧ 2 ^ m / 2048 ≤ 4096 := by
    interval_cases m <;> norm_num
  refine ⟨?_, hb⟩
  have hm : ¬ (m < 18 ∨ m > 23) := by omega
  simp only [formatted, vsformat, hm, if_false, hcount]
  rw [format_image _ (by omega), mount_fresh_disk _ (by omega)]

/-! ## Walking a chain -/

theorem InChain_ne_zero {fat : Nat → fat_table_block} {start b : Nat}
    (h : InChain fat start b) : b ≠ 0 := by
  obtain ⟨k, hk, hnz⟩ := h
  rw [← hk]
  exact hnz k (le_refl _)

theorem InChain_start (fat : Nat → fat_table_block) (start : Nat) (h : start ≠ 0) :
    InChain fat start start :=
  ⟨0, rfl, fun m hm => by
    have : m = 0 := by omega
    subst this
    exact h⟩

theorem InChain_succ {fat : Nat → fat_table_block} {start x : Nat}
    (h : InChain fat start x) (hnz : fat_get fat x ≠ 0) : InChain fat start (fat_get fat x) := by
  obtain ⟨k, hk, hall⟩ := h
  refine ⟨k + 1, by simp only [nth_block, hk], ?_⟩
  intro m hm
  by_cases hmk : m ≤ k
  · exact hall m hmk
  · have : m = k + 1 := by omega
    subst this
    simp only [nth_block, hk]
    exact hnz

theorem not_InChain_zero (fat : Nat → fat_table_block) (b : Nat) : ¬ InChain fat 0 b := by
  rintro ⟨k, _, hnz⟩
  exact hnz 0 (Nat.zero_le _) rfl

/-- A chain that starts at a block whose FAT entry is 0 is that block alone. -/
theorem InChain_single {fat : Nat → fat_table_block} {b x : Nat}
    (hb : fat_get fat b = 0) (h : InChain fat b x) : x = b := by
  obtain ⟨k, hk, hnz⟩ := h
  cases k with
  | zero => exact hk.symm
  | succ k =>
    exfalso
    have h1 : nth_block fat b 1 = 0 := by simp only [nth_block]; exact hb
    exact hnz 1 (by omega) h1

/-- The walk after the FAT was changed: when every entry on the old chain is
kept, set to 0, or is the entry of `c` set to `b`, and the entry of `b` is 0,
the new chain holds only blocks of the old chain and, when `c` was on it,
`b`. -/
theorem walk_incl (fat fat' : Nat → fat_table_block) (start c b : Nat)
    (hstep : ∀ x, InChain fat start x →
      fat_get fat' x = fat_get fat x ∨ fat_get fat' x = 0 ∨ (x = c ∧ fat_get fat' x = b))
    (hb : b ≠ 0 → fat_get fat' b = 0) :
    ∀ x, InChain fat' start x → InChain fat start x ∨ (x = b ∧ InChain fat start c) := by
  have key : ∀ k, (∀ m, m ≤ k → nth_block fat' start m ≠ 0) →
      InChain fat start (nth_block fat' start k) ∨
        (nth_block fat' start k = b ∧ InChain fat start c) := by
    intro k
    induction k with
    | zero =>
      intro hnz
      left
      exact InChain_start fat start (hnz 0 (le_refl _))
    | succ k ih =>
      intro hnz
      have hx : nth_block fat' start (k + 1) ≠ 0 := hnz (k + 1) (le_refl _)
      simp only [nth_block] at hx ⊢
      rcases ih (fun m hm => hnz m (by omega)) with hy | ⟨hy, _⟩
      · rcases hstep _ hy with h1 | h1 | ⟨h1, h2⟩
        · rw [h1] at hx ⊢
          left
          exact InChain_succ hy hx
        · exact absurd h1 hx
        · right
          refine ⟨h2, ?_⟩
          rw [← h1]
          exact hy
      · exfalso
        rw [hy] at hx
        have hbz : b ≠ 0 := by
          rw [← hy]
          exact hnz k (by omega)
        exact hx (hb hbz)
  intro x hx
  obtain ⟨k, hk, hnz⟩ := hx
  have := key k hnz
  rw [hk] at this
  exact this

/-- The chains stay in order when each new chain holds only blocks of the old
chain of its entry and, for at most one entry, the freshly allocated `b`. -/
theorem ChainsOK_of_incl (sb sb' : super_block) (fat fat' : Nat → fat_table_block)
    (starts starts' : Nat → Nat → Nat) (b : Nat) (Q : Nat → Nat → Prop)
    (h : ChainsOK sb fat starts)
    (hbc : sb'.blockcount = sb.blockcount)
    (hbits : ∀ k, bitfree sb k = false → bitfree sb' k = false)
    (hb : b ≠ 0 → 41 ≤ b ∧ b < sb.blockcount ∧ bitfree sb' (b - 41) = false ∧
      ∀ i j, ¬ InChain fat (starts i j) b)
    (hQ : ∀ i j i' j', Q i j → Q i' j' → i = i' ∧ j = j')
    (hincl : ∀ i j x, InChain fat' (starts' i j) x →
      InChain fat (starts i j) x ∨ (x = b ∧ Q i j)) :
    ChainsOK sb' fat' starts' := by
  obtain ⟨h1, h2, h3⟩ := h
  refine ⟨by rw [hbc]; exact h1, ?_, ?_⟩
  · intro i j x hx
    rw [hbc]
    rcases hincl i j x hx with hold | ⟨hxb, _⟩
    · obtain ⟨a1, a2, a3⟩ := h2 i j x hold
      exact ⟨a1, a2, hbits _ a3⟩
    · have hbz : b ≠ 0 := by rw [← hxb]; exact InChain_ne_zero hx
      obtain ⟨a1, a2, a3, _⟩ := hb hbz
      rw [hxb]
      exact ⟨a1, a2, a3⟩
  · intro i j i' j' x hne hx hx'
    have hxz : x ≠ 0 := InChain_ne_zero hx
    rcases hincl i j x hx with hold | ⟨hxb, hq⟩
    · rcases hincl i' j' x hx' with hold' | ⟨hxb', _⟩
      · exact h3 i j i' j' x hne hold hold'
      · rw [hxb'] at hold hxz
        exact (hb hxz).2.2.2 i j hold
    · rcases hincl i' j' x hx' with hold' | ⟨_, hq'⟩
      · rw [hxb] at hold' hxz
        exact (hb hxz).2.2.2 i' j' hold'
      · exact hne (hQ i j i' j' hq hq')

/-- The two outcomes of the allocator for a block count that format writes. -/
theorem get_nextfreeblock_cases (sb : super_block) (hlo : 42 ≤ sb.blockcount)
    (hhi : sb.blockcount ≤ 4096) :
    get_nextfreeblock sb = (0, sb) ∨
    ∃ t, 41 + t < sb.blockcount ∧ bitfree sb t = true ∧
      (get_nextfreeblock sb).1 = 41 + t ∧
      (get_nextfreeblock sb).2.blockcount = sb.blockcount ∧
      ∀ k, bitfree (get_nextfreeblock sb).2 k = (bitfree sb k && decide (k ≠ t)) := by
  by_cases h : 0 < free_in_range sb
  · right
    obtain ⟨t, a1, a2, _, a4, a5, a6, _⟩ := get_nextfreeblock_of_free sb hhi h
    exact ⟨t, a1, a2, a4, a5, a6⟩
  · left
    rw [get_nextfreeblock_eq_scan]
    apply scan_from_none sb _ 4096 0 (by omega)
    intro i hi
    cases hb : bitfree sb i
    · rfl
    · exfalso
      apply h
      simp only [free_in_range, List.countP_pos_iff, List.mem_range]
      exact ⟨i, by omega, hb⟩

/-! ## Linking a fresh block -/

/-- One link step of `itervative_append`: the allocator is asked for a block,
the FAT entry of `c` is set to it and its own entry to 0.  The chains stay in
order, and the new block joins only a chain that held `c`. -/
theorem link_ok (sb : super_block) (fat : Nat → fat_table_block)
    (starts : Nat → Nat → Nat) (c : Nat)
    (h : ChainsOK sb fat starts)
    (hc : c = 0 ∨ (41 ≤ c ∧ c < sb.blockcount ∧ bitfree sb (c - 41) = false)) :
    ChainsOK (get_nextfreeblock sb).2
      (fat_set (fat_set fat c (get_nextfreeblock sb).1) (get_nextfreeblock sb).1 0) starts ∧
    ((get_nextfreeblock sb).1 = 0 ∨
      (41 ≤ (get_nextfreeblock sb).1 ∧
        (get_nextfreeblock sb).1 < (get_nextfreeblock sb).2.blockcount ∧
        bitfree (get_nextfreeblock sb).2 ((get_nextfreeblock sb).1 - 41) = false)) ∧
    fat_get (fat_set (fat_set fat c (get_nextfreeblock sb).1) (get_nextfreeblock sb).1 0) c
      = (get_nextfreeblock sb).1 ∧
    fat_get (fat_set (fat_set fat c (get_nextfreeblock sb).1) (get_nextfreeblock sb).1 0)
      (get_nextfreeblock sb).1 = 0 ∧
    (∀ i j, InChain
        (fat_set (fat_set fat c (get_nextfreeblock sb).1) (get_nextfreeblock sb).1 0)
        (starts i j) (get_nextfreeblock sb).1 → InChain fat (starts i j) c) := by
  have hbc := h.1
  have hc32 : c < 2 ^ 32 := by
    rcases hc with hc | hc
    · rw [hc]; norm_num
    · have : (4096 : Nat) < 2 ^ 32 := by norm_num
      omega
  -- what the allocator returned
  have halloc : ∃ b sb', get_nextfreeblock sb = (b, sb') ∧
      sb'.blockcount = sb.blockcount ∧
      (∀ k, bitfree sb k = false → bitfree sb' k = false) ∧
      (b ≠ 0 → 41 ≤ b ∧ b < sb.blockcount ∧ bitfree sb' (b - 41) = false ∧
        bitfree sb (b - 41) = true) := by
    rcases get_nextfreeblock_cases sb (by omega) hbc.2 with h0 | ⟨t, a1, a2, a3, a4, a5⟩
    · exact ⟨0, sb, h0, rfl, fun _ hk => hk, fun hne => absurd rfl hne⟩
    · refine ⟨41 + t, (get_nextfreeblock sb).2, ?_, a4, ?_, ?_⟩
      · rw [← a3]
      · intro k hk
        rw [a5, hk]
        rfl
      · intro _
        refine ⟨by omega, a1, ?_, ?_⟩
        · rw [a5]
          simp
        · simpa using a2
  obtain ⟨b, sb', hr, hbc', hbits, hb⟩ := halloc
  rw [hr]
  simp only
  have hb32 : b < 2 ^ 32 := by
    by_cases hbz : b = 0
    · rw [hbz]; norm_num
    · have := (hb hbz).2.1
      have : (4096 : Nat) < 2 ^ 32 := by norm_num
      omega
  have hcb : c = b → b = 0 := by
    intro hcb
    by_contra hbz
    obtain ⟨_, _, _, hfree⟩ := hb hbz
    rcases hc with hc | ⟨_, _, hc⟩
    · exact hbz (by rw [← hcb, hc])
    · rw [hcb, hfree] at hc
      cases hc
  have hgetb : fat_get (fat_set (fat_set fat c b) b 0) b = 0 := fat_get_fat_set_eq _ _ _
  have hgetc : fat_get (fat_set (fat_set fat c b) b 0) c = b := by
    by_cases hcb' : c = b
    · have hbz := hcb hcb'
      rw [hcb', fat_get_fat_set_eq]
      exact hbz.symm
    · rw [fat_get_fat_set_ne _ _ _ _ hb32 hc32 hcb', fat_get_fat_set_eq]
  -- the walk under the new FAT
  have hwalk : ∀ i j x, InChain (fat_set (fat_set fat c b) b 0) (starts i j) x →
      InChain fat (starts i j) x ∨ (x = b ∧ InChain fat (starts i j) c) := by
    intro i j
    apply walk_incl fat _ (starts i j) c b
    · intro x hx
      have hx32 : x < 2 ^ 32 := by
        have := (h.2.1 i j x hx).2.1
        have : (4096 : Nat) < 2 ^ 32 := by norm_num
        omega
      by_cases hxb : x = b
      · right; left
        rw [hxb]
        exact hgetb
      · by_cases hxc : x = c
        · right; right
          refine ⟨hxc, ?_⟩
          rw [hxc]
          exact hgetc
        · left
          rw [fat_get_fat_set_ne _ _ _ _ hb32 hx32 hxb, fat_get_fat_set_ne _ _ _ _ hc32 hx32 hxc]
    · intro _
      exact hgetb
  have hfresh : b ≠ 0 → ∀ i j, ¬ InChain fat (starts i j) b := by
    intro hbz i j hin
    have h1 := (h.2.1 i j b hin).2.2
    rw [(hb hbz).2.2.2] at h1
    cases h1
  refine ⟨?_, ?_, hgetc, hgetb, ?_⟩
  · apply ChainsOK_of_incl sb sb' fat _ starts starts b
      (fun i j => InChain fat (starts i j) c) h hbc' hbits
    · intro hbz
      obtain ⟨a1, a2, a3, _⟩ := hb hbz
      exact ⟨a1, a2, a3, hfresh hbz⟩
    · intro i j i' j' hq hq'
      by_contra hne
      exact h.2.2 i j i' j' c hne hq hq'
    · exact hwalk
  · by_cases hbz : b = 0
    · left; exact hbz
    · right
      obtain ⟨a1, a2, a3, _⟩ := hb hbz
      exact ⟨a1, by rw [hbc']; exact a2, a3⟩
  · intro i j hin
    have hbz : b ≠ 0 := InChain_ne_zero hin
    rcases hwalk i j b hin with hold | ⟨_, hq⟩
    · exact absurd hold (hfresh hbz i j)
    · exact hq

/-- The body of the loop keeps the invariant. -/
theorem body_LinkInv (starts : Nat → Nat → Nat) (bs : Nat → Nat) (idx i : Nat)
    (st : append_state) (h : LinkInv starts st) :
    LinkInv starts (itervative_append_body bs idx i st) := by
  have hlink := link_ok st.superblock st.fattable starts st.currblocknumber h.ok h.curr_ok
  obtain ⟨l1, l2, l3, _, _⟩ := hlink
  cases hflag : st.flagnewblock
  · simp only [itervative_append_body, hflag, Bool.false_eq_true, if_false]
    split_ifs <;> exact ⟨h.ok, h.curr_ok, h.prev_link⟩
  · simp only [itervative_append_body, hflag, if_true, FAT_LIST_NULL]
    split_ifs <;> exact ⟨l1, l2, l3⟩

theorem loop_LinkInv (starts : Nat → Nat → Nat) (bs : Nat → Nat) (idx : Nat) :
    ∀ k i st, LinkInv starts st → LinkInv starts (itervative_append_loop bs idx k i st) := by
  intro k
  induction k with
  | zero => intro i st h; exact h
  | succ k ih =>
    intro i st h
    simp only [itervative_append_loop]
    exact ih _ _ (body_LinkInv starts bs idx i st h)

/-- What `itervative_append` returns is the superblock and FAT of a state that
satisfies the invariant, when it starts from one. -/
theorem itervative_append_of_LinkInv (starts : Nat → Nat → Nat)
    (sb : super_block) (fat : Nat → fat_table_block) (disk : vdisk)
    (curr prev cnt : Nat) (bs : Nat → Nat) (idx : Nat)
    (h : LinkInv starts
      { superblock := sb, fattable := fat_set (fat_set fat prev curr) curr FAT_LIST_NULL,
        disk := disk, datablock := new_datablock, currblocknumber := curr,
        prevblocknumber := prev, flagnewblock := false }) :
    ChainsOK (itervative_append sb fat disk curr prev cnt bs idx).1
      (itervative_append sb fat disk curr prev cnt bs idx).2.1 starts := by
  have hl := loop_LinkInv starts bs idx cnt 0 _ h
  simp only [itervative_append]
  split_ifs
  · simp only
    rw [fat_set_same _ _ _ hl.prev_link]
    exact hl.ok
  · exact hl.ok

/-- An append that extends a chain: `prev` is 0 or an allocated block. -/
theorem itervative_append_ok (starts : Nat → Nat → Nat)
    (sb : super_block) (fat : Nat → fat_table_block) (disk : vdisk)
    (prev cnt : Nat) (bs : Nat → Nat) (idx : Nat)
    (h : ChainsOK sb fat starts)
    (hc : prev = 0 ∨ (41 ≤ prev ∧ prev < sb.blockcount ∧ bitfree sb (prev - 41) = false)) :
    ChainsOK
      (itervative_append (get_nextfreeblock sb).2 fat disk (get_nextfreeblock sb).1 prev
        cnt bs idx).1
      (itervative_append (get_nextfreeblock sb).2 fat disk (get_nextfreeblock sb).1 prev
        cnt bs idx).2.1 starts := by
  obtain ⟨l1, l2, l3, _, _⟩ := link_ok sb fat starts prev h hc
  apply itervative_append_of_LinkInv
  exact ⟨l1, l2, l3⟩

/-- The first append to an entry: `prev` is 0 and the entry's start block
becomes the block the allocator returned. -/
theorem itervative_append_first_ok (starts : Nat → Nat → Nat)
    (sb : super_block) (fat : Nat → fat_table_block) (disk : vdisk)
    (cnt : Nat) (bs : Nat → Nat) (idx : Nat) (ei ej : Nat)
    (h : ChainsOK sb fat starts) :
    ChainsOK
      (itervative_append (get_nextfreeblock sb).2 fat disk (get_nextfreeblock sb).1 0
        cnt bs idx).1
      (itervative_append (get_nextfreeblock sb).2 fat disk (get_nextfreeblock sb).1 0
        cnt bs idx).2.1
      (fun i j => if i = ei ∧ j = ej then (get_nextfreeblock sb).1 else starts i j) := by
  obtain ⟨l1, l2, l3, l4, l5⟩ := link_ok sb fat starts 0 h (Or.inl rfl)
  apply itervative_append_of_LinkInv
  refine ⟨?_, l2, l3⟩
  simp only [FAT_LIST_NULL]
  apply ChainsOK_of_incl (get_nextfreeblock sb).2 (get_nextfreeblock sb).2 _ _ starts _
    (get_nextfreeblock sb).1 (fun i j => i = ei ∧ j = ej) l1 rfl (fun _ hk => hk)
  · intro hbz
    rcases l2 with l2 | ⟨a1, a2, a3⟩
    · exact absurd l2 hbz
    · refine ⟨a1, a2, a3, ?_⟩
      intro i j hin
      exact InChain_ne_zero (l5 i j hin) rfl
  · rintro i j i' j' ⟨rfl, rfl⟩ ⟨rfl, rfl⟩
    exact ⟨rfl, rfl⟩
  · intro i j x hx
    by_cases hp : i = ei ∧ j = ej
    · right
      simp only [hp, and_self, if_true] at hx
      exact ⟨InChain_single l4 hx, hp⟩
    · left
      simp only [hp, if_false] at hx
      exact hx

/-! ## The walk of `get_lastallocatedblock` -/

theorem nth_block_shift (fat : Nat → fat_table_block) (start : Nat) :
    ∀ k, nth_block fat (fat_get fat start) k = nth_block fat start (k + 1) := by
  intro k
  induction k with
  | zero => rfl
  | succ k ih => simp only [nth_block] at ih ⊢; rw [ih]

/-- What the loop returns is a block of the chain whose FAT entry is 0. -/
theorem get_lastallocatedblock_loop_sound (fat : Nat → fat_table_block) (start : Nat) :
    ∀ fuel prev curr r, InChain fat start prev → (curr = fat_get fat prev ∨ curr = prev) →
      get_lastallocatedblock_loop fat fuel prev curr = some r →
      InChain fat start r ∧ fat_get fat r = 0 := by
  intro fuel
  induction fuel with
  | zero => intro prev curr r _ _ h; simp [get_lastallocatedblock_loop] at h
  | succ fuel ih =>
    intro prev curr r hin hcurr h
    simp only [get_lastallocatedblock_loop, FAT_LIST_NULL] at h
    by_cases hz : curr = 0
    · simp only [hz, ne_eq, not_true_eq_false, if_false, Option.some.injEq] at h
      subst h
      rcases hcurr with hc | hc
      · exact ⟨hin, by rw [← hc, hz]⟩
      · exact absurd (by rw [← hc, hz]) (InChain_ne_zero hin)
    · simp only [hz, ne_eq, not_false_eq_true, if_true] at h
      rcases hcurr with hc | hc
      · have hin' : InChain fat start curr := by
          rw [hc]
          exact InChain_succ hin (by rw [← hc]; exact hz)
        exact ih curr (fat_get fat prev) r hin' (Or.inr hc.symm) h
      · rw [hc] at h
        exact ih prev (fat_get fat prev) r hin (Or.inl rfl) h

/-- The block `get_lastallocatedblock` returns is 0 or a block of the chain
from `start` whose FAT entry is 0. -/
theorem get_lastallocatedblock_sound (fuel : Nat) (fat : Nat → fat_table_block)
    (start r : Nat) (h : get_lastallocatedblock fuel fat start = some r) :
    (r = 0 ∧ start = 0) ∨ (InChain fat start r ∧ fat_get fat r = 0) := by
  simp only [get_lastallocatedblock, NO_START_BLOCK] at h
  by_cases hs : start = 0
  · simp only [hs, if_true, Option.some.injEq] at h
    left
    exact ⟨h.symm, hs⟩
  · simp only [hs, if_false] at h
    right
    exact get_lastallocatedblock_loop_sound fat start fuel start _ r
      (InChain_start fat start hs) (Or.inl rfl) h

/-- With enough fuel the loop returns the last block of a chain of `d + 1`
blocks: two iterations for each link and one to stop. -/
theorem get_lastallocatedblock_loop_complete (fat : Nat → fat_table_block) :
    ∀ d fuel prev, (∀ m, m ≤ d → nth_block fat prev m ≠ 0) →
      nth_block fat prev (d + 1) = 0 → 2 * d + 1 ≤ fuel →
      get_lastallocatedblock_loop fat fuel prev (fat_get fat prev)
        = some (nth_block fat prev d) := by
  intro d
  induction d with
  | zero =>
    intro fuel prev _ hend hfuel
    obtain ⟨f, rfl⟩ : ∃ f, fuel = f + 1 := ⟨fuel - 1, by omega⟩
    simp only [nth_block] at hend
    simp [get_lastallocatedblock_loop, FAT_LIST_NULL, hend, nth_block]
  | succ d ih =>
    intro fuel prev hnz hend hfuel
    obtain ⟨f, rfl⟩ : ∃ f, fuel = f + 2 := ⟨fuel - 2, by omega⟩
    have h1 : fat_get fat prev ≠ 0 := hnz 1 (by omega)
    have hstep : get_lastallocatedblock_loop fat (f + 2) prev (fat_get fat prev)
        = get_lastallocatedblock_loop fat f (fat_get fat prev)
            (fat_get fat (fat_get fat prev)) := by
      simp only [get_lastallocatedblock_loop, FAT_LIST_NULL, ne_eq, h1, not_false_eq_true,
        if_true]
    rw [hstep, ih f (fat_get fat prev) ?_ ?_ (by omega), nth_block_shift]
    · intro m hm
      rw [nth_block_shift]
      exact hnz (m + 1) (by omega)
    · rw [nth_block_shift]
      exact hend

/-- The function returns the last block of a chain of `d + 1` blocks when the
fuel is at least `2 d + 1`. -/
theorem get_lastallocatedblock_complete (fat : Nat → fat_table_block) (start d fuel : Nat)
    (hnz : ∀ m, m ≤ d → nth_block fat start m ≠ 0)
    (hend : nth_block fat start (d + 1) = 0) (hfuel : 2 * d + 1 ≤ fuel) :
    get_lastallocatedblock fuel fat start = some (nth_block fat start d) := by
  have hs : start ≠ 0 := hnz 0 (Nat.zero_le _)
  simp only [get_lastallocatedblock, NO_START_BLOCK, hs, if_false]
  exact get_lastallocatedblock_loop_complete fat d fuel start hnz hend hfuel

/-- More fuel does not change what the walk returns. -/
theorem get_lastallocatedblock_loop_mono (fat : Nat → fat_table_block) :
    ∀ fuel fuel' prev curr r, fuel ≤ fuel' →
      get_lastallocatedblock_loop fat fuel prev curr = some r →
      get_lastallocatedblock_loop fat fuel' prev curr = some r := by
  intro fuel
  induction fuel with
  | zero => intro fuel' prev curr r _ h; simp [get_lastallocatedblock_loop] at h
  | succ fuel ih =>
    intro fuel' prev curr r hle h
    obtain ⟨f', rfl⟩ : ∃ f', fuel' = f' + 1 := ⟨fuel' - 1, by omega⟩
    simp only [get_lastallocatedblock_loop] at h ⊢
    split_ifs at h ⊢ with hc
    · exact ih f' _ _ r (by omega) h
    · exact h

theorem get_lastallocatedblock_mono (fat : Nat → fat_table_block) (start fuel fuel' r : Nat)
    (hle : fuel ≤ fuel') (h : get_lastallocatedblock fuel fat start = some r) :
    get_lastallocatedblock fuel' fat start = some r := by
  simp only [get_lastallocatedblock] at h ⊢
  split_ifs at h ⊢ with hs
  · exact h
  · exact get_lastallocatedblock_loop_mono fat fuel fuel' _ _ r hle h

/-! ## The shape of the state after each call -/

/-- What `vsappend` leaves: the state as it was, or the entry of the handle
with a new size (and start block, on the first append), and the superblock and
FAT as they were or as `itervative_append` returned them. -/
theorem vsappend_shape (fuel : Nat) (s : FS) (fd : Int) (buf : Nat → Nat) (n : Nat)
    (r : Int) (s' : FS) (h : vsappend fuel s fd buf n = .ok (r, s')) :
    s' = s ∨
    ∃ ei ej last, s'.openfiletable = s.openfiletable ∧
      (∀ a b, ¬ (a = ei ∧ b = ej) → s'.rootdir a b = s.rootdir a b) ∧
      (s'.rootdir ei ej).isoccupied = (s.rootdir ei ej).isoccupied ∧
      (s'.rootdir ei ej).filename = (s.rootdir ei ej).filename ∧
      get_lastallocatedblock fuel s.fattable (s.rootdir ei ej).startblock = some last ∧
      ((last = 0 ∧ (s'.rootdir ei ej).startblock = (get_nextfreeblock s.superblock).1 ∧
          ∃ disk cnt idx, (s'.superblock, s'.fattable) =
            ((itervative_append (get_nextfreeblock s.superblock).2 s.fattable disk
                (get_nextfreeblock s.superblock).1 0 cnt buf idx).1,
             (itervative_append (get_nextfreeblock s.superblock).2 s.fattable disk
                (get_nextfreeblock s.superblock).1 0 cnt buf idx).2.1)) ∨
       (last ≠ 0 ∧ (s'.rootdir ei ej).startblock = (s.rootdir ei ej).startblock ∧
          s'.superblock = s.superblock ∧ s'.fattable = s.fattable) ∨
       (last ≠ 0 ∧ (s'.rootdir ei ej).startblock = (s.rootdir ei ej).startblock ∧
          ∃ disk cnt idx, (s'.superblock, s'.fattable) =
            ((itervative_append (get_nextfreeblock s.superblock).2 s.fattable disk
                (get_nextfreeblock s.superblock).1 last cnt buf idx).1,
             (itervative_append (get_nextfreeblock s.superblock).2 s.fattable disk
                (get_nextfreeblock s.superblock).1 last cnt buf idx).2.1))) := by
  unfold vsappend at h
  split_ifs at h with g1 g2 g3 g4
  · left; cases h; rfl
  · left; cases h; rfl
  · left; cases h; rfl
  · cases hentry : (s.openfiletable fd.toNat).entry with
    | none => simp [hentry] at h
    | some p =>
      obtain ⟨ei, ej⟩ := p
      simp only [hentry] at h
      cases hlast : get_lastallocatedblock fuel s.fattable (s.rootdir ei ej).startblock with
      | none => simp [hlast] at h
      | some last =>
        simp only [hlast, NO_START_BLOCK] at h
        right
        refine ⟨ei, ej, last, ?_⟩
        have hset : ∀ (e : directory_entry) (a b : Nat), ¬ (a = ei ∧ b = ej) →
            set_entry s.rootdir ei ej e a b = s.rootdir a b := by
          intro e a b hab
          simp only [set_entry, hab, if_false]
        have hset' : ∀ (e : directory_entry), set_entry s.rootdir ei ej e ei ej = e := by
          intro e
          simp [set_entry]
        split_ifs at h with c1 c2 c3
        · cases h
          refine ⟨rfl, hset _, ?_, ?_, hlast, Or.inl ⟨c1, ?_, _, _, _, rfl⟩⟩ <;>
            simp only [hset']
        · cases h
          refine ⟨rfl, hset _, ?_, ?_, hlast, Or.inr (Or.inl ⟨c1, ?_, rfl, rfl⟩)⟩ <;>
            simp only [hset']
        · cases h
          refine ⟨rfl, hset _, ?_, ?_, hlast, Or.inr (Or.inr ⟨c1, ?_, _, _, _, rfl⟩)⟩ <;>
            simp only [hset']
        · cases h
          refine ⟨rfl, hset _, ?_, ?_, hlast, Or.inr (Or.inr ⟨c1, ?_, _, _, _, rfl⟩)⟩ <;>
            simp only [hset']

/-- The loop of `vsdelete` leaves every FAT entry as it was or 0. -/
theorem vsdelete_chain_fat : ∀ (fuel : Nat) (disk : vdisk) (fat : Nat → fat_table_block)
    (curr : Nat) (res : vdisk × (Nat → fat_table_block)),
    vsdelete_chain fuel disk fat curr = some res →
    ∀ x, fat_get res.2 x = fat_get fat x ∨ fat_get res.2 x = 0 := by
  intro fuel
  induction fuel with
  | zero => intro disk fat curr res h; simp [vsdelete_chain] at h
  | succ fuel ih =>
    intro disk fat curr res h x
    simp only [vsdelete_chain, FAT_LIST_NULL] at h
    split_ifs at h with hc
    · rcases ih _ _ _ res h x with h1 | h1
      · rw [h1]
        simp only [fat_get, fat_set]
        split_ifs
        · right; rfl
        · left; rfl
      · right; exact h1
    · cases h
      left; rfl

/-- What `vsdelete` leaves: the state as it was, or one entry cleared and
every FAT entry as it was or 0. -/
theorem vsdelete_shape (fuel : Nat) (s : FS) (name : List Nat) (r : Int) (s' : FS)
    (h : vsdelete fuel s name = .ok (r, s')) :
    s' = s ∨
    ∃ bi oi, s'.superblock = s.superblock ∧ s'.openfiletable = s.openfiletable ∧
      s'.rootdir = set_entry s.rootdir bi oi
        { isoccupied := false, filename := List.replicate 30 0, filesize := 0,
          startblock := NO_START_BLOCK } ∧
      ∀ x, fat_get s'.fattable x = fat_get s.fattable x ∨ fat_get s'.fattable x = 0 := by
  unfold vsdelete at h
  rcases hf : vsdelete_find s.rootdir name 8 0 (0, 0, false) with ⟨bi, oi, ex⟩
  rw [hf] at h
  cases ex with
  | false =>
    simp only at h
    cases h
    left; rfl
  | true =>
    simp only at h
    cases hc : vsdelete_chain fuel s.disk s.fattable ((s.rootdir bi oi).startblock % 0x10000) with
    | none => simp [hc] at h
    | some res =>
      obtain ⟨disk, fat⟩ := res
      simp only [hc] at h
      cases h
      right
      exact ⟨bi, oi, rfl, rfl, rfl, vsdelete_chain_fat _ _ _ _ _ hc⟩

theorem vsopen_fields (s : FS) (name : List Nat) (mode : Int) :
    (vsopen s name mode).2.rootdir = s.rootdir ∧
    (vsopen s name mode).2.fattable = s.fattable ∧
    (vsopen s name mode).2.superblock = s.superblock := by
  unfold vsopen
  cases find_entry (fun e => streq e.filename name) s.rootdir 8 0 with
  | none => exact ⟨rfl, rfl, rfl⟩
  | some p =>
    simp only
    split_ifs <;> exact ⟨rfl, rfl, rfl⟩

theorem vsclose_fields (s : FS) (fd : Int) (r : Int) (s' : FS)
    (h : vsclose s fd = .ok (r, s')) :
    s'.rootdir = s.rootdir ∧ s'.fattable = s.fattable ∧ s'.superblock = s.superblock := by
  unfold vsclose at h
  split_ifs at h <;> cases h <;> exact ⟨rfl, rfl, rfl⟩

theorem vscreate_fields (s : FS) (name : List Nat) :
    (vscreate s name).2.fattable = s.fattable ∧
    (vscreate s name).2.superblock = s.superblock ∧
    ∀ i j, ((vscreate s name).2.rootdir i j).startblock = (s.rootdir i j).startblock := by
  rcases vscreate_cases s name with h | h
  · rw [h]
    exact ⟨rfl, rfl, fun _ _ => rfl⟩
  · obtain ⟨_, _, i, j, _, heq⟩ := vscreate_ok s name h
    rw [heq]
    refine ⟨rfl, rfl, ?_⟩
    intro a b
    simp only [set_entry]
    split_ifs with hab
    · rw [hab.1, hab.2]
    · rfl

/-! ## Invariants of the reachable states -/

/-- The chains are in order when only the FAT changed, each entry to itself or
0, and start blocks were kept or set to 0. -/
theorem ChainsOK_shrink (sb : super_block) (fat fat' : Nat → fat_table_block)
    (starts starts' : Nat → Nat → Nat) (h : ChainsOK sb fat starts)
    (hfat : ∀ x, fat_get fat' x = fat_get fat x ∨ fat_get fat' x = 0)
    (hstarts : ∀ i j, starts' i j = starts i j ∨ starts' i j = 0) :
    ChainsOK sb fat' starts' := by
  apply ChainsOK_of_incl sb sb fat fat' starts starts' 0 (fun _ _ => False) h rfl
    (fun _ hk => hk) (fun hne => absurd rfl hne) (fun _ _ _ _ hq _ => hq.elim)
  intro i j x hx
  left
  rcases hstarts i j with hs | hs
  · rw [hs] at hx
    rcases walk_incl fat fat' (starts i j) 0 0
        (fun y _ => by
          rcases hfat y with h1 | h1
          · exact Or.inl h1
          · exact Or.inr (Or.inl h1))
        (fun hne => absurd rfl hne) x hx with h1 | ⟨h1, _⟩
    · exact h1
    · exact absurd h1 (InChain_ne_zero hx)
  · rw [hs] at hx
    exact absurd hx (not_InChain_zero fat' x)

/-- In every reachable state the chains of the directory entries are made of
allocated data blocks in range and no two of them share a block. -/
theorem reachable_ChainsOK (s : FS) (h : Reachable s) :
    ChainsOK s.superblock s.fattable (fun i j => (s.rootdir i j).startblock) := by
  induction h with
  | init m h1 h2 =>
    obtain ⟨heq, hlo, hhi⟩ := formatted_eq m h1 h2
    rw [heq]
    refine ⟨⟨hlo, hhi⟩, ?_, ?_⟩
    · intro i j b hb
      exact absurd hb (not_InChain_zero _ b)
    · intro i j i' j' b _ hb _
      exact absurd hb (not_InChain_zero _ b)
  | create s name _ ih =>
    obtain ⟨h1, h2, h3⟩ := vscreate_fields s name
    rw [h1, h2]
    simp only [h3]
    exact ih
  | opened s name mode _ ih =>
    obtain ⟨h1, h2, h3⟩ := vsopen_fields s name mode
    rw [h1, h2, h3]
    exact ih
  | closed s fd r s' _ hc ih =>
    obtain ⟨h1, h2, h3⟩ := vsclose_fields s fd r s' hc
    rw [h1, h2, h3]
    exact ih
  | appended fuel s fd buf n r s' _ ha ih =>
    rcases vsappend_shape fuel s fd buf n r s' ha with heq | ⟨ei, ej, last, _, hother, _, _, hlast, hcase⟩
    · rw [heq]; exact ih
    · have hstarts : ∀ (v : Nat), (s'.rootdir ei ej).startblock = v →
          (fun i j => (s'.rootdir i j).startblock) =
            (fun i j => if i = ei ∧ j = ej then v else (s.rootdir i j).startblock) := by
        intro v hv
        funext i j
        by_cases hp : i = ei ∧ j = ej
        · simp only [hp, and_self, if_true]
          exact hv
        · simp only [hp, if_false]
          rw [hother i j hp]
      have hsame : (s'.rootdir ei ej).startblock = (s.rootdir ei ej).startblock →
          (fun i j => (s'.rootdir i j).startblock) = (fun i j => (s.rootdir i j).startblock) := by
        intro hv
        rw [hstarts _ hv]
        funext i j
        split_ifs with hp
        · rw [hp.1, hp.2]
        · rfl
      have hprev : last = 0 ∨ (41 ≤ last ∧ last < s.superblock.blockcount ∧
          bitfree s.superblock (last - 41) = false) := by
        rcases get_lastallocatedblock_sound _ _ _ _ hlast with ⟨h0, _⟩ | ⟨hin, _⟩
        · left; exact h0
        · right
          exact ih.2.1 ei ej last hin
      rcases hcase with ⟨_, hst, disk, cnt, idx, hg⟩ | ⟨_, hst, hsb, hfat⟩ |
          ⟨_, hst, disk, cnt, idx, hg⟩
      · rw [hstarts _ hst]
        have e1 := congrArg Prod.fst hg
        have e2 := congrArg Prod.snd hg
        simp only at e1 e2
        rw [e1, e2]
        exact itervative_append_first_ok _ s.superblock s.fattable disk cnt buf idx ei ej ih
      · rw [hsame hst, hsb, hfat]
        exact ih
      · rw [hsame hst]
        have e1 := congrArg Prod.fst hg
        have e2 := congrArg Prod.snd hg
        simp only at e1 e2
        rw [e1, e2]
        exact itervative_append_ok _ s.superblock s.fattable disk last cnt buf idx ih hprev
  | deleted fuel s name r s' _ hd ih =>
    rcases vsdelete_shape fuel s name r s' hd with heq | ⟨bi, oi, hsb, _, hrd, hfat⟩
    · rw [heq]; exact ih
    · rw [hsb]
      apply ChainsOK_shrink s.superblock s.fattable s'.fattable _ _ ih hfat
      intro i j
      rw [hrd]
      simp only [set_entry]
      split_ifs
      · right; rfl
      · left; rfl

/-- In every reachable state the occupied entries have different names. -/
theorem reachable_NamesUnique (s : FS) (h : Reachable s) : NamesUnique s.rootdir := by
  induction h with
  | init m h1 h2 =>
    obtain ⟨heq, _, _⟩ := formatted_eq m h1 h2
    rw [heq]
    intro i j i' j' _ _ _ _ _ hocc _
    simp [fresh, blank_entry] at hocc
  | create s name _ ih =>
    rcases vscreate_cases s name with h | h
    · rw [h]; exact ih
    · obtain ⟨hlen, hnone, i0, j0, _, heq⟩ := vscreate_ok s name h
      rw [heq]
      rw [find_entry_none] at hnone
      have hstored := (cstr_stored_name name hlen).1
      have hold : ∀ a b, a < 8 → b < 16 → (s.rootdir a b).isoccupied = true →
          cstr (s.rootdir a b).filename ≠ cstr name := by
        intro a b ha hb hocc heqn
        have := hnone a b (Nat.zero_le _) (by omega) hb
        simp only [hocc, Bool.true_and] at this
        rw [← streq_iff] at heqn
        rw [heqn] at this
        cases this
      intro i j i' j' hi hj hi' hj' hne hocc hocc'
      simp only [set_entry] at hocc hocc' ⊢
      by_cases hp : i = i0 ∧ j = j0
      · by_cases hp' : i' = i0 ∧ j' = j0
        · exact absurd ⟨hp.1.trans hp'.1.symm, hp.2.trans hp'.2.symm⟩ hne
        · simp only [hp, and_self, if_true, hp', if_false] at hocc' ⊢
          rw [hstored]
          exact fun e => hold i' j' hi' hj' hocc' e.symm
      · by_cases hp' : i' = i0 ∧ j' = j0
        · simp only [hp, if_false, hp', and_self, if_true] at hocc ⊢
          rw [hstored]
          exact hold i j hi hj hocc
        · simp only [hp, hp', if_false] at hocc hocc' ⊢
          exact ih i j i' j' hi hj hi' hj' hne hocc hocc'
  | opened s name mode _ ih =>
    rw [(vsopen_fields s name mode).1]
    exact ih
  | closed s fd r s' _ hc ih =>
    rw [(vsclose_fields s fd r s' hc).1]
    exact ih
  | appended fuel s fd buf n r s' _ ha ih =>
    rcases vsappend_shape fuel s fd buf n r s' ha with heq | ⟨ei, ej, last, _, hother, hocc, hname, _, _⟩
    · rw [heq]; exact ih
    · have hsame : ∀ a b, (s'.rootdir a b).isoccupied = (s.rootdir a b).isoccupied ∧
          (s'.rootdir a b).filename = (s.rootdir a b).filename := by
        intro a b
        by_cases hp : a = ei ∧ b = ej
        · rw [hp.1, hp.2]
          exact ⟨hocc, hname⟩
        · rw [hother a b hp]
          exact ⟨rfl, rfl⟩
      intro i j i' j' hi hj hi' hj' hne ho ho'
      rw [(hsame i j).1] at ho
      rw [(hsame i' j').1] at ho'
      rw [(hsame i j).2, (hsame i' j').2]
      exact ih i j i' j' hi hj hi' hj' hne ho ho'
  | deleted fuel s name r s' _ hd ih =>
    rcases vsdelete_shape fuel s name r s' hd with heq | ⟨bi, oi, _, _, hrd, _⟩
    · rw [heq]; exact ih
    · rw [hrd]
      intro i j i' j' hi hj hi' hj' hne ho ho'
      simp only [set_entry] at ho ho' ⊢
      by_cases hp : i = bi ∧ j = oi
      · simp [hp] at ho
      · by_cases hp' : i' = bi ∧ j' = oi
        · simp [hp'] at ho'
        · simp only [hp, hp', if_false] at ho ho' ⊢
          exact ih i j i' j' hi hj hi' hj' hne ho ho'

theorem Reachable_state_after_append (fuel : Nat) (s : FS) (fd : Int) (buf : Nat → Nat)
    (n : Nat) (h : Reachable s) : Reachable (state_after (vsappend fuel s fd buf n) s) := by
  cases hr : vsappend fuel s fd buf n with
  | error e => exact h
  | ok p =>
    obtain ⟨r, s'⟩ := p
    exact Reachable.appended fuel s fd buf n r s' h hr

theorem empty_file_open_reachable : Reachable empty_file_open := by
  unfold empty_file_open
  apply Reachable.opened
  apply Reachable.create
  exact Reachable.init 18 (by decide) (by decide)

theorem two_files_reachable : Reachable two_files := by
  unfold two_files
  apply Reachable_state_after_append
  apply Reachable.opened
  apply Reachable_state_after_append
  apply Reachable.opened
  apply Reachable.create
  apply Reachable.create
  exact Reachable.init 18 (by decide) (by decide)

/-! ## One-byte appends -/

/-- The function `itervative_append` for one byte. -/
theorem itervative_append_one (sb : super_block) (fat : Nat → fat_table_block) (disk : vdisk)
    (curr prev : Nat) (bs : Nat → Nat) :
    itervative_append sb fat disk curr prev 1 bs 0 =
      (sb, fat_set (fat_set (fat_set fat prev curr) curr 0) prev curr,
        write_block disk (.data (fun x => if x = 0 then bs 0 else 0)) curr) := by
  simp [itervative_append, itervative_append_loop, itervative_append_body, BLOCKSIZE,
    FAT_LIST_NULL, new_datablock]

/-- An append that fits in the part of the last block that is not used. -/
theorem vsappend_fits (fuel : Nat) (s : FS) (bs : Nat → Nat) (n i j last : Nat) (blk : data_block)
    (hi : i < 8) (hj : j < 16)
    (hfree : (s.openfiletable (i * 16 + j)).free = false)
    (hmode : (s.openfiletable (i * 16 + j)).mode = MODE_APPEND)
    (hentry : (s.openfiletable (i * 16 + j)).entry = some (i, j))
    (hlast : get_lastallocatedblock fuel s.fattable (s.rootdir i j).startblock = some last)
    (hnz : last ≠ 0)
    (hpart : (s.rootdir i j).filesize % 2048 ≠ 0)
    (hfit : n ≤ 2048 - (s.rootdir i j).filesize % 2048)
    (hblk : read_data_block s.disk last = some blk) :
    vsappend fuel s ((i * 16 + j : Nat) : Int) bs n =
      .ok (0,
        { s with
          disk := write_block s.disk
            (.data (fill_tail bs n 0 ((s.rootdir i j).filesize % 2048) blk)) last,
          rootdir := set_entry s.rootdir i j
                      { s.rootdir i j with
                        filesize := ((s.rootdir i j).filesize + n) % 2 ^ 64 } }) := by
  have hg1 : ¬ (((i * 16 + j : Nat) : Int) < 0 ∨ ((i * 16 + j : Nat) : Int) > 128) := by omega
  have hg2 : ¬ (((i * 16 + j : Nat) : Int) ≥ 128) := by omega
  have hnat : ((i * 16 + j : Nat) : Int).toNat = i * 16 + j := Int.toNat_natCast _
  have hfit' : 2048 - (s.rootdir i j).filesize % 2048 ≥ n := hfit
  unfold vsappend
  simp only [hg1, hg2, hnat, hfree, hmode, hentry, hlast, hnz, hpart, hfit', hblk, if_false,
    ne_eq, not_true_eq_false, not_false_eq_true, Bool.false_eq_true, if_true, NO_START_BLOCK,
    BLOCKSIZE]

/-- An append to a file whose last block is full. -/
theorem vsappend_new_block (fuel : Nat) (s : FS) (bs : Nat → Nat) (n i j last : Nat)
    (hi : i < 8) (hj : j < 16)
    (hfree : (s.openfiletable (i * 16 + j)).free = false)
    (hmode : (s.openfiletable (i * 16 + j)).mode = MODE_APPEND)
    (hentry : (s.openfiletable (i * 16 + j)).entry = some (i, j))
    (hlast : get_lastallocatedblock fuel s.fattable (s.rootdir i j).startblock = some last)
    (hnz : last ≠ 0)
    (hfull : (s.rootdir i j).filesize % 2048 = 0) :
    vsappend fuel s ((i * 16 + j : Nat) : Int) bs n =
      .ok (0,
        { s with
          superblock := (itervative_append (get_nextfreeblock s.superblock).2 s.fattable s.disk
            (get_nextfreeblock s.superblock).1 last n bs 0).1,
          fattable := (itervative_append (get_nextfreeblock s.superblock).2 s.fattable s.disk
            (get_nextfreeblock s.superblock).1 last n bs 0).2.1,
          disk := (itervative_append (get_nextfreeblock s.superblock).2 s.fattable s.disk
            (get_nextfreeblock s.superblock).1 last n bs 0).2.2,
          rootdir := set_entry s.rootdir i j
                      { s.rootdir i j with
                        filesize := ((s.rootdir i j).filesize + n) % 2 ^ 64 } }) := by
  have hg1 : ¬ (((i * 16 + j : Nat) : Int) < 0 ∨ ((i * 16 + j : Nat) : Int) > 128) := by omega
  have hg2 : ¬ (((i * 16 + j : Nat) : Int) ≥ 128) := by omega
  have hnat : ((i * 16 + j : Nat) : Int).toNat = i * 16 + j := Int.toNat_natCast _
  unfold vsappend
  simp only [hg1, hg2, hnat, hfree, hmode, hentry, hlast, hnz, hfull, if_false,
    ne_eq, not_true_eq_false, not_false_eq_true, Bool.false_eq_true, if_true, NO_START_BLOCK,
    BLOCKSIZE]

theorem free_in_range_le (sb : super_block) : free_in_range sb ≤ sb.blockcount - 41 := by
  unfold free_in_range
  calc (List.range (sb.blockcount - 41)).countP (fun i => bitfree sb i)
      ≤ (List.range (sb.blockcount - 41)).length := List.countP_le_length _
    _ = sb.blockcount - 41 := List.length_range _

/-- The FAT after a fresh block `b` was linked behind `prev`. -/
theorem fat_link (fat : Nat → fat_table_block) (prev b : Nat) (hp : prev < 2 ^ 32)
    (hb : b < 2 ^ 32) (hne : b ≠ prev) :
    fat_get (fat_set (fat_set (fat_set fat prev b) b 0) prev b) b = 0 ∧
    fat_get (fat_set (fat_set (fat_set fat prev b) b 0) prev b) prev = b ∧
    ∀ x, x < 2 ^ 32 → x ≠ prev → x ≠ b →
      fat_get (fat_set (fat_set (fat_set fat prev b) b 0) prev b) x = fat_get fat x := by
  refine ⟨?_, fat_get_fat_set_eq _ _ _, ?_⟩
  · rw [fat_get_fat_set_ne _ _ _ _ hp hb hne, fat_get_fat_set_eq]
  · intro x hx h1 h2
    rw [fat_get_fat_set_ne _ _ _ _ hp hx h1, fat_get_fat_set_ne _ _ _ _ hb hx h2,
      fat_get_fat_set_ne _ _ _ _ hp hx h1]

/-- The search for a name gives the same position in two directories whose
entries hold the same names. -/
theorem find_entry_congr (p : directory_entry → Bool) (rd rd' : Nat → root_dir_block)
    (h : ∀ a b, p (rd' a b) = p (rd a b)) (i j : Nat)
    (hf : find_entry p rd 8 0 = some (i, j)) : find_entry p rd' 8 0 = some (i, j) := by
  rw [find_entry_some] at hf ⊢
  obtain ⟨h1, h2, h3, h4, h5⟩ := hf
  refine ⟨h1, h2, h3, by rw [h]; exact h4, ?_⟩
  intro i' j' a1 a2 a3
  rw [h]
  exact h5 i' j' a1 a2 a3

/-- The first one-byte append to an empty file. -/
theorem single_first (fuel : Nat) (s0 : FS) (bs : Nat → Nat) (i j v k : Nat)
    (hi : i < 8) (hj : j < 16)
    (hfree : (s0.openfiletable (i * 16 + j)).free = false)
    (hmode : (s0.openfiletable (i * 16 + j)).mode = MODE_APPEND)
    (hentry : (s0.openfiletable (i * 16 + j)).entry = some (i, j))
    (hstart : (s0.rootdir i j).startblock = NO_START_BLOCK)
    (hhi : s0.superblock.blockcount ≤ 4096) (hk : 1 ≤ k)
    (hblocks : (k + 2047) / 2048 ≤ free_in_range s0.superblock) (hv : bs 0 = v) :
    ∃ s1 b0, vsappend fuel s0 ((i * 16 + j : Nat) : Int) bs 1 = .ok (0, s1) ∧
      SingleInv s0 i j v k b0 1 s1 := by
  have happ := vsappend_first fuel s0 bs 1 i j hi hj hfree hmode hentry hstart
  rw [itervative_append_one] at happ
  obtain ⟨t, ht, hbit, _, hnew, hbc', hbits, hcount⟩ :=
    get_nextfreeblock_of_free s0.superblock hhi (by omega)
  rw [hnew] at happ
  have h32 : (4096 : Nat) < 2 ^ 32 := by norm_num
  obtain ⟨l1, l2, l3⟩ := fat_link s0.fattable 0 (41 + t) (by norm_num) (by omega) (by omega)
  refine ⟨_, 41 + t, happ, ?_⟩
  refine
    { oft := rfl
      rd_other := ?_
      rd_name := ?_
      rd_size := ?_
      rd_start := ?_
      bc := hbc'
      alloc := ?_
      chain_end := ?_
      distinct := ?_
      data := ?_
      free := ?_ }
  · intro a b hab
    simp only [set_entry, hab, if_false]
  · simp only [set_entry, and_self, if_true]
  · simp only [set_entry, and_self, if_true]
  · simp only [set_entry, and_self, if_true]
  · intro t' ht'
    have : t' = 0 := by omega
    subst this
    simp only [nth_block]
    refine ⟨by omega, by rw [hbc']; exact ht, ?_⟩
    rw [hbits]
    simp
  · simp only [nth_block]
    exact l1
  · intro t1 t2 h1 h2
    omega
  · intro t' ht'
    have : t' = 0 := by omega
    subst this
    simp only [nth_block]
    refine ⟨_, read_write_same _ _ _, ?_⟩
    intro x _ hx
    have : x = 0 := by omega
    subst this
    simp only [if_true]
    exact hv
  · simp only
    omega

/-- One more one-byte append after at least one. -/
theorem single_step (fuel : Nat) (s0 s : FS) (bs : Nat → Nat) (i j v k b0 m : Nat)
    (hi : i < 8) (hj : j < 16)
    (hfree : (s0.openfiletable (i * 16 + j)).free = false)
    (hmode : (s0.openfiletable (i * 16 + j)).mode = MODE_APPEND)
    (hentry : (s0.openfiletable (i * 16 + j)).entry = some (i, j))
    (hhi : s0.superblock.blockcount ≤ 4096) (hm : 1 ≤ m) (hmk : m < k) (hkb : k < 2 ^ 31)
    (hfuel : 2 * ((k + 2047) / 2048) ≤ fuel) (hv : bs 0 = v)
    (inv : SingleInv s0 i j v k b0 m s) :
    ∃ s', vsappend fuel s ((i * 16 + j : Nat) : Int) bs 1 = .ok (0, s') ∧
      SingleInv s0 i j v k b0 (m + 1) s' := by
  have h31 : (2 : Nat) ^ 31 = 2147483648 := by norm_num
  have h32 : (2 : Nat) ^ 32 = 4294967296 := by norm_num
  have h64 : (2 : Nat) ^ 64 = 18446744073709551616 := by norm_num
  have hq1 : 1 ≤ (m + 2047) / 2048 := by omega
  have hbcs : s.superblock.blockcount ≤ 4096 := by rw [inv.bc]; exact hhi
  have hfree' : (s.openfiletable (i * 16 + j)).free = false := by rw [inv.oft]; exact hfree
  have hmode' : (s.openfiletable (i * 16 + j)).mode = MODE_APPEND := by rw [inv.oft]; exact hmode
  have hentry' : (s.openfiletable (i * 16 + j)).entry = some (i, j) := by
    rw [inv.oft]; exact hentry
  have hlastalloc := inv.alloc ((m + 2047) / 2048 - 1) (by omega)
  have hlast : get_lastallocatedblock fuel s.fattable (s.rootdir i j).startblock
      = some (nth_block s.fattable b0 ((m + 2047) / 2048 - 1)) := by
    rw [inv.rd_start]
    apply get_lastallocatedblock_complete
    · intro t ht
      have := (inv.alloc t (by omega)).1
      omega
    · have e : (m + 2047) / 2048 - 1 + 1 = (m + 2047) / 2048 := by omega
      rw [e]
      exact inv.chain_end
    · omega
  have hnz : nth_block s.fattable b0 ((m + 2047) / 2048 - 1) ≠ 0 := by omega
  have hsize : ((s.rootdir i j).filesize + 1) % 2 ^ 64 = m + 1 := by
    rw [inv.rd_size]
    apply Nat.mod_eq_of_lt
    omega
  by_cases hpart : m % 2048 = 0
  · -- the last block is full: a fresh block is linked behind it
    have happ := vsappend_new_block fuel s bs 1 i j _ hi hj hfree' hmode' hentry' hlast hnz
      (by rw [inv.rd_size]; exact hpart)
    rw [itervative_append_one, hsize] at happ
    obtain ⟨t, ht, hbit, _, hnew, hbc', hbits, hcount⟩ :=
      get_nextfreeblock_of_free s.superblock hbcs (by have := inv.free; omega)
    rw [hnew] at happ
    have hbl : 41 + t ≠ nth_block s.fattable b0 ((m + 2047) / 2048 - 1) := by
      intro e
      have h3 := hlastalloc.2.2
      rw [← e] at h3
      simp only [Nat.add_sub_cancel_left] at h3
      rw [hbit] at h3
      cases h3
    obtain ⟨l1, l2, l3⟩ := fat_link s.fattable (nth_block s.fattable b0 ((m + 2047) / 2048 - 1))
      (41 + t) (by omega) (by omega) hbl
    have hfreshne : ∀ t', t' < (m + 2047) / 2048 → nth_block s.fattable b0 t' ≠ 41 + t := by
      intro t' ht' e
      have h3 := (inv.alloc t' ht').2.2
      rw [e] at h3
      simp only [Nat.add_sub_cancel_left] at h3
      rw [hbit] at h3
      cases h3
    have hsame : ∀ t', t' < (m + 2047) / 2048 →
        nth_block (fat_set (fat_set (fat_set s.fattable
          (nth_block s.fattable b0 ((m + 2047) / 2048 - 1)) (41 + t)) (41 + t) 0)
          (nth_block s.fattable b0 ((m + 2047) / 2048 - 1)) (41 + t)) b0 t'
          = nth_block s.fattable b0 t' := by
      intro t' ht'
      apply nth_block_congr
      intro t'' ht''
      apply l3
      · have := (inv.alloc t'' (by omega)).2.1
        omega
      · exact inv.distinct t'' _ (by omega) (by omega)
      · exact hfreshne t'' (by omega)
    have hq : (m + 1 + 2047) / 2048 = (m + 2047) / 2048 + 1 := by omega
    have hnew_q : nth_block (fat_set (fat_set (fat_set s.fattable
          (nth_block s.fattable b0 ((m + 2047) / 2048 - 1)) (41 + t)) (41 + t) 0)
          (nth_block s.fattable b0 ((m + 2047) / 2048 - 1)) (41 + t)) b0 ((m + 2047) / 2048)
          = 41 + t := by
      obtain ⟨q', hq'⟩ : ∃ q', (m + 2047) / 2048 = q' + 1 := ⟨(m + 2047) / 2048 - 1, by omega⟩
      rw [hq']
      simp only [nth_block]
      rw [hq'] at hsame
      rw [hsame q' (by omega)]
      simp only [hq', Nat.add_sub_cancel] at l2
      exact l2
    refine ⟨_, happ, ?_⟩
    refine
      { oft := inv.oft
        rd_other := ?_
        rd_name := ?_
        rd_size := ?_
        rd_start := ?_
        bc := by simp only [hbc']; exact inv.bc
        alloc := ?_
        chain_end := ?_
        distinct := ?_
        data := ?_
        free := ?_ }
    · intro a b hab
      simp only [set_entry, hab, if_false]
      exact inv.rd_other a b hab
    · simp only [set_entry, and_self, if_true]
      exact inv.rd_name
    · simp only [set_entry, and_self, if_true]
    · simp only [set_entry, and_self, if_true]
      exact inv.rd_start
    · intro t' ht'
      simp only
      by_cases hlt : t' < (m + 2047) / 2048
      · rw [hsame t' hlt, hbc', hbits]
        obtain ⟨a1, a2, a3⟩ := inv.alloc t' hlt
        refine ⟨a1, a2, ?_⟩
        rw [a3]
        rfl
      · have : t' = (m + 2047) / 2048 := by omega
        rw [this, hnew_q, hbc', hbits]
        refine ⟨by omega, ht, ?_⟩
        simp
    · simp only [hq]
      simp only [nth_block]
      rw [hnew_q]
      exact l1
    · intro t1 t2 h12 h2
      simp only
      by_cases hlt : t2 < (m + 2047) / 2048
      · rw [hsame t1 (by omega), hsame t2 hlt]
        exact inv.distinct t1 t2 h12 hlt
      · have : t2 = (m + 2047) / 2048 := by omega
        rw [this, hnew_q, hsame t1 (by omega)]
        exact hfreshne t1 (by omega)
    · intro t' ht'
      simp only
      by_cases hlt : t' < (m + 2047) / 2048
      · rw [hsame t' hlt]
        obtain ⟨blk, hblk, hdata⟩ := inv.data t' hlt
        refine ⟨blk, read_write_other _ _ _ _ _ (hfreshne t' hlt) hblk, ?_⟩
        intro x hx _
        exact hdata x hx (by omega)
      · have : t' = (m + 2047) / 2048 := by omega
        rw [this, hnew_q]
        refine ⟨_, read_write_same _ _ _, ?_⟩
        intro x _ hx2
        have : x = 0 := by omega
        subst this
        simp only [if_true]
        exact hv
    · simp only
      have := inv.free
      omega
  · -- the byte goes into the last block
    obtain ⟨blk, hblk, hdata⟩ := inv.data ((m + 2047) / 2048 - 1) (by omega)
    have happ := vsappend_fits fuel s bs 1 i j _ blk hi hj hfree' hmode' hentry' hlast hnz
      (by rw [inv.rd_size]; exact hpart) (by rw [inv.rd_size]; omega) hblk
    rw [hsize, inv.rd_size] at happ
    have hq : (m + 1 + 2047) / 2048 = (m + 2047) / 2048 := by omega
    refine ⟨_, happ, ?_⟩
    refine
      { oft := inv.oft
        rd_other := ?_
        rd_name := ?_
        rd_size := ?_
        rd_start := ?_
        bc := inv.bc
        alloc := ?_
        chain_end := ?_
        distinct := ?_
        data := ?_
        free := ?_ }
    · intro a b hab
      simp only [set_entry, hab, if_false]
      exact inv.rd_other a b hab
    · simp only [set_entry, and_self, if_true]
      exact inv.rd_name
    · simp only [set_entry, and_self, if_true]
    · simp only [set_entry, and_self, if_true]
      exact inv.rd_start
    · rw [hq]
      exact inv.alloc
    · rw [hq]
      exact inv.chain_end
    · rw [hq]
      exact inv.distinct
    · rw [hq]
      intro t' ht'
      simp only
      by_cases hlt : t' < (m + 2047) / 2048 - 1
      · obtain ⟨blk', hblk', hdata'⟩ := inv.data t' ht'
        refine ⟨blk', read_write_other _ _ _ _ _ (inv.distinct t' _ hlt (by omega)) hblk', ?_⟩
        intro x hx _
        exact hdata' x hx (by omega)
      · have : t' = (m + 2047) / 2048 - 1 := by omega
        rw [this]
        refine ⟨_, read_write_same _ _ _, ?_⟩
        intro x hx hx2
        simp only [fill_tail]
        split_ifs with hxe
        · exact hv
        · exact hdata x hx (by omega)
    · rw [hq]
      exact inv.free

/-- Further one-byte appends all return 0 and keep the invariant. -/
theorem single_more (fuel : Nat) (s0 : FS) (bs : Nat → Nat) (i j v k b0 : Nat)
    (hi : i < 8) (hj : j < 16)
    (hfree : (s0.openfiletable (i * 16 + j)).free = false)
    (hmode : (s0.openfiletable (i * 16 + j)).mode = MODE_APPEND)
    (hentry : (s0.openfiletable (i * 16 + j)).entry = some (i, j))
    (hhi : s0.superblock.blockcount ≤ 4096) (hkb : k < 2 ^ 31)
    (hfuel : 2 * ((k + 2047) / 2048) ≤ fuel) (hv : bs 0 = v) :
    ∀ r m s, 1 ≤ m → m + r ≤ k → SingleInv s0 i j v k b0 m s →
      ∃ s', append_times fuel ((i * 16 + j : Nat) : Int) bs 1 r s
          = .ok (List.replicate r 0, s') ∧
        SingleInv s0 i j v k b0 (m + r) s' := by
  intro r
  induction r with
  | zero =>
    intro m s _ _ inv
    exact ⟨s, rfl, inv⟩
  | succ r ih =>
    intro m s hm hmr inv
    obtain ⟨s1, h1, inv1⟩ := single_step fuel s0 s bs i j v k b0 m hi hj hfree hmode hentry
      hhi hm (by omega) hkb hfuel hv inv
    obtain ⟨s2, h2, inv2⟩ := ih (m + 1) s1 (by omega) (by omega) inv1
    refine ⟨s2, ?_, ?_⟩
    · simp only [append_times, h1, h2, List.replicate_succ]
    · have e : m + (r + 1) = m + 1 + r := by omega
      rw [e]
      exact inv2

/-- The `k` one-byte appends to an empty file all return 0 and leave the
invariant for `k` bytes. -/
theorem single_all (fuel : Nat) (s0 : FS) (bs : Nat → Nat) (i j v k : Nat)
    (hi : i < 8) (hj : j < 16)
    (hfree : (s0.openfiletable (i * 16 + j)).free = false)
    (hmode : (s0.openfiletable (i * 16 + j)).mode = MODE_APPEND)
    (hentry : (s0.openfiletable (i * 16 + j)).entry = some (i, j))
    (hstart : (s0.rootdir i j).startblock = NO_START_BLOCK)
    (hhi : s0.superblock.blockcount ≤ 4096) (hk : 1 ≤ k)
    (hblocks : (k + 2047) / 2048 ≤ free_in_range s0.superblock)
    (hfuel : 2 * ((k + 2047) / 2048) ≤ fuel) (hv : bs 0 = v) :
    k < 2 ^ 31 ∧
    ∃ s' b0, append_times fuel ((i * 16 + j : Nat) : Int) bs 1 k s0
        = .ok (List.replicate k 0, s') ∧
      SingleInv s0 i j v k b0 k s' := by
  have h31 : (2 : Nat) ^ 31 = 2147483648 := by norm_num
  have hkb : k < 2 ^ 31 := by
    have := free_in_range_le s0.superblock
    omega
  refine ⟨hkb, ?_⟩
  obtain ⟨k', rfl⟩ : ∃ k', k = k' + 1 := ⟨k - 1, by omega⟩
  obtain ⟨s1, b0, h1, inv1⟩ := single_first fuel s0 bs i j v (k' + 1) hi hj hfree hmode hentry
    hstart hhi hk hblocks hv
  obtain ⟨s2, h2, inv2⟩ := single_more fuel s0 bs i j v (k' + 1) b0 hi hj hfree hmode hentry
    hhi hkb hfuel hv k' 1 s1 (le_refl _) (by omega) inv1
  refine ⟨s2, b0, ?_, ?_⟩
  · simp only [append_times, h1, h2, List.replicate_succ]
  · have e : 1 + k' = k' + 1 := by omega
    rw [e] at inv2
    exact inv2

/-! ## Unmount and mount -/

theorem write_block_at (d : vdisk) (blk : disk_block) (k : Nat) :
    k < (write_block d blk k).nblocks ∧ (write_block d blk k).block k = blk := by
  simp only [write_block, if_true]
  exact ⟨by omega, trivial⟩

theorem write_block_keep (d : vdisk) (blk : disk_block) (k x : Nat) (hx : x < d.nblocks)
    (hne : x ≠ k) :
    x < (write_block d blk k).nblocks ∧ (write_block d blk k).block x = d.block x := by
  have h1 : ¬ (d.nblocks ≤ x ∧ x < k) := by omega
  simp only [write_block, hne, h1, if_false]
  exact ⟨by omega, trivial⟩

theorem write_block_nblocks (d : vdisk) (blk : disk_block) (k : Nat) :
    d.nblocks ≤ (write_block d blk k).nblocks := by
  simp only [write_block]
  omega

/-- The loop of `vsumount` over the FAT leaves FAT block `x - 1` in block `x`
of the file and keeps the blocks before the first one it writes. -/
theorem umount_fattable_spec (fat : Nat → fat_table_block) :
    ∀ k i d,
      (∀ x, i ≤ x → x < i + k →
        x < (umount_fattable fat k i d).nblocks ∧
          (umount_fattable fat k i d).block x = .fat (fat (x - 1))) ∧
      (∀ x, x < i → x < d.nblocks →
        x < (umount_fattable fat k i d).nblocks ∧
          (umount_fattable fat k i d).block x = d.block x) := by
  intro k
  induction k with
  | zero =>
    intro i d
    refine ⟨fun x h1 h2 => by omega, fun x _ h2 => ⟨h2, rfl⟩⟩
  | succ k ih =>
    intro i d
    simp only [umount_fattable]
    obtain ⟨ih1, ih2⟩ := ih (i + 1) (write_block d (.fat (fat (i - 1))) i)
    constructor
    · intro x h1 h2
      by_cases hxi : x = i
      · subst hxi
        obtain ⟨a1, a2⟩ := write_block_at d (.fat (fat (x - 1))) x
        obtain ⟨b1, b2⟩ := ih2 x (by omega) a1
        exact ⟨b1, by rw [b2, a2]⟩
      · exact ih1 x (by omega) (by omega)
    · intro x h1 h2
      obtain ⟨a1, a2⟩ := write_block_keep d (.fat (fat (i - 1))) i x h2 (by omega)
      obtain ⟨b1, b2⟩ := ih2 x (by omega) a1
      exact ⟨b1, by rw [b2, a2]⟩

/-- The loop of `vsumount` over the root directory leaves directory block
`x - 33` in block `x` of the file and keeps the blocks before. -/
theorem umount_rootdir_spec (rootdir : Nat → root_dir_block) :
    ∀ k i d,
      (∀ x, i ≤ x → x < i + k →
        x < (umount_rootdir rootdir k i d).nblocks ∧
          (umount_rootdir rootdir k i d).block x = .rootdir (rootdir (x - 33))) ∧
      (∀ x, x < i → x < d.nblocks →
        x < (umount_rootdir rootdir k i d).nblocks ∧
          (umount_rootdir rootdir k i d).block x = d.block x) := by
  intro k
  induction k with
  | zero =>
    intro i d
    refine ⟨fun x h1 h2 => by omega, fun x _ h2 => ⟨h2, rfl⟩⟩
  | succ k ih =>
    intro i d
    simp only [umount_rootdir]
    obtain ⟨ih1, ih2⟩ := ih (i + 1) (write_block d (.rootdir (rootdir (i - 33))) i)
    constructor
    · intro x h1 h2
      by_cases hxi : x = i
      · subst hxi
        obtain ⟨a1, a2⟩ := write_block_at d (.rootdir (rootdir (x - 33))) x
        obtain ⟨b1, b2⟩ := ih2 x (by omega) a1
        exact ⟨b1, by rw [b2, a2]⟩
      · exact ih1 x (by omega) (by omega)
    · intro x h1 h2
      obtain ⟨a1, a2⟩ := write_block_keep d (.rootdir (rootdir (i - 33))) i x h2 (by omega)
      obtain ⟨b1, b2⟩ := ih2 x (by omega) a1
      exact ⟨b1, by rw [b2, a2]⟩

/-- The loop of `vsmount` over the root directory when every block reads. -/
theorem mount_rootdir_gen (d : vdisk) (F : Nat → root_dir_block) :
    ∀ k i rd, 33 ≤ i →
      (∀ x, i ≤ x → x < i + k → read_rootdir_block d x = some (F (x - 33))) →
      mount_rootdir d k i rd =
        (fun a => if i - 33 ≤ a ∧ a < i + k - 33 then F a else rd a, true) := by
  intro k
  induction k with
  | zero =>
    intro i rd hi _
    simp only [mount_rootdir, Prod.mk.injEq, and_true]
    funext a
    split_ifs <;> first | rfl | (exfalso; omega)
  | succ k ih =>
    intro i rd hi hread
    simp only [mount_rootdir, hread i (le_refl _) (by omega)]
    rw [ih (i + 1) _ (by omega) (fun x h1 h2 => hread x (by omega) (by omega))]
    simp only [Prod.mk.injEq, and_true]
    funext a
    by_cases ha : a = i - 33
    · subst ha
      have h1 : ¬ (i + 1 - 33 ≤ i - 33 ∧ i - 33 < i + 1 + k - 33) := by omega
      have h2 : i - 33 ≤ i - 33 ∧ i - 33 < i + (k + 1) - 33 := by omega
      simp only [h1, h2, if_false, if_true, and_self]
    · simp only [ha, if_false]
      split_ifs <;> first | rfl | (exfalso; omega)

/-- The loop of `vsmount` over the FAT when every block reads. -/
theorem mount_fattable_gen (d : vdisk) (F : Nat → fat_table_block) :
    ∀ k i fat, 1 ≤ i →
      (∀ x, i ≤ x → x < i + k → read_fat_block d x = some (F (x - 1))) →
      mount_fattable d k i fat =
        (fun a => if i - 1 ≤ a ∧ a < i + k - 1 then F a else fat a, true) := by
  intro k
  induction k with
  | zero =>
    intro i fat hi _
    simp only [mount_fattable, Prod.mk.injEq, and_true]
    funext a
    split_ifs <;> first | rfl | (exfalso; omega)
  | succ k ih =>
    intro i fat hi hread
    simp only [mount_fattable, hread i (le_refl _) (by omega)]
    rw [ih (i + 1) _ (by omega) (fun x h1 h2 => hread x (by omega) (by omega))]
    simp only [Prod.mk.injEq, and_true]
    funext a
    by_cases ha : a = i - 1
    · subst ha
      have h1 : ¬ (i + 1 - 1 ≤ i - 1 ∧ i - 1 < i + 1 + k - 1) := by omega
      have h2 : i - 1 ≤ i - 1 ∧ i - 1 < i + (k + 1) - 1 := by omega
      simp only [h1, h2, if_false, if_true, and_self]
    · simp only [ha, if_false]
      split_ifs <;> first | rfl | (exfalso; omega)

/-- The blocks 0 to 40 of the backing file after `vsumount`. -/
theorem vsumount_image (s : FS) :
    read_super_block (vsumount s).2.disk 0 = some s.superblock ∧
    (∀ x, 1 ≤ x → x < 1 + 32 →
      read_fat_block (vsumount s).2.disk x = some (s.fattable (x - 1))) ∧
    (∀ x, 33 ≤ x → x < 33 + 8 →
      read_rootdir_block (vsumount s).2.disk x = some (s.rootdir (x - 33))) := by
  simp only [vsumount]
  obtain ⟨a1, a2⟩ := write_block_at s.disk (.super s.superblock) 0
  obtain ⟨f1, f2⟩ := umount_fattable_spec s.fattable 32 1
    (write_block s.disk (.super s.superblock) 0)
  obtain ⟨r1, r2⟩ := umount_rootdir_spec s.rootdir 8 33
    (umount_fattable s.fattable 32 1 (write_block s.disk (.super s.superblock) 0))
  refine ⟨?_, ?_, ?_⟩
  · obtain ⟨b1, b2⟩ := f2 0 (by omega) a1
    obtain ⟨c1, c2⟩ := r2 0 (by omega) b1
    simp only [read_super_block, c1, if_true, c2, b2, a2]
  · intro x h1 h2
    obtain ⟨b1, b2⟩ := f1 x h1 h2
    obtain ⟨c1, c2⟩ := r2 x (by omega) b1
    simp only [read_fat_block, c1, if_true, c2, b2]
  · intro x h1 h2
    obtain ⟨c1, c2⟩ := r1 x h1 h2
    simp only [read_rootdir_block, c1, if_true, c2]

/-! ## Where an append writes -/

theorem scan_from_range (sb : super_block) :
    ∀ f t, (scan_from sb f t).1 = 0 ∨
      (41 + t ≤ (scan_from sb f t).1 ∧ (scan_from sb f t).1 < 41 + t + f) := by
  intro f
  induction f with
  | zero => intro t; left; rfl
  | succ f ih =>
    intro t
    simp only [scan_from]
    split_ifs
    · right; exact ⟨le_refl _, by omega⟩
    · left; rfl
    · rcases ih (t + 1) with h | h
      · left; exact h
      · right; omega

/-- What the allocator returns is 0 or a block number from 41 on. -/
theorem get_nextfreeblock_range (sb : super_block) :
    (get_nextfreeblock sb).1 = 0 ∨
      (41 ≤ (get_nextfreeblock sb).1 ∧ (get_nextfreeblock sb).1 < 2 ^ 32) := by
  rw [get_nextfreeblock_eq_scan]
  have h32 : (2 : Nat) ^ 32 = 4294967296 := by norm_num
  rcases scan_from_range sb 4096 0 with h | h
  · left; exact h
  · right; omega

/-- The fields of the state after one pass of the loop body. -/
theorem body_fields (bs : Nat → Nat) (idx i : Nat) (st : append_state) :
    (itervative_append_body bs idx i st).superblock
      = (if st.flagnewblock then (get_nextfreeblock st.superblock).2 else st.superblock) ∧
    (itervative_append_body bs idx i st).fattable
      = (if st.flagnewblock then
          fat_set (fat_set st.fattable st.currblocknumber (get_nextfreeblock st.superblock).1)
            (get_nextfreeblock st.superblock).1 0
        else st.fattable) ∧
    (itervative_append_body bs idx i st).currblocknumber
      = (if st.flagnewblock then (get_nextfreeblock st.superblock).1
        else st.currblocknumber) ∧
    (itervative_append_body bs idx i st).prevblocknumber
      = (if st.flagnewblock then st.currblocknumber else st.prevblocknumber) ∧
    (itervative_append_body bs idx i st).flagnewblock = decide (i % 2048 = 2047) ∧
    (itervative_append_body bs idx i st).disk
      = (if i % 2048 = 2047 then
          write_block st.disk (.data (itervative_append_body bs idx i st).datablock)
            (itervative_append_body bs idx i st).currblocknumber
        else st.disk) := by
  cases hflag : st.flagnewblock <;> by_cases hi : i % 2048 = 2047 <;>
    simp [itervative_append_body, hflag, hi, BLOCKSIZE, FAT_LIST_NULL]

/-- Writing the FAT entry of block 0 or of a block from 41 on keeps the
entries of the blocks 1 to 40. -/
theorem fat_set_low (fat : Nat → fat_table_block) (x v : Nat)
    (hx : x = 0 ∨ (41 ≤ x ∧ x < 2 ^ 32))
    (h : ∀ b, 1 ≤ b → b < 41 → fat_get fat b = 0) :
    ∀ b, 1 ≤ b → b < 41 → fat_get (fat_set fat x v) b = 0 := by
  intro b h1 h2
  have h32 : (2 : Nat) ^ 32 = 4294967296 := by norm_num
  rw [fat_get_fat_set_ne _ _ _ _ (by omega) (by omega) (by omega)]
  exact h b h1 h2

/-- The loop of `itervative_append` keeps the FAT entries of the blocks 1 to
40 at zero. -/
theorem loop_low_fat (bs : Nat → Nat) (idx : Nat) :
    ∀ k i st,
      (∀ b, 1 ≤ b → b < 41 → fat_get st.fattable b = 0) →
      (st.currblocknumber = 0 ∨ (41 ≤ st.currblocknumber ∧ st.currblocknumber < 2 ^ 32)) →
      (st.prevblocknumber = 0 ∨ (41 ≤ st.prevblocknumber ∧ st.prevblocknumber < 2 ^ 32)) →
      (∀ b, 1 ≤ b → b < 41 →
        fat_get (itervative_append_loop bs idx k i st).fattable b = 0) ∧
      ((itervative_append_loop bs idx k i st).currblocknumber = 0 ∨
        (41 ≤ (itervative_append_loop bs idx k i st).currblocknumber ∧
          (itervative_append_loop bs idx k i st).currblocknumber < 2 ^ 32)) ∧
      ((itervative_append_loop bs idx k i st).prevblocknumber = 0 ∨
        (41 ≤ (itervative_append_loop bs idx k i st).prevblocknumber ∧
          (itervative_append_loop bs idx k i st).prevblocknumber < 2 ^ 32)) := by
  intro k
  induction k with
  | zero => intro i st h1 h2 h3; exact ⟨h1, h2, h3⟩
  | succ k ih =>
    intro i st h1 h2 h3
    simp only [itervative_append_loop]
    obtain ⟨_, f2, f3, f4, _, _⟩ := body_fields bs idx i st
    apply ih
    · rw [f2]
      split_ifs
      · exact fat_set_low _ _ _ (get_nextfreeblock_range _) (fat_set_low _ _ _ h2 h1)
      · exact h1
    · rw [f3]
      split_ifs
      · exact get_nextfreeblock_range _
      · exact h2
    · rw [f4]
      split_ifs
      · exact h2
      · exact h3

/-- The function `itervative_append`, called with the block the allocator
returned and a `prevblock` that is 0 or from 41 on, keeps the FAT entries of
the blocks 1 to 40 at zero. -/
theorem itervative_append_low_fat (sb : super_block) (fat : Nat → fat_table_block)
    (disk : vdisk) (prev cnt : Nat) (bs : Nat → Nat) (idx : Nat)
    (h : ∀ b, 1 ≤ b → b < 41 → fat_get fat b = 0)
    (hprev : prev = 0 ∨ (41 ≤ prev ∧ prev < 2 ^ 32)) :
    ∀ b, 1 ≤ b → b < 41 →
      fat_get (itervative_append (get_nextfreeblock sb).2 fat disk (get_nextfreeblock sb).1
        prev cnt bs idx).2.1 b = 0 := by
  obtain ⟨l1, l2, l3⟩ := loop_low_fat bs idx cnt 0
    { superblock := (get_nextfreeblock sb).2,
      fattable := fat_set (fat_set fat prev (get_nextfreeblock sb).1)
        (get_nextfreeblock sb).1 FAT_LIST_NULL,
      disk := disk, datablock := new_datablock,
      currblocknumber := (get_nextfreeblock sb).1, prevblocknumber := prev,
      flagnewblock := false }
    (fat_set_low _ _ _ (get_nextfreeblock_range _) (fat_set_low _ _ _ hprev h))
    (get_nextfreeblock_range _) hprev
  simp only [itervative_append]
  split_ifs
  · exact fat_set_low _ _ _ l3 l1
  · exact l1

/-- In every reachable state the FAT entries of the blocks 1 to 40 are zero. -/
theorem reachable_low_fat (s : FS) (h : Reachable s) :
    ∀ b, 1 ≤ b → b < 41 → fat_get s.fattable b = 0 := by
  induction h with
  | init m h1 h2 =>
    obtain ⟨heq, _, _⟩ := formatted_eq m h1 h2
    rw [heq]
    intro b _ _
    rfl
  | create s name _ ih =>
    rw [(vscreate_fields s name).1]
    exact ih
  | opened s name mode _ ih =>
    rw [(vsopen_fields s name mode).2.1]
    exact ih
  | closed s fd r s' _ hc ih =>
    rw [(vsclose_fields s fd r s' hc).2.1]
    exact ih
  | appended fuel s fd buf n r s' hs ha ih =>
    rcases vsappend_shape fuel s fd buf n r s' ha with heq |
      ⟨ei, ej, last, _, _, _, _, hlast, hcase⟩
    · rw [heq]; exact ih
    · have hok := reachable_ChainsOK s hs
      have h32 : (2 : Nat) ^ 32 = 4294967296 := by norm_num
      have hprev : last = 0 ∨ (41 ≤ last ∧ last < 2 ^ 32) := by
        rcases get_lastallocatedblock_sound _ _ _ _ hlast with ⟨h0, _⟩ | ⟨hin, _⟩
        · left; exact h0
        · right
          obtain ⟨a1, a2, _⟩ := hok.2.1 ei ej last hin
          have := hok.1.2
          omega
      rcases hcase with ⟨_, _, disk, cnt, idx, hg⟩ | ⟨_, _, _, hfat⟩ |
          ⟨_, _, disk, cnt, idx, hg⟩
      · have e2 := congrArg Prod.snd hg
        simp only at e2
        rw [e2]
        exact itervative_append_low_fat _ _ _ 0 cnt buf idx ih (Or.inl rfl)
      · rw [hfat]; exact ih
      · have e2 := congrArg Prod.snd hg
        simp only at e2
        rw [e2]
        exact itervative_append_low_fat _ _ _ last cnt buf idx ih hprev
  | deleted fuel s name r s' _ hd ih =>
    rcases vsdelete_shape fuel s name r s' hd with heq | ⟨bi, oi, _, _, _, hfat⟩
    · rw [heq]; exact ih
    · intro b h1 h2
      rcases hfat b with h | h
      · rw [h]; exact ih b h1 h2
      · exact h

/-! ## Unoccupied directory entries -/

/-- What `vsappend` does to the root directory: nothing, or it changes the
entry of the slot, whose `isoccupied` and `filename` stay. -/
theorem vsappend_rootdir (fuel : Nat) (s : FS) (fd : Int) (buf : Nat → Nat) (n : Nat)
    (r : Int) (s' : FS) (h : vsappend fuel s fd buf n = .ok (r, s')) :
    s' = s ∨
    ∃ ei ej, (s.openfiletable fd.toNat).entry = some (ei, ej) ∧
      (∀ a b, ¬ (a = ei ∧ b = ej) → s'.rootdir a b = s.rootdir a b) ∧
      (s'.rootdir ei ej).isoccupied = (s.rootdir ei ej).isoccupied ∧
      (s'.rootdir ei ej).filename = (s.rootdir ei ej).filename := by
  unfold vsappend at h
  split_ifs at h with g1 g2 g3 g4
  · left; cases h; rfl
  · left; cases h; rfl
  · left; cases h; rfl
  · cases hentry : (s.openfiletable fd.toNat).entry with
    | none => simp [hentry] at h
    | some p =>
      obtain ⟨ei, ej⟩ := p
      simp only [hentry] at h
      cases hlast : get_lastallocatedblock fuel s.fattable (s.rootdir ei ej).startblock with
      | none => simp [hlast] at h
      | some last =>
        simp only [hlast, NO_START_BLOCK] at h
        right
        refine ⟨ei, ej, rfl, ?_⟩
        have hset : ∀ (e : directory_entry) (a b : Nat), ¬ (a = ei ∧ b = ej) →
            set_entry s.rootdir ei ej e a b = s.rootdir a b := by
          intro e a b hab
          simp only [set_entry, hab, if_false]
        have hset' : ∀ (e : directory_entry), set_entry s.rootdir ei ej e ei ej = e := by
          intro e
          simp [set_entry]
        split_ifs at h with c1 c2 c3 <;> cases h <;>
          refine ⟨hset _, ?_, ?_⟩ <;> simp only [hset']

theorem blank_entry_eq :
    blank_entry =
      { isoccupied := false, filename := List.replicate 30 0, filesize := 0,
        startblock := NO_START_BLOCK } := by
  decide

/-- In every reachable state an unoccupied entry has an all-zero name. -/
theorem reachable_blank_names (s : FS) (h : Reachable s) :
    ∀ i j, (s.rootdir i j).isoccupied = false →
      (s.rootdir i j).filename = List.replicate 30 0 := by
  induction h with
  | init m h1 h2 =>
    obtain ⟨heq, _, _⟩ := formatted_eq m h1 h2
    rw [heq]
    intro i j _
    simp only [fresh, blank_entry_eq]
  | create s name _ ih =>
    rcases vscreate_cases s name with h | h
    · rw [h]; exact ih
    · obtain ⟨_, _, i0, j0, _, heq⟩ := vscreate_ok s name h
      rw [heq]
      intro i j hocc
      simp only [set_entry] at hocc ⊢
      by_cases hp : i = i0 ∧ j = j0
      · simp [hp] at hocc
      · simp only [hp, if_false] at hocc ⊢
        exact ih i j hocc
  | opened s name mode _ ih =>
    rw [(vsopen_fields s name mode).1]
    exact ih
  | closed s fd r s' _ hc ih =>
    rw [(vsclose_fields s fd r s' hc).1]
    exact ih
  | appended fuel s fd buf n r s' _ ha ih =>
    rcases vsappend_rootdir fuel s fd buf n r s' ha with heq | ⟨ei, ej, _, hother, hocc, hname⟩
    · rw [heq]; exact ih
    · intro i j ho
      by_cases hp : i = ei ∧ j = ej
      · obtain ⟨rfl, rfl⟩ := hp
        rw [hname]
        rw [hocc] at ho
        exact ih i j ho
      · rw [hother i j hp] at ho ⊢
        exact ih i j ho
  | deleted fuel s name r s' _ hd ih =>
    rcases vsdelete_shape fuel s name r s' hd with heq | ⟨bi, oi, _, _, hrd, _⟩
    · rw [heq]; exact ih
    · rw [hrd]
      intro i j ho
      simp only [set_entry] at ho ⊢
      split_ifs at ho ⊢ with hp
      · trivial
      · exact ih i j ho

/-- When no append went through a handle of an unoccupied entry, an unoccupied
entry is blank. -/
theorem live_blank_entries (s : FS) (h : ReachableLive s) :
    ∀ i j, (s.rootdir i j).isoccupied = false →
      (s.rootdir i j).filesize = 0 ∧ (s.rootdir i j).startblock = NO_START_BLOCK ∧
        (s.rootdir i j).filename = List.replicate 30 0 := by
  induction h with
  | init m h1 h2 =>
    obtain ⟨heq, _, _⟩ := formatted_eq m h1 h2
    rw [heq]
    intro i j _
    simp only [fresh, blank_entry_eq, and_self]
  | create s name _ ih =>
    rcases vscreate_cases s name with h | h
    · rw [h]; exact ih
    · obtain ⟨_, _, i0, j0, _, heq⟩ := vscreate_ok s name h
      rw [heq]
      intro i j hocc
      simp only [set_entry] at hocc ⊢
      by_cases hp : i = i0 ∧ j = j0
      · simp [hp] at hocc
      · simp only [hp, if_false] at hocc ⊢
        exact ih i j hocc
  | opened s name mode _ ih =>
    rw [(vsopen_fields s name mode).1]
    exact ih
  | closed s fd r s' _ hc ih =>
    rw [(vsclose_fields s fd r s' hc).1]
    exact ih
  | appended fuel s fd buf n r s' _ ha hlive ih =>
    rcases vsappend_rootdir fuel s fd buf n r s' ha with heq | ⟨ei, ej, hentry, hother, hocc, _⟩
    · rw [heq]; exact ih
    · intro i j ho
      by_cases hp : i = ei ∧ j = ej
      · obtain ⟨rfl, rfl⟩ := hp
        rw [hocc, hlive i j hentry] at ho
        cases ho
      · rw [hother i j hp] at ho ⊢
        exact ih i j ho
  | deleted fuel s name r s' _ hd ih =>
    rcases vsdelete_shape fuel s name r s' hd with heq | ⟨bi, oi, _, _, hrd, _⟩
    · rw [heq]; exact ih
    · rw [hrd]
      intro i j ho
      simp only [set_entry] at ho ⊢
      split_ifs at ho ⊢ with hp
      · exact ⟨rfl, rfl, rfl⟩
      · exact ih i j ho

theorem ReachableLive_reachable (s : FS) (h : ReachableLive s) : Reachable s := by
  induction h with
  | init m h1 h2 => exact Reachable.init m h1 h2
  | create s name _ ih => exact Reachable.create s name ih
  | opened s name mode _ ih => exact Reachable.opened s name mode ih
  | closed s fd r s' _ hc ih => exact Reachable.closed s fd r s' ih hc
  | appended fuel s fd buf n r s' _ ha _ ih => exact Reachable.appended fuel s fd buf n r s' ih ha
  | deleted fuel s name r s' _ hd ih => exact Reachable.deleted fuel s name r s' ih hd

theorem ReachableLive_state_after_delete (fuel : Nat) (s : FS) (name : List Nat)
    (h : ReachableLive s) : ReachableLive (state_after (vsdelete fuel s name) s) := by
  cases hr : vsdelete fuel s name with
  | error e => exact h
  | ok p =>
    obtain ⟨r, s'⟩ := p
    exact ReachableLive.deleted fuel s name r s' h hr

theorem created_and_deleted_live : ReachableLive created_and_deleted := by
  unfold created_and_deleted
  apply ReachableLive_state_after_delete
  apply ReachableLive.create
  exact ReachableLive.init 18 (by decide) (by decide)

/-! ## The blocks of the backing file that appends and deletes write -/

/-- A write to the block in hand keeps the size of the file and its low
blocks. -/
theorem DiskInv_write (d0 : vdisk) (bc lo : Nat) (st : append_state) (blk : disk_block)
    (inv : DiskInv d0 bc lo st) (hd0 : bc ≤ d0.nblocks) (hbc : 42 ≤ bc) :
    (write_block st.disk blk st.currblocknumber).nblocks = d0.nblocks ∧
    ∀ k, lo ≤ k → k < 41 →
      (write_block st.disk blk st.currblocknumber).block k = d0.block k := by
  have hlt : st.currblocknumber < st.disk.nblocks := by
    rw [inv.size]
    rcases inv.curr_ok with ⟨_, h⟩ | ⟨_, h⟩
    · rw [h]; omega
    · omega
  rw [write_block_inside _ _ _ hlt]
  refine ⟨inv.size, ?_⟩
  intro k h1 h2
  have hne : k ≠ st.currblocknumber := by
    rcases inv.curr_ok with ⟨hl, h⟩ | ⟨h, _⟩
    · rw [h]; omega
    · omega
  simp only [hne, if_false]
  exact inv.low k h1 h2

/-- One pass of the loop body keeps the invariant of the backing file, when
the allocator has a free block whenever one is due and block 0 is to be
kept. -/
theorem step_disk (d0 : vdisk) (bc lo : Nat) (bs : Nat → Nat) (idx i : Nat)
    (st : append_state) (hlo : 42 ≤ bc) (hhi : bc ≤ 4096) (hd0 : bc ≤ d0.nblocks)
    (inv : DiskInv d0 bc lo st)
    (halloc : st.flagnewblock = true → lo = 1 ∨ 0 < free_in_range st.superblock) :
    DiskInv d0 bc lo (itervative_append_body bs idx i st) := by
  obtain ⟨f1, _, f3, _, _, f6⟩ := body_fields bs idx i st
  have hbcs : st.superblock.blockcount = bc := inv.bc_eq
  -- the superblock and the block in hand after the pass
  have hsb : (itervative_append_body bs idx i st).superblock.blockcount = bc ∧
      ((lo = 1 ∧ (itervative_append_body bs idx i st).currblocknumber = 0) ∨
        (41 ≤ (itervative_append_body bs idx i st).currblocknumber ∧
          (itervative_append_body bs idx i st).currblocknumber < bc)) := by
    rw [f1, f3]
    cases hflag : st.flagnewblock
    · simp only [Bool.false_eq_true, if_false]
      exact ⟨hbcs, inv.curr_ok⟩
    · simp only [if_true]
      rcases halloc hflag with hl | hfree
      · rcases get_nextfreeblock_cases st.superblock (by omega) (by omega) with
          h0 | ⟨t, a1, _, a3, a4, _⟩
        · rw [h0]
          exact ⟨hbcs, Or.inl ⟨hl, rfl⟩⟩
        · rw [a3, a4]
          exact ⟨hbcs, Or.inr ⟨by omega, by omega⟩⟩
      · obtain ⟨t, a1, _, _, a3, a4, _, _⟩ :=
          get_nextfreeblock_of_free st.superblock (by omega) hfree
        rw [a3, a4]
        exact ⟨hbcs, Or.inr ⟨by omega, by omega⟩⟩
  -- the state before the write of the pass, with the new block in hand
  have hmid : DiskInv d0 bc lo
      { st with currblocknumber := (itervative_append_body bs idx i st).currblocknumber } :=
    ⟨hbcs, hsb.2, inv.size, inv.low⟩
  have hw := DiskInv_write d0 bc lo _
    (.data (itervative_append_body bs idx i st).datablock) hmid hd0 hlo
  refine ⟨hsb.1, hsb.2, ?_, ?_⟩
  · rw [f6]
    split_ifs
    · exact hw.1
    · exact inv.size
  · rw [f6]
    split_ifs
    · exact hw.2
    · exact inv.low

/-- One pass of the loop body keeps the count of the free blocks ahead of the
blocks still to come, and finds a free block when one is due. -/
theorem step_free (cnt i : Nat) (bs : Nat → Nat) (idx : Nat) (st : append_state)
    (hi : i < cnt) (hhi : st.superblock.blockcount ≤ 4096) (inv : FreeInv cnt i st) :
    (st.flagnewblock = true → 0 < free_in_range st.superblock) ∧
    FreeInv cnt (i + 1) (itervative_append_body bs idx i st) := by
  obtain ⟨f1, _, _, _, f5, _⟩ := body_fields bs idx i st
  have hfree := inv.free
  have hneed : st.flagnewblock = true → 0 < free_in_range st.superblock := by
    intro hflag
    obtain ⟨h1, h2⟩ := inv.flag_iff.1 hflag
    omega
  refine ⟨hneed, ?_, ?_⟩
  · rw [f5]
    simp only [decide_eq_true_eq]
    omega
  · rw [f1]
    simp only [Nat.add_sub_cancel]
    cases hflag : st.flagnewblock
    · simp only [Bool.false_eq_true, if_false]
      have hnot : ¬ (0 < i ∧ i % 2048 = 0) := by
        intro h
        have := inv.flag_iff.2 h
        rw [hflag] at this
        cases this
      omega
    · simp only [if_true]
      obtain ⟨h1, h2⟩ := inv.flag_iff.1 hflag
      obtain ⟨t, _, _, _, _, _, _, hcount⟩ :=
        get_nextfreeblock_of_free st.superblock hhi (hneed hflag)
      omega

theorem loop_disk_any (d0 : vdisk) (bc : Nat) (bs : Nat → Nat) (idx : Nat)
    (hlo : 42 ≤ bc) (hhi : bc ≤ 4096) (hd0 : bc ≤ d0.nblocks) :
    ∀ k i st, DiskInv d0 bc 1 st → DiskInv d0 bc 1 (itervative_append_loop bs idx k i st) := by
  intro k
  induction k with
  | zero => intro i st inv; exact inv
  | succ k ih =>
    intro i st inv
    simp only [itervative_append_loop]
    exact ih _ _ (step_disk d0 bc 1 bs idx i st hlo hhi hd0 inv (fun _ => Or.inl rfl))

theorem loop_disk_free (d0 : vdisk) (bc cnt : Nat) (bs : Nat → Nat) (idx : Nat)
    (hlo : 42 ≤ bc) (hhi : bc ≤ 4096) (hd0 : bc ≤ d0.nblocks) :
    ∀ k i st, i + k = cnt → DiskInv d0 bc 0 st → FreeInv cnt i st →
      DiskInv d0 bc 0 (itervative_append_loop bs idx k i st) := by
  intro k
  induction k with
  | zero => intro i st _ inv _; exact inv
  | succ k ih =>
    intro i st hik inv finv
    simp only [itervative_append_loop]
    obtain ⟨hneed, finv'⟩ := step_free cnt i bs idx st (by omega)
      (by rw [inv.bc_eq]; exact hhi) finv
    exact ih _ _ (by omega)
      (step_disk d0 bc 0 bs idx i st hlo hhi hd0 inv (fun h => Or.inr (hneed h))) finv'

/-- The backing file after `itervative_append`, called with the block the
allocator returned: its size and its blocks 1 to 40 are kept, and block 0 too
when the free blocks in range cover the `cnt` bytes. -/
theorem itervative_append_disk (sb : super_block) (fat : Nat → fat_table_block)
    (disk : vdisk) (prev cnt : Nat) (bs : Nat → Nat) (idx : Nat)
    (hlo : 42 ≤ sb.blockcount) (hhi : sb.blockcount ≤ 4096)
    (hsz : sb.blockcount ≤ disk.nblocks) :
    (itervative_append (get_nextfreeblock sb).2 fat disk (get_nextfreeblock sb).1 prev cnt
      bs idx).1.blockcount = sb.blockcount ∧
    (itervative_append (get_nextfreeblock sb).2 fat disk (get_nextfreeblock sb).1 prev cnt
      bs idx).2.2.nblocks = disk.nblocks ∧
    (∀ k, 1 ≤ k → k < 41 →
      (itervative_append (get_nextfreeblock sb).2 fat disk (get_nextfreeblock sb).1 prev cnt
        bs idx).2.2.block k = disk.block k) ∧
    (cnt / 2048 + 1 ≤ free_in_range sb →
      (itervative_append (get_nextfreeblock sb).2 fat disk (get_nextfreeblock sb).1 prev cnt
        bs idx).2.2.block 0 = disk.block 0) := by
  have hfinal : ∀ lo (st : append_state), DiskInv disk sb.blockcount lo st →
      (if st.flagnewblock = false then
          (st.superblock, fat_set st.fattable st.prevblocknumber st.currblocknumber,
            write_block st.disk (.data st.datablock) st.currblocknumber)
        else (st.superblock, st.fattable, st.disk)).1.blockcount = sb.blockcount ∧
      (if st.flagnewblock = false then
          (st.superblock, fat_set st.fattable st.prevblocknumber st.currblocknumber,
            write_block st.disk (.data st.datablock) st.currblocknumber)
        else (st.superblock, st.fattable, st.disk)).2.2.nblocks = disk.nblocks ∧
      ∀ k, lo ≤ k → k < 41 →
        (if st.flagnewblock = false then
          (st.superblock, fat_set st.fattable st.prevblocknumber st.currblocknumber,
            write_block st.disk (.data st.datablock) st.currblocknumber)
        else (st.superblock, st.fattable, st.disk)).2.2.block k = disk.block k := by
    intro lo st inv
    have hw := DiskInv_write disk sb.blockcount lo st (.data st.datablock) inv hsz hlo
    split_ifs
    · exact ⟨inv.bc_eq, hw.1, hw.2⟩
    · exact ⟨inv.bc_eq, inv.size, inv.low⟩
  have hinit1 : DiskInv disk sb.blockcount 1
      { superblock := (get_nextfreeblock sb).2,
        fattable := fat_set (fat_set fat prev (get_nextfreeblock sb).1)
          (get_nextfreeblock sb).1 FAT_LIST_NULL,
        disk := disk, datablock := new_datablock,
        currblocknumber := (get_nextfreeblock sb).1, prevblocknumber := prev,
        flagnewblock := false } := by
    rcases get_nextfreeblock_cases sb hlo hhi with h0 | ⟨t, a1, _, a3, a4, _⟩
    · rw [h0]
      exact ⟨rfl, Or.inl ⟨rfl, rfl⟩, rfl, fun _ _ _ => rfl⟩
    · refine ⟨a4, Or.inr ⟨?_, ?_⟩, rfl, fun _ _ _ => rfl⟩
      · show 41 ≤ (get_nextfreeblock sb).1
        omega
      · show (get_nextfreeblock sb).1 < sb.blockcount
        omega
  have hl1 := loop_disk_any disk sb.blockcount bs idx hlo hhi hsz cnt 0 _ hinit1
  obtain ⟨r1, r2, r3⟩ := hfinal 1 _ hl1
  refine ⟨r1, r2, r3, ?_⟩
  intro hfree
  obtain ⟨t, a1, _, _, a3, a4, _, hcount⟩ := get_nextfreeblock_of_free sb hhi (by omega)
  have hinit0 : DiskInv disk sb.blockcount 0
      { superblock := (get_nextfreeblock sb).2,
        fattable := fat_set (fat_set fat prev (get_nextfreeblock sb).1)
          (get_nextfreeblock sb).1 FAT_LIST_NULL,
        disk := disk, datablock := new_datablock,
        currblocknumber := (get_nextfreeblock sb).1, prevblocknumber := prev,
        flagnewblock := false } := by
    refine ⟨a4, Or.inr ⟨?_, ?_⟩, rfl, fun _ _ _ => rfl⟩
    · show 41 ≤ (get_nextfreeblock sb).1
      omega
    · show (get_nextfreeblock sb).1 < sb.blockcount
      omega
  have hfinv : FreeInv cnt 0
      { superblock := (get_nextfreeblock sb).2,
        fattable := fat_set (fat_set fat prev (get_nextfreeblock sb).1)
          (get_nextfreeblock sb).1 FAT_LIST_NULL,
        disk := disk, datablock := new_datablock,
        currblocknumber := (get_nextfreeblock sb).1, prevblocknumber := prev,
        flagnewblock := false } := by
    refine ⟨?_, ?_⟩
    · simp
    · simp only
      omega
  have hl0 := loop_disk_free disk sb.blockcount cnt bs idx hlo hhi hsz cnt 0 _ (by omega)
    hinit0 hfinv
  have h041 : (0 : Nat) < 41 := by norm_num
  exact (hfinal 0 _ hl0).2.2 0 (le_refl 0) h041

/-- The backing file and the superblock after `vsappend`: the last block of the
file may be written, and then `itervative_append` may run for at most `n`
bytes. -/
theorem vsappend_disk_shape (fuel : Nat) (s : FS) (fd : Int) (buf : Nat → Nat) (n : Nat)
    (r : Int) (s' : FS) (h : vsappend fuel s fd buf n = .ok (r, s')) :
    s' = s ∨
    ∃ ei ej last d1,
      get_lastallocatedblock fuel s.fattable (s.rootdir ei ej).startblock = some last ∧
      (d1 = s.disk ∨ (last ≠ 0 ∧ ∃ blk, d1 = write_block s.disk (.data blk) last)) ∧
      ((s'.superblock = s.superblock ∧ s'.disk = d1) ∨
        ∃ prev cnt idx, cnt ≤ n ∧
          s'.superblock = (itervative_append (get_nextfreeblock s.superblock).2 s.fattable d1
            (get_nextfreeblock s.superblock).1 prev cnt buf idx).1 ∧
          s'.disk = (itervative_append (get_nextfreeblock s.superblock).2 s.fattable d1
            (get_nextfreeblock s.superblock).1 prev cnt buf idx).2.2) := by
  unfold vsappend at h
  split_ifs at h with g1 g2 g3 g4
  · left; cases h; rfl
  · left; cases h; rfl
  · left; cases h; rfl
  · cases hentry : (s.openfiletable fd.toNat).entry with
    | none => simp [hentry] at h
    | some p =>
      obtain ⟨ei, ej⟩ := p
      simp only [hentry] at h
      cases hlast : get_lastallocatedblock fuel s.fattable (s.rootdir ei ej).startblock with
      | none => simp [hlast] at h
      | some last =>
        simp only [hlast, NO_START_BLOCK] at h
        right
        split_ifs at h with c1 c2 c3
        · cases h
          exact ⟨ei, ej, last, s.disk, hlast, Or.inl rfl,
            Or.inr ⟨0, n, 0, le_refl _, rfl, rfl⟩⟩
        · cases h
          exact ⟨ei, ej, last, _, hlast, Or.inr ⟨c1, _, rfl⟩, Or.inl ⟨rfl, rfl⟩⟩
        · cases h
          exact ⟨ei, ej, last, _, hlast, Or.inr ⟨c1, _, rfl⟩,
            Or.inr ⟨last, _, _, by omega, rfl, rfl⟩⟩
        · cases h
          exact ⟨ei, ej, last, s.disk, hlast, Or.inl rfl,
            Or.inr ⟨last, n, 0, le_refl _, rfl, rfl⟩⟩

/-- In a state whose chains are in order and whose backing file has its
`blockcount` blocks, `vsappend` keeps the block count, the size of the file
and its blocks 1 to 40, and block 0 too when `n / 2048 + 1` blocks are
free. -/
theorem vsappend_low_blocks (fuel : Nat) (s : FS) (fd : Int) (buf : Nat → Nat) (n : Nat)
    (r : Int) (s' : FS)
    (hok : ChainsOK s.superblock s.fattable (fun i j => (s.rootdir i j).startblock))
    (hsz : s.superblock.blockcount ≤ s.disk.nblocks)
    (h : vsappend fuel s fd buf n = .ok (r, s')) :
    s'.superblock.blockcount = s.superblock.blockcount ∧
    s'.disk.nblocks = s.disk.nblocks ∧
    (∀ k, 1 ≤ k → k < 41 → s'.disk.block k = s.disk.block k) ∧
    (n / 2048 + 1 ≤ free_in_range s.superblock → s'.disk.block 0 = s.disk.block 0) := by
  rcases vsappend_disk_shape fuel s fd buf n r s' h with heq |
    ⟨ei, ej, last, d1, hlast, hd1, hcase⟩
  · rw [heq]
    exact ⟨rfl, rfl, fun _ _ _ => rfl, fun _ => rfl⟩
  · have hbc := hok.1
    -- the write to the last block of the file
    have hd1' : d1.nblocks = s.disk.nblocks ∧ ∀ k, k < 41 → d1.block k = s.disk.block k := by
      rcases hd1 with hd | ⟨hnz, blk, hd⟩
      · rw [hd]
        exact ⟨rfl, fun _ _ => rfl⟩
      · rcases get_lastallocatedblock_sound _ _ _ _ hlast with ⟨h0, _⟩ | ⟨hin, _⟩
        · exact absurd h0 hnz
        · obtain ⟨a1, a2, _⟩ := hok.2.1 ei ej last hin
          rw [hd, write_block_inside _ _ _ (by omega)]
          refine ⟨rfl, ?_⟩
          intro k hk
          have hne : k ≠ last := by omega
          simp only [hne, if_false]
    rcases hcase with ⟨hsb, hdisk⟩ | ⟨prev, cnt, idx, hcnt, hsb, hdisk⟩
    · rw [hsb, hdisk]
      exact ⟨rfl, hd1'.1, fun k _ hk => hd1'.2 k hk, fun _ => hd1'.2 0 (by norm_num)⟩
    · obtain ⟨g1, g2, g3, g4⟩ := itervative_append_disk s.superblock s.fattable d1 prev cnt
        buf idx (by omega) hbc.2 (by rw [hd1'.1]; exact hsz)
      rw [hsb, hdisk]
      refine ⟨g1, by rw [g2]; exact hd1'.1, ?_, ?_⟩
      · intro k h1 h2
        rw [g3 k h1 h2]
        exact hd1'.2 k h2
      · intro hfree
        have hle : cnt / 2048 ≤ n / 2048 := Nat.div_le_div_right hcnt
        rw [g4 (by omega)]
        exact hd1'.2 0 (by norm_num)

/-- The loop of `vsdelete` writes the block it starts at and, when the FAT
entry of that block is not zero, the block of that entry; then it stops. -/
theorem vsdelete_chain_disk (fuel : Nat) (disk : vdisk) (fat : Nat → fat_table_block)
    (curr : Nat) (res : vdisk × (Nat → fat_table_block))
    (h : vsdelete_chain fuel disk fat curr = some res) :
    (curr = 0 ∧ res.1 = disk) ∨
    (curr ≠ 0 ∧ fat_get fat curr % 0x10000 = 0 ∧
      res.1 = write_block disk (.data new_datablock) curr) ∨
    (curr ≠ 0 ∧ fat_get fat curr % 0x10000 ≠ 0 ∧
      res.1 = write_block (write_block disk (.data new_datablock) curr)
        (.data new_datablock) (fat_get fat curr % 0x10000)) := by
  cases fuel with
  | zero => simp [vsdelete_chain] at h
  | succ f1 =>
    simp only [vsdelete_chain, FAT_LIST_NULL] at h
    by_cases hc : curr = 0
    · simp only [hc, ne_eq, not_true_eq_false, if_false, Option.some.injEq] at h
      left
      exact ⟨hc, by rw [← h]⟩
    · simp only [hc, ne_eq, not_false_eq_true, if_true] at h
      right
      cases f1 with
      | zero => simp [vsdelete_chain] at h
      | succ f2 =>
        simp only [vsdelete_chain, FAT_LIST_NULL] at h
        by_cases hc1 : fat_get fat curr % 0x10000 = 0
        · simp only [hc1, ne_eq, not_true_eq_false, if_false, Option.some.injEq] at h
          left
          exact ⟨hc, hc1, by rw [← h]⟩
        · simp only [hc1, ne_eq, not_false_eq_true, if_true, fat_get_fat_set_eq] at h
          right
          cases f2 with
          | zero => simp [vsdelete_chain] at h
          | succ f3 =>
            simp only [vsdelete_chain, FAT_LIST_NULL, Nat.zero_mod, ne_eq, not_true_eq_false,
              if_false, Option.some.injEq] at h
            exact ⟨hc, hc1, by rw [← h]⟩

/-- The backing file after `vsdelete` is what its loop leaves, run from the
start block of the entry it clears. -/
theorem vsdelete_disk_shape (fuel : Nat) (s : FS) (name : List Nat) (r : Int) (s' : FS)
    (h : vsdelete fuel s name = .ok (r, s')) :
    s' = s ∨
    ∃ bi oi res,
      vsdelete_chain fuel s.disk s.fattable ((s.rootdir bi oi).startblock % 0x10000)
        = some res ∧
      s'.disk = res.1 ∧ s'.superblock = s.superblock := by
  unfold vsdelete at h
  rcases hf : vsdelete_find s.rootdir name 8 0 (0, 0, false) with ⟨bi, oi, ex⟩
  rw [hf] at h
  cases ex with
  | false =>
    simp only at h
    cases h
    left; rfl
  | true =>
    simp only at h
    cases hc : vsdelete_chain fuel s.disk s.fattable ((s.rootdir bi oi).startblock % 0x10000) with
    | none => simp [hc] at h
    | some res =>
      obtain ⟨disk, fat⟩ := res
      simp only [hc] at h
      cases h
      right
      exact ⟨bi, oi, (disk, fat), hc, rfl, rfl⟩

/-- In a state whose chains are in order and whose backing file has its
`blockcount` blocks, `vsdelete` keeps the block count, the size of the file
and its blocks 0 to 40. -/
theorem vsdelete_low_blocks (fuel : Nat) (s : FS) (name : List Nat) (r : Int) (s' : FS)
    (hok : ChainsOK s.superblock s.fattable (fun i j => (s.rootdir i j).startblock))
    (hsz : s.superblock.blockcount ≤ s.disk.nblocks)
    (h : vsdelete fuel s name = .ok (r, s')) :
    s'.superblock.blockcount = s.superblock.blockcount ∧
    s'.disk.nblocks = s.disk.nblocks ∧
    ∀ k, k < 41 → s'.disk.block k = s.disk.block k := by
  rcases vsdelete_disk_shape fuel s name r s' h with heq | ⟨bi, oi, res, hc, hdisk, hsb⟩
  · rw [heq]
    exact ⟨rfl, rfl, fun _ _ => rfl⟩
  · have hbc := hok.1
    rw [hdisk, hsb]
    refine ⟨rfl, ?_⟩
    have hstart : (s.rootdir bi oi).startblock % 0x10000 ≠ 0 →
        (s.rootdir bi oi).startblock % 0x10000 = (s.rootdir bi oi).startblock ∧
        41 ≤ (s.rootdir bi oi).startblock ∧
        (s.rootdir bi oi).startblock < s.superblock.blockcount ∧
        InChain s.fattable (s.rootdir bi oi).startblock (s.rootdir bi oi).startblock := by
      intro hne
      have hnz : (s.rootdir bi oi).startblock ≠ 0 := by
        intro h0
        rw [h0] at hne
        exact hne rfl
      have hin := InChain_start s.fattable _ hnz
      obtain ⟨a1, a2, _⟩ := hok.2.1 bi oi _ hin
      exact ⟨Nat.mod_eq_of_lt (by omega), a1, a2, hin⟩
    rcases vsdelete_chain_disk _ _ _ _ _ hc with ⟨_, hres⟩ | ⟨hne, _, hres⟩ | ⟨hne, hne1, hres⟩
    · rw [hres]
      exact ⟨rfl, fun _ _ => rfl⟩
    · obtain ⟨e, a1, a2, _⟩ := hstart hne
      rw [hres, e, write_block_inside _ _ _ (by omega)]
      refine ⟨rfl, ?_⟩
      intro k hk
      have hk' : k ≠ (s.rootdir bi oi).startblock := by omega
      simp only [hk', if_false]
    · obtain ⟨e, a1, a2, hin⟩ := hstart hne
      rw [e] at hne1 hres
      have hnz1 : fat_get s.fattable (s.rootdir bi oi).startblock ≠ 0 := by
        intro h0
        rw [h0] at hne1
        exact hne1 rfl
      obtain ⟨b1, b2, _⟩ := hok.2.1 bi oi _ (InChain_succ hin hnz1)
      have e1 : fat_get s.fattable (s.rootdir bi oi).startblock % 0x10000
          = fat_get s.fattable (s.rootdir bi oi).startblock := Nat.mod_eq_of_lt (by omega)
      rw [hres, e1, write_block_inside _ _ (s.rootdir bi oi).startblock (by omega),
        write_block_inside _ _ _ (by simp only; omega)]
      refine ⟨rfl, ?_⟩
      intro k hk
      have hk' : k ≠ (s.rootdir bi oi).startblock := by omega
      have hk1 : k ≠ fat_get s.fattable (s.rootdir bi oi).startblock := by omega
      simp only [hk', hk1, if_false]

theorem vsopen_disk (s : FS) (name : List Nat) (mode : Int) :
    (vsopen s name mode).2.disk = s.disk := by
  unfold vsopen
  cases find_entry (fun e => streq e.filename name) s.rootdir 8 0 with
  | none => rfl
  | some p =>
    simp only
    split_ifs <;> rfl

theorem vsclose_disk (s : FS) (fd : Int) (r : Int) (s' : FS)
    (h : vsclose s fd = .ok (r, s')) : s'.disk = s.disk := by
  unfold vsclose at h
  split_ifs at h <;> cases h <;> rfl

theorem vscreate_disk (s : FS) (name : List Nat) : (vscreate s name).2.disk = s.disk := by
  rcases vscreate_cases s name with h | h
  · rw [h]
  · obtain ⟨_, _, i, j, _, heq⟩ := vscreate_ok s name h
    rw [heq]

/-- In every reachable state the backing file has exactly `blockcount`
blocks. -/
theorem reachable_disk_size (s : FS) (h : Reachable s) :
    s.disk.nblocks = s.superblock.blockcount := by
  induction h with
  | init m h1 h2 =>
    obtain ⟨heq, _, _⟩ := formatted_eq m h1 h2
    rw [heq]
    rfl
  | create s name _ ih =>
    rw [vscreate_disk, (vscreate_fields s name).2.1]
    exact ih
  | opened s name mode _ ih =>
    rw [vsopen_disk, (vsopen_fields s name mode).2.2]
    exact ih
  | closed s fd r s' _ hc ih =>
    rw [vsclose_disk s fd r s' hc, (vsclose_fields s fd r s' hc).2.2]
    exact ih
  | appended fuel s fd buf n r s' hs ha ih =>
    obtain ⟨a1, a2, _, _⟩ := vsappend_low_blocks fuel s fd buf n r s'
      (reachable_ChainsOK s hs) (by omega) ha
    omega
  | deleted fuel s name r s' hs hd ih =>
    obtain ⟨a1, a2, _⟩ := vsdelete_low_blocks fuel s name r s'
      (reachable_ChainsOK s hs) (by omega) hd
    omega

/-- A call that returned 0 left the state `state_after` names. -/
theorem ok_state_after (r : Except Fault (Int × FS)) (s : FS)
    (h : r.map Prod.fst = .ok 0) : r = .ok (0, state_after r s) := by
  cases r with
  | error e => cases h
  | ok p =>
    obtain ⟨a, b⟩ := p
    have ha : a = 0 := by
      have := h
      simp only [Except.map] at this
      exact Except.ok.inj this
    subst ha
    rfl

/-! ## Round trip of an append and a read on a new file -/

/-- C1 (amended): append/read round trip on a new file.  In a state whose block
count is at most 4096, for a name that `vscreate` accepts, when the entry
`(i, j)` that `vscreate` takes (the first unoccupied one) has no start block
and its open-file slot `16 i + j` is free, and for `n` bytes of `data` with
`1 ≤ n < 2^31` and at least `⌈n / 2048⌉` free blocks in range: create, open for
appending, append, close and open for reading succeed at every step (the two
opens return `16 i + j`), `vssize` returns `n`, and `vsread` of `n` bytes
returns 0 with the first `n` bytes of the buffer equal to `data`. -/
theorem append_read_round_trip (fuel : Nat) (s : FS) (name : List Nat) (data buf : Nat → Nat)
    (n i j : Nat)
    (hcreate : (vscreate s name).1 = 0)
    (hentry : find_entry (fun e => !e.isoccupied) s.rootdir 8 0 = some (i, j))
    (hstart : (s.rootdir i j).startblock = NO_START_BLOCK)
    (hslot : (s.openfiletable (i * 16 + j)).free = true)
    (hhi : s.superblock.blockcount ≤ 4096)
    (hn : 1 ≤ n) (hint : n < 2 ^ 31)
    (hfree : (n + 2047) / 2048 ≤ free_in_range s.superblock) :
    (vsopen (vscreate s name).2 name MODE_APPEND).1 = ((i * 16 + j : Nat) : Int) ∧
    ∃ s3 s4,
      vsappend fuel (vsopen (vscreate s name).2 name MODE_APPEND).2 ((i * 16 + j : Nat) : Int)
        data n = .ok (0, s3) ∧
      vsclose s3 ((i * 16 + j : Nat) : Int) = .ok (0, s4) ∧
      (vsopen s4 name MODE_READ).1 = ((i * 16 + j : Nat) : Int) ∧
      vssize (vsopen s4 name MODE_READ).2 ((i * 16 + j : Nat) : Int) = .ok (n : Int) ∧
      ∃ buf', vsread (vsopen s4 name MODE_READ).2 ((i * 16 + j : Nat) : Int) buf n
          = .ok (0, buf') ∧
        ∀ k, k < n → buf' k = data k := by
  obtain ⟨hlen, hnodup, i', j', hentry', hs1⟩ := vscreate_ok s name hcreate
  rw [hentry] at hentry'
  cases hentry'
  rw [find_entry_some] at hentry
  obtain ⟨_, hi, hj, _, hbefore⟩ := hentry
  have hi8 : i < 8 := by omega
  rw [find_entry_none] at hnodup
  -- the name is found at `(i, j)` in every directory that agrees with the one after create
  have hfind : ∀ rd : Nat → root_dir_block,
      (∀ a b, (rd a b).filename = ((vscreate s name).2.rootdir a b).filename) →
      find_entry (fun e => streq e.filename name) rd 8 0 = some (i, j) := by
    intro rd hrd
    rw [find_entry_some]
    refine ⟨Nat.zero_le _, by omega, hj, ?_, ?_⟩
    · rw [hrd, hs1]
      simp only [set_entry, and_self, if_true, streq_iff]
      exact (cstr_stored_name name hlen).1
    · intro a b _ hb hlt
      have hne : ¬ (a = i ∧ b = j) := by
        rintro ⟨rfl, rfl⟩
        omega
      rw [hrd, hs1]
      simp only [set_entry, hne, if_false]
      have hocc := hbefore a b (Nat.zero_le _) hb hlt
      have hnd := hnodup a b (Nat.zero_le _) (by omega) hb
      simp only [Bool.not_eq_false', Bool.not_eq_eq_eq_not, Bool.not_false] at hocc
      rw [hocc] at hnd
      simpa using hnd
  -- open for appending
  have hopen1 := vsopen_found (vscreate s name).2 name MODE_APPEND i j
    (hfind _ (fun _ _ => rfl)) (by rw [hs1]; exact hslot)
  refine ⟨by rw [hopen1], ?_⟩
  -- append
  have happ := vsappend_first fuel (vsopen (vscreate s name).2 name MODE_APPEND).2 data n i j
    hi8 hj (by rw [hopen1]; simp [set_slot]) (by rw [hopen1]; simp [set_slot])
    (by rw [hopen1]; simp [set_slot])
    (by rw [hopen1, hs1]; simp only [set_entry, and_self, if_true]; exact hstart)
  have hsb : (vsopen (vscreate s name).2 name MODE_APPEND).2.superblock = s.superblock := by
    rw [hopen1, hs1]
  obtain ⟨hb41, _, hstores⟩ := itervative_append_stores s.superblock
    (vsopen (vscreate s name).2 name MODE_APPEND).2.fattable
    (vsopen (vscreate s name).2 name MODE_APPEND).2.disk 0 n data hhi hn (by omega) hfree
  rw [← hsb] at hstores hb41
  have hex : ∃ s3, vsappend fuel (vsopen (vscreate s name).2 name MODE_APPEND).2
        ((i * 16 + j : Nat) : Int) data n = .ok (0, s3) ∧
      s3.openfiletable = (vsopen (vscreate s name).2 name MODE_APPEND).2.openfiletable ∧
      s3.rootdir = set_entry (vsopen (vscreate s name).2 name MODE_APPEND).2.rootdir i j
        { (vsopen (vscreate s name).2 name MODE_APPEND).2.rootdir i j with
          startblock :=
            (get_nextfreeblock (vsopen (vscreate s name).2 name MODE_APPEND).2.superblock).1,
          filesize := n } ∧
      stores s3.fattable s3.disk
        (get_nextfreeblock (vsopen (vscreate s name).2 name MODE_APPEND).2.superblock).1 n data :=
    ⟨_, happ, rfl, rfl, hstores⟩
  obtain ⟨s3, happ3, ho3, hr3, hst3⟩ := hex
  obtain ⟨s4, h4⟩ := close_open_read s3 name data buf n i j _ hi8 hj
    (by rw [ho3, hopen1]; simp [set_slot])
    (hfind _ (fun a b => by
      rw [hr3, hopen1]
      simp only [set_entry]
      split
      · rename_i hab
        rw [hab.1, hab.2]
      · rfl))
    (by rw [hr3]; simp [set_entry]) (by rw [hr3]; simp [set_entry]) hst3 hn hint
  exact ⟨s3, s4, happ3, h4⟩

theorem append_read_round_trip_witness :
    (vscreate (formatted 18) name_a).1 = 0 ∧
    (vsopen (vscreate (formatted 18) name_a).2 name_a MODE_APPEND).1 = ((0 * 16 + 0 : Nat) : Int) ∧
    ∃ s3 s4,
      vsappend 0 (vsopen (vscreate (formatted 18) name_a).2 name_a MODE_APPEND).2
        ((0 * 16 + 0 : Nat) : Int) hello 5 = .ok (0, s3) ∧
      vsclose s3 ((0 * 16 + 0 : Nat) : Int) = .ok (0, s4) ∧
      (vsopen s4 name_a MODE_READ).1 = ((0 * 16 + 0 : Nat) : Int) ∧
      vssize (vsopen s4 name_a MODE_READ).2 ((0 * 16 + 0 : Nat) : Int) = .ok ((5 : Nat) : Int) ∧
      ∃ buf', vsread (vsopen s4 name_a MODE_READ).2 ((0 * 16 + 0 : Nat) : Int) (fun _ => 0) 5
          = .ok (0, buf') ∧
        ∀ k, k < 5 → buf' k = hello k :=
  ⟨by decide!,
    append_read_round_trip 0 (formatted 18) name_a hello (fun _ => 0) 5 0 0 (by decide!)
      (by decide!) (by decide!) (by decide!) (by decide!) (by decide) (by decide) (by decide!)⟩

/-! ## Delete and the allocator -/

/-- The chain loop of `vsdelete` ends within three tests of its condition. -/
theorem vsdelete_chain_terminates (fuel : Nat) (h : 3 ≤ fuel) (disk : vdisk)
    (fattable : Nat → fat_table_block) (currblock : Nat) :
    ∃ r, vsdelete_chain fuel disk fattable currblock = some r := by
  obtain ⟨f, rfl⟩ : ∃ f, fuel = f + 3 := ⟨fuel - 3, by omega⟩
  by_cases h1 : currblock = 0
  · simp [vsdelete_chain, h1, FAT_LIST_NULL]
  · by_cases h2 : fat_get fattable currblock % 0x10000 = 0
    · simp [vsdelete_chain, h1, h2, FAT_LIST_NULL]
    · simp [vsdelete_chain, h1, h2, fat_get_fat_set_eq, FAT_LIST_NULL]

/-- C3 (amended): for every state and name, `vsdelete` (its chain loop given at
least three steps) returns, and the superblock is the one from before the
call: the free bit vector is not written, so no block of the deleted file is
returned to the allocator and `get_freeblockcount` is what it was after the
file's appends. -/
theorem vsdelete_keeps_bitmap (fuel : Nat) (s : FS) (name : List Nat) (h : 3 ≤ fuel) :
    ∃ r s', vsdelete fuel s name = .ok (r, s') ∧ s'.superblock = s.superblock ∧
      (∀ i, bitfree s'.superblock i = bitfree s.superblock i) ∧
      get_freeblockcount s'.superblock = get_freeblockcount s.superblock := by
  unfold vsdelete
  split
  · exact ⟨-1, s, rfl, rfl, fun _ => rfl, rfl⟩
  · rename_i blockidx offsetidx _
    obtain ⟨r, hr⟩ := vsdelete_chain_terminates fuel h s.disk s.fattable
      ((s.rootdir blockidx offsetidx).startblock % 0x10000)
    simp only [hr]
    exact ⟨0, _, rfl, rfl, fun _ => rfl, rfl⟩

theorem vsdelete_keeps_bitmap_witness :
    3 ≤ 3 ∧
      ∃ r s', vsdelete 3 (vscreate (formatted 18) name_a).2 name_a = .ok (r, s') ∧
        s'.superblock = (vscreate (formatted 18) name_a).2.superblock :=
  ⟨by decide,
    (vsdelete_keeps_bitmap 3 (vscreate (formatted 18) name_a).2 name_a (by decide)).imp
      fun _ h => h.imp fun _ h' => ⟨h'.1, h'.2.1⟩⟩

/-! ## The allocator returns the lowest free block in range -/

/-- C4: for a block count between 128 and 4096, `get_nextfreeblock` returns
`41 + i` for the lowest set bit `i` with `41 + i < blockcount`, clears that bit
and changes no other bit; when no such bit is set it returns 0 and leaves the
superblock as it was; so the result is 0 or lies in `[41, blockcount)`. -/
theorem get_nextfreeblock_lowest_free (sb : super_block)
    (hlo : 128 ≤ sb.blockcount) (hhi : sb.blockcount ≤ 4096) :
    (∀ i, 41 + i < sb.blockcount → bitfree sb i = true →
      (∀ k, k < i → bitfree sb k = false) →
        (get_nextfreeblock sb).1 = 41 + i ∧
        (get_nextfreeblock sb).2.blockcount = sb.blockcount ∧
        (get_nextfreeblock sb).2.blocksize = sb.blocksize ∧
        ∀ k, bitfree (get_nextfreeblock sb).2 k = (bitfree sb k && decide (k ≠ i))) ∧
    ((∀ i, 41 + i < sb.blockcount → bitfree sb i = false) →
      get_nextfreeblock sb = (0, sb)) ∧
    ((get_nextfreeblock sb).1 = 0 ∨
      (41 ≤ (get_nextfreeblock sb).1 ∧ (get_nextfreeblock sb).1 < sb.blockcount)) := by
  have found : ∀ i, 41 + i < sb.blockcount → bitfree sb i = true →
      (∀ k, k < i → bitfree sb k = false) →
      get_nextfreeblock sb =
        (41 + i, mark_unavailable sb (i / 16) (sb.freeblock_bitvector (i / 16))
          (2 ^ (i % 16))) := by
    intro i hi hb hlow
    rw [get_nextfreeblock_eq_scan]
    exact scan_from_found sb 4096 0 i (Nat.zero_le _) (by omega) hb
      (fun k _ hk => hlow k hk) hi
  have none : (∀ i, 41 + i < sb.blockcount → bitfree sb i = false) →
      get_nextfreeblock sb = (0, sb) := by
    intro h
    rw [get_nextfreeblock_eq_scan]
    exact scan_from_none sb h 4096 0 (by omega)
  refine ⟨?_, none, ?_⟩
  · intro i hi hb hlow
    rw [found i hi hb hlow]
    refine ⟨rfl, rfl, rfl, ?_⟩
    intro k
    exact bitfree_mark_unavailable sb i k
  · by_cases h : ∃ i, 41 + i < sb.blockcount ∧ bitfree sb i = true
    · right
      have hspec := Nat.find_spec h
      have hmin : ∀ k, k < Nat.find h → bitfree sb k = false := by
        intro k hk
        have := Nat.find_min h hk
        have hk2 : 41 + k < sb.blockcount := by omega
        cases hbk : bitfree sb k
        · rfl
        · exact absurd ⟨hk2, hbk⟩ this
      rw [found (Nat.find h) hspec.1 hspec.2 hmin]
      simp only
      omega
    · left
      have : ∀ i, 41 + i < sb.blockcount → bitfree sb i = false := by
        intro i hi
        cases hbi : bitfree sb i
        · rfl
        · exact absurd ⟨i, hi, hbi⟩ h
      rw [none this]

theorem get_nextfreeblock_lowest_free_witness :
    128 ≤ two_taken.blockcount ∧ two_taken.blockcount ≤ 4096 ∧
      (get_nextfreeblock two_taken).1 = 43 ∧
      bitfree (get_nextfreeblock two_taken).2 2 = false ∧
      bitfree (get_nextfreeblock two_taken).2 3 = true :=
  have h := (get_nextfreeblock_lowest_free two_taken (by decide) (by decide)).1 2
    (by decide) (by decide) (by decide)
  ⟨by decide, by decide, h.1, by rw [h.2.2.2]; decide, by rw [h.2.2.2]; decide⟩

/-! ## Append on a full data region -/

/-- C6 (amended): exhaustion of the data region is not reported.  For every
open APPEND handle (an `fd` in 0..127 whose slot is in use in mode
`MODE_APPEND`) on a file that has no start block, or whose chain of `d + 1`
blocks ends in `FAT_LIST_NULL` (the walk to the last block is given its
`2 d + 1` iterations) and whose last block the `n` bytes do not overflow when
it is partly filled, `vsappend` returns 0, whatever the allocator returns,
also when it returns 0 for none.  The branch that overflows a partly filled
last block is left out. -/
theorem vsappend_returns_zero (fuel : Nat) (s : FS) (fd : Int) (buf : Nat → Nat) (n : Nat)
    (i j d : Nat) (h0 : 0 ≤ fd) (h1 : fd < 128)
    (hfree : (s.openfiletable fd.toNat).free = false)
    (hmode : (s.openfiletable fd.toNat).mode = MODE_APPEND)
    (hentry : (s.openfiletable fd.toNat).entry = some (i, j))
    (hfile : (s.rootdir i j).startblock = NO_START_BLOCK ∨
      ((∀ m, m ≤ d → nth_block s.fattable (s.rootdir i j).startblock m ≠ FAT_LIST_NULL) ∧
        fat_get s.fattable (nth_block s.fattable (s.rootdir i j).startblock d)
          = FAT_LIST_NULL ∧
        2 * d + 1 ≤ fuel ∧
        overflows_last_block (s.rootdir i j).filesize n = false)) :
    ∃ s', vsappend fuel s fd buf n = .ok (0, s') := by
  have hg1 : ¬ (fd < 0 ∨ fd > 128) := by omega
  have hg2 : ¬ (fd ≥ 128) := by omega
  rcases hfile with hstart | ⟨hnz, hend, hfuel, hroom⟩
  · -- no start block: the first append
    have hlast : get_lastallocatedblock fuel s.fattable (s.rootdir i j).startblock
        = some NO_START_BLOCK := by
      simp [get_lastallocatedblock, hstart]
    unfold vsappend
    simp only [hg1, hg2, hfree, hmode, hentry, hlast, if_false, ne_eq, not_true_eq_false,
      Bool.false_eq_true, if_true]
    exact ⟨_, rfl⟩
  · -- a finite chain: the walk returns its last block, which is not 0
    have hlast := get_lastallocatedblock_complete s.fattable (s.rootdir i j).startblock d
      fuel hnz hend hfuel
    have hne : nth_block s.fattable (s.rootdir i j).startblock d ≠ NO_START_BLOCK :=
      hnz d (le_refl _)
    unfold vsappend
    simp only [hg1, hg2, hfree, hmode, hentry, hlast, hne, if_false, ne_eq,
      not_true_eq_false, Bool.false_eq_true]
    by_cases hpart : (s.rootdir i j).filesize % BLOCKSIZE = 0
    · simp only [hpart, not_true_eq_false, if_false]
      exact ⟨_, rfl⟩
    · have hfit : BLOCKSIZE - (s.rootdir i j).filesize % BLOCKSIZE ≥ n := by
        simp only [overflows_last_block, hpart, ne_eq, not_false_eq_true, decide_True,
          Bool.true_and, Bool.not_eq_false', decide_eq_true_eq] at hroom
        exact hroom
      simp only [hpart, not_false_eq_true, if_true, hfit]
      exact ⟨_, rfl⟩

theorem vsappend_returns_zero_witness :
    (get_nextfreeblock full_with_handle.superblock).1 = 0 ∧
      ∃ s', vsappend 1 full_with_handle 0 (fun _ => 65) 1 = .ok (0, s') :=
  ⟨by decide!,
    vsappend_returns_zero 1 full_with_handle 0 (fun _ => 65) 1 0 0 0 (by decide) (by decide)
      (by decide!) (by decide!) (by decide!) (Or.inl (by decide!))⟩

/-! ## Create -/

theorem vscreate_fail_iff_aux (s : FS) (name : List Nat) :
    (vscreate s name).1 = -1 ↔
      (30 ≤ strlen name ∨
       (∃ i j, i < 8 ∧ j < 16 ∧ (s.rootdir i j).isoccupied = true ∧
          cstr (s.rootdir i j).filename = cstr name) ∨
       (∀ i j, i < 8 → j < 16 → (s.rootdir i j).isoccupied = true)) := by
  unfold vscreate
  by_cases hl : strlen name ≥ 30
  · simp [hl]
  · simp only [hl, if_false]
    have hl' : ¬ 30 ≤ strlen name := hl
    cases h1 : find_entry (fun e => e.isoccupied && streq e.filename name) s.rootdir 8 0 with
    | some x =>
      obtain ⟨i, j⟩ := x
      rw [find_entry_some] at h1
      obtain ⟨_, hi, hj, hp, _⟩ := h1
      simp only [Bool.and_eq_true, streq_iff] at hp
      simp only [true_iff]
      exact Or.inr (Or.inl ⟨i, j, by omega, hj, hp.1, hp.2⟩)
    | none =>
      rw [find_entry_none] at h1
      have hnodup : ¬ ∃ i j, i < 8 ∧ j < 16 ∧ (s.rootdir i j).isoccupied = true ∧
          cstr (s.rootdir i j).filename = cstr name := by
        rintro ⟨i, j, hi, hj, ho, hn⟩
        have := h1 i j (Nat.zero_le _) (by omega) hj
        rw [ho, (streq_iff _ _).2 hn] at this
        cases this
      cases h2 : find_entry (fun e => !e.isoccupied) s.rootdir 8 0 with
      | none =>
        rw [find_entry_none] at h2
        simp only [true_iff]
        refine Or.inr (Or.inr ?_)
        intro i j hi hj
        have := h2 i j (Nat.zero_le _) (by omega) hj
        simpa using this
      | some x =>
        obtain ⟨i, j⟩ := x
        rw [find_entry_some] at h2
        obtain ⟨_, hi, hj, hp, _⟩ := h2
        simp only
        constructor
        · intro h; cases h
        · rintro (h | h | h)
          · exact h.elim
          · exact absurd h hnodup
          · have := h i j (by omega) hj
            simp [this] at hp

/-- C7: `vscreate` returns -1 exactly when the name has 30 bytes or more, or an
occupied entry already has that name, or no entry is unoccupied; a call that
returns -1 leaves the whole state (directory, FAT, free bitmap, open-file
table, disk) as it was; the only other result is 0, and after a create that
returned 0 a create of the same name returns -1. -/
theorem vscreate_fails_iff (s : FS) (name : List Nat) :
    ((vscreate s name).1 = -1 ↔
      (30 ≤ strlen name ∨
       (∃ i j, i < 8 ∧ j < 16 ∧ (s.rootdir i j).isoccupied = true ∧
          cstr (s.rootdir i j).filename = cstr name) ∨
       (∀ i j, i < 8 → j < 16 → (s.rootdir i j).isoccupied = true))) ∧
    ((vscreate s name).1 = -1 → (vscreate s name).2 = s) ∧
    ((vscreate s name).1 = -1 ∨ (vscreate s name).1 = 0) ∧
    ((vscreate s name).1 = 0 → (vscreate (vscreate s name).2 name).1 = -1) := by
  refine ⟨vscreate_fail_iff_aux s name, ?_, ?_, ?_⟩
  · intro h
    rcases vscreate_cases s name with h' | h'
    · rw [h']
    · rw [h'] at h
      cases h
  · rcases vscreate_cases s name with h' | h'
    · left; rw [h']
    · right; exact h'
  · intro h
    obtain ⟨hlen, _, i, j, hfind, hs⟩ := vscreate_ok s name h
    rw [find_entry_some] at hfind
    obtain ⟨_, hi, hj, _, _⟩ := hfind
    rw [vscreate_fail_iff_aux]
    refine Or.inr (Or.inl ⟨i, j, by omega, hj, ?_⟩)
    rw [hs]
    simp only [set_entry, and_self, if_true, true_and]
    exact (cstr_stored_name name hlen).1

/-- C8 (amended): when `vscreate` does not fail it returns 0 and takes the
lowest-positioned unoccupied entry: that entry becomes occupied with the name
as its filename (30 bytes, NUL padded) while its `filesize` and `startblock`
are left as they were, so they are 0 and `NO_START_BLOCK` when the entry was
blank; every other directory entry, the FAT, the superblock with the free
bitmap, the open-file table and the disk are unchanged. -/
theorem vscreate_success (s : FS) (name : List Nat) (h : (vscreate s name).1 ≠ -1) :
    (vscreate s name).1 = 0 ∧
    ∃ i j, i < 8 ∧ j < 16 ∧ (s.rootdir i j).isoccupied = false ∧
      (∀ i' j', i' < 8 → j' < 16 → i' * 16 + j' < i * 16 + j →
        (s.rootdir i' j').isoccupied = true) ∧
      ((vscreate s name).2.rootdir i j).isoccupied = true ∧
      cstr ((vscreate s name).2.rootdir i j).filename = cstr name ∧
      ((vscreate s name).2.rootdir i j).filename.length = 30 ∧
      ((vscreate s name).2.rootdir i j).filesize = (s.rootdir i j).filesize ∧
      ((vscreate s name).2.rootdir i j).startblock = (s.rootdir i j).startblock ∧
      ((s.rootdir i j).filesize = 0 → (s.rootdir i j).startblock = NO_START_BLOCK →
        ((vscreate s name).2.rootdir i j).filesize = 0 ∧
        ((vscreate s name).2.rootdir i j).startblock = NO_START_BLOCK) ∧
      (∀ a b, ¬ (a = i ∧ b = j) → (vscreate s name).2.rootdir a b = s.rootdir a b) ∧
      (vscreate s name).2.fattable = s.fattable ∧
      (vscreate s name).2.superblock = s.superblock ∧
      (vscreate s name).2.openfiletable = s.openfiletable ∧
      (vscreate s name).2.disk = s.disk := by
  have h0 : (vscreate s name).1 = 0 := by
    rcases vscreate_cases s name with h' | h'
    · rw [h'] at h
      exact absurd rfl h
    · exact h'
  refine ⟨h0, ?_⟩
  obtain ⟨hlen, _, i, j, hfind, hs⟩ := vscreate_ok s name h0
  rw [find_entry_some] at hfind
  obtain ⟨_, hi, hj, hp, hbefore⟩ := hfind
  refine ⟨i, j, by omega, hj, by simpa using hp, ?_, ?_⟩
  · intro i' j' _ hj' hlt
    have := hbefore i' j' (Nat.zero_le _) hj' hlt
    simpa using this
  · rw [hs]
    refine ⟨by simp [set_entry], by simpa [set_entry] using (cstr_stored_name name hlen).1,
      by simpa [set_entry] using (cstr_stored_name name hlen).2, by simp [set_entry],
      by simp [set_entry], ?_, ?_, rfl, rfl, rfl, rfl⟩
    · intro h1 h2
      simp only [set_entry, and_self, if_true]
      exact ⟨h1, h2⟩
    · intro a b hab
      simp [set_entry, hab]

theorem vscreate_success_witness :
    (vscreate (formatted 18) [97]).1 ≠ -1 ∧ (vscreate (formatted 18) [97]).1 = 0 :=
  ⟨by decide!, (vscreate_success (formatted 18) [97] (by decide!)).1⟩

/-! ## File-descriptor checks -/

/-- C11 (code at the failing input): `vsclose` and `vssize` guard with
`fd < 0 && fd > 128`, which no `fd` satisfies, so for `fd = -1` and `fd = 128`
they go on to index `openfiletable[fd]` outside its 128 slots instead of
returning -1; `vsread` and `vsappend` guard with `fd < 0 || fd > 128`, which
returns -1 for -1 and 129 but lets 128 through to the same access. -/
theorem fd_range_not_validated (fuel : Nat) (s : FS) (buf : Nat → Nat) (n : Nat) :
    vsclose s (-1) = .error .outOfBounds ∧ vsclose s 128 = .error .outOfBounds ∧
    vssize s (-1) = .error .outOfBounds ∧ vssize s 128 = .error .outOfBounds ∧
    vsread s 128 buf n = .error .outOfBounds ∧
    vsappend fuel s 128 buf n = .error .outOfBounds ∧
    vsread s (-1) buf n = .ok (-1, buf) ∧ vsread s 129 buf n = .ok (-1, buf) ∧
    vsappend fuel s (-1) buf n = .ok (-1, s) ∧ vsappend fuel s 129 buf n = .ok (-1, s) := by
  refine ⟨?_, ?_, ?_, ?_, ?_, ?_, ?_, ?_, ?_, ?_⟩ <;>
    simp [vsclose, vssize, vsread, vsappend]

/-- C12: for every `fd` in 0..127, `vsread` returns -1 with the buffer as it was
when the slot is free or its mode is `MODE_APPEND`, `vsappend` returns -1 with
the state as it was when the slot is free or its mode is `MODE_READ`, and
`vsclose` and `vssize` return -1 when the slot is free, `vsclose` with the
state as it was (`vsread` and `vssize` have no state to return: they assign
no global and write no block). -/
theorem free_slot_or_wrong_mode (fuel : Nat) (s : FS) (fd : Int) (buf : Nat → Nat) (n : Nat)
    (h0 : 0 ≤ fd) (h1 : fd < 128) :
    (((s.openfiletable fd.toNat).free = true ∨ (s.openfiletable fd.toNat).mode = MODE_APPEND) →
      vsread s fd buf n = .ok (-1, buf)) ∧
    (((s.openfiletable fd.toNat).free = true ∨ (s.openfiletable fd.toNat).mode = MODE_READ) →
      vsappend fuel s fd buf n = .ok (-1, s)) ∧
    ((s.openfiletable fd.toNat).free = true → vsclose s fd = .ok (-1, s)) ∧
    ((s.openfiletable fd.toNat).free = true → vssize s fd = .ok (-1)) := by
  have hg0 : ¬ (fd < 0 ∧ fd > 128) := by omega
  have hg0' : ¬ (fd < 0 ∨ fd ≥ 128) := by omega
  have hg1 : ¬ (fd < 0 ∨ fd > 128) := by omega
  have hg2 : ¬ (fd ≥ 128) := by omega
  refine ⟨?_, ?_, ?_, ?_⟩
  · intro h
    simp only [vsread, hg1, hg2, if_false]
    rcases h with h | h
    · simp [h]
    · by_cases hf : (s.openfiletable fd.toNat).free = true
      · simp [hf]
      · simp [hf, h, MODE_APPEND, MODE_READ]
  · intro h
    simp only [vsappend, hg1, hg2, if_false]
    rcases h with h | h
    · simp [h]
    · by_cases hf : (s.openfiletable fd.toNat).free = true
      · simp [hf]
      · simp [hf, h, MODE_APPEND, MODE_READ]
  · intro h
    simp [vsclose, hg0, hg0', h]
  · intro h
    simp [vssize, hg0, hg0', h]

theorem free_slot_or_wrong_mode_witness :
    (0 : Int) ≤ 5 ∧ (5 : Int) < 128 ∧ ((formatted 18).openfiletable (5 : Int).toNat).free = true ∧
      vsread (formatted 18) 5 (fun _ => 7) 4 = .ok (-1, fun _ => 7) ∧
      vsappend 1 (formatted 18) 5 (fun _ => 7) 4 = .ok (-1, formatted 18) ∧
      vsclose (formatted 18) 5 = .ok (-1, formatted 18) ∧
      vssize (formatted 18) 5 = .ok (-1) :=
  have h := free_slot_or_wrong_mode 1 (formatted 18) 5 (fun _ => 7) 4 (by decide) (by decide)
  have hf : ((formatted 18).openfiletable (5 : Int).toNat).free = true := by decide!
  ⟨by decide, by decide, hf, h.1 (Or.inl hf), h.2.1 (Or.inl hf), h.2.2.1 hf, h.2.2.2 hf⟩

/-! ## Invariants of the directory and the chains -/

/-- C16: chains are disjoint.  In every state reached from `vsformat(m)` and
`vsmount` by calls of `vscreate`, `vsopen`, `vsclose`, `vsappend` and `vsdelete`
that return, for two different directory entries `(i, j)` and `(i', j')`,
occupied or not, no block `b` is on the FAT chain from the start block of the
one and on the FAT chain from the start block of the other. -/
theorem chains_disjoint (s : FS) (h : Reachable s) (i j i' j' b : Nat)
    (hne : ¬ (i = i' ∧ j = j')) :
    ¬ (InChain s.fattable (s.rootdir i j).startblock b ∧
        InChain s.fattable (s.rootdir i' j').startblock b) := by
  rintro ⟨h1, h2⟩
  exact (reachable_ChainsOK s h).2.2 i j i' j' b hne h1 h2

theorem chains_disjoint_witness :
    Reachable two_files ∧
    (two_files.rootdir 0 0).isoccupied = true ∧ (two_files.rootdir 0 1).isoccupied = true ∧
    (two_files.rootdir 0 0).startblock = 41 ∧ (two_files.rootdir 0 1).startblock = 42 ∧
    chain_has_length two_files.fattable 41 1 ∧ chain_has_length two_files.fattable 42 1 ∧
    ¬ (InChain two_files.fattable (two_files.rootdir 0 0).startblock 42 ∧
        InChain two_files.fattable (two_files.rootdir 0 1).startblock 42) :=
  ⟨two_files_reachable, by decide!, by decide!, by decide!, by decide!, by decide!, by decide!,
    chains_disjoint two_files two_files_reachable 0 0 0 1 42 (by decide)⟩

/-- C17: unique filenames.  In every state reached from `vsformat(m)` and
`vsmount` by calls of `vscreate`, `vsopen`, `vsclose`, `vsappend` and `vsdelete`
that return, two different occupied directory entries hold different file
names (as C strings, the bytes before the first NUL). -/
theorem filenames_unique (s : FS) (h : Reachable s) (i j i' j' : Nat)
    (hi : i < 8) (hj : j < 16) (hi' : i' < 8) (hj' : j' < 16) (hne : ¬ (i = i' ∧ j = j'))
    (hocc : (s.rootdir i j).isoccupied = true) (hocc' : (s.rootdir i' j').isoccupied = true) :
    cstr (s.rootdir i j).filename ≠ cstr (s.rootdir i' j').filename :=
  reachable_NamesUnique s h i j i' j' hi hj hi' hj' hne hocc hocc'

theorem filenames_unique_witness :
    Reachable two_files ∧
    (two_files.rootdir 0 0).isoccupied = true ∧ (two_files.rootdir 0 1).isoccupied = true ∧
    cstr (two_files.rootdir 0 0).filename = name_a ∧
    cstr (two_files.rootdir 0 1).filename = name_x ∧
    cstr (two_files.rootdir 0 0).filename ≠ cstr (two_files.rootdir 0 1).filename :=
  ⟨two_files_reachable, by decide!, by decide!, by decide!, by decide!,
    filenames_unique two_files two_files_reachable 0 0 0 1 (by decide) (by decide)
      (by decide) (by decide) (by decide) (by decide!) (by decide!)⟩

/-! ## Repeated one-byte appends -/

/-- C19: repeated single-byte appends.  In a state whose block count is at
most 4096, let slot `16 i + j` be in use in mode `MODE_APPEND` for entry
`(i, j)`, the first entry with the name `name`, and let the entry have no start
block (an empty file).  For `k ≥ 1`, a buffer whose one byte is `v`, at least
`⌈k / 2048⌉` free blocks in range and fuel for the chain walks: the `k` calls
`vsappend(fd, buf, 1)` all return 0, `vssize` then returns `k`, the FAT chain
from the entry's start block has exactly `⌈k / 2048⌉` blocks, and after close
and open for reading `vsread` of `k` bytes returns 0 with `k` copies of `v` in
the buffer. -/
theorem single_byte_appends (fuel : Nat) (s : FS) (name : List Nat) (bs rbuf : Nat → Nat)
    (i j v k : Nat)
    (hfind : find_entry (fun e => streq e.filename name) s.rootdir 8 0 = some (i, j))
    (hfree : (s.openfiletable (i * 16 + j)).free = false)
    (hmode : (s.openfiletable (i * 16 + j)).mode = MODE_APPEND)
    (hentry : (s.openfiletable (i * 16 + j)).entry = some (i, j))
    (hstart : (s.rootdir i j).startblock = NO_START_BLOCK)
    (hhi : s.superblock.blockcount ≤ 4096) (hk : 1 ≤ k)
    (hblocks : (k + 2047) / 2048 ≤ free_in_range s.superblock)
    (hfuel : 2 * ((k + 2047) / 2048) ≤ fuel) (hv : bs 0 = v) :
    ∃ s', append_times fuel ((i * 16 + j : Nat) : Int) bs 1 k s
        = .ok (List.replicate k 0, s') ∧
      vssize s' ((i * 16 + j : Nat) : Int) = .ok (k : Int) ∧
      chain_has_length s'.fattable (s'.rootdir i j).startblock ((k + 2047) / 2048) ∧
      ∃ s4, vsclose s' ((i * 16 + j : Nat) : Int) = .ok (0, s4) ∧
        (vsopen s4 name MODE_READ).1 = ((i * 16 + j : Nat) : Int) ∧
        ∃ buf', vsread (vsopen s4 name MODE_READ).2 ((i * 16 + j : Nat) : Int) rbuf k
            = .ok (0, buf') ∧
          ∀ x, x < k → buf' x = v := by
  have hpos := (find_entry_some _ _ 8 0 i j).1 hfind
  have hi : i < 8 := by omega
  have hj : j < 16 := hpos.2.2.1
  obtain ⟨hkb, s', b0, happ, inv⟩ := single_all fuel s bs i j v k hi hj hfree hmode hentry
    hstart hhi hk hblocks hfuel hv
  have h31 : (2 : Nat) ^ 31 = 2147483648 := by norm_num
  have h32 : (2 : Nat) ^ 32 = 4294967296 := by norm_num
  have hfree' : (s'.openfiletable (i * 16 + j)).free = false := by rw [inv.oft]; exact hfree
  have hentry' : (s'.openfiletable (i * 16 + j)).entry = some (i, j) := by
    rw [inv.oft]; exact hentry
  refine ⟨s', happ, ?_, ?_, ?_⟩
  · have hg0 : ¬ (((i * 16 + j : Nat) : Int) < 0 ∧ ((i * 16 + j : Nat) : Int) > 128) := by
      omega
    have hg1 : ¬ (((i * 16 + j : Nat) : Int) < 0 ∨ ((i * 16 + j : Nat) : Int) ≥ 128) := by
      omega
    have hnat : ((i * 16 + j : Nat) : Int).toNat = i * 16 + j := Int.toNat_natCast _
    have hmod : k % 2 ^ 32 = k := Nat.mod_eq_of_lt (by omega)
    simp only [vssize, hg0, hg1, hnat, hfree', hentry', inv.rd_size, to_int, hmod, hkb,
      if_false, if_true, Bool.false_eq_true]
  · rw [inv.rd_start]
    refine ⟨?_, inv.chain_end⟩
    intro m hm
    have := (inv.alloc m hm).1
    simp only [FAT_LIST_NULL]
    omega
  · have hst : stores s'.fattable s'.disk b0 k (fun _ => v) := by
      refine ⟨?_, inv.chain_end⟩
      intro t ht
      have hlt : t < (k + 2047) / 2048 := by omega
      have := (inv.alloc t hlt).1
      refine ⟨by omega, ?_⟩
      obtain ⟨blk, hblk, hdata⟩ := inv.data t hlt
      exact ⟨blk, hblk, fun x hx hx2 => hdata x hx hx2⟩
    have hfind' : find_entry (fun e => streq e.filename name) s'.rootdir 8 0 = some (i, j) := by
      apply find_entry_congr _ s.rootdir s'.rootdir _ i j hfind
      intro a b
      by_cases hab : a = i ∧ b = j
      · rw [hab.1, hab.2]
        simp only [inv.rd_name]
      · rw [inv.rd_other a b hab]
    obtain ⟨s4, h4, h5, _, h7⟩ := close_open_read s' name (fun _ => v) rbuf k i j b0 hi hj
      hfree' hfind' inv.rd_size inv.rd_start hst hk hkb
    exact ⟨s4, h4, h5, h7⟩

theorem single_byte_appends_witness :
    (10000 + 2047) / 2048 = 5 ∧
    ∃ s', append_times 10 ((0 * 16 + 0 : Nat) : Int) (fun _ => 0x41) 1 10000
          (vsopen (vscreate (formatted 18) name_a).2 name_a MODE_APPEND).2
        = .ok (List.replicate 10000 0, s') ∧
      vssize s' ((0 * 16 + 0 : Nat) : Int) = .ok ((10000 : Nat) : Int) ∧
      chain_has_length s'.fattable (s'.rootdir 0 0).startblock ((10000 + 2047) / 2048) ∧
      ∃ s4, vsclose s' ((0 * 16 + 0 : Nat) : Int) = .ok (0, s4) ∧
        (vsopen s4 name_a MODE_READ).1 = ((0 * 16 + 0 : Nat) : Int) ∧
        ∃ buf', vsread (vsopen s4 name_a MODE_READ).2 ((0 * 16 + 0 : Nat) : Int)
              (fun _ => 0) 10000 = .ok (0, buf') ∧
          ∀ x, x < 10000 → buf' x = 0x41 :=
  ⟨by decide,
    single_byte_appends 10 (vsopen (vscreate (formatted 18) name_a).2 name_a MODE_APPEND).2
      name_a (fun _ => 0x41) (fun _ => 0) 0 0 0x41 10000 (by decide!) (by decide!) (by decide!)
      (by decide!) (by decide!) (by decide!) (by decide) (by decide!) (by decide) rfl⟩

/-! ## Read and the end of the file -/

/-- C21: unmount/mount round trip.  For every state `s` (globals and backing
file, block writes succeeding) `vsumount` returns 0, and `vsmount` of the
backing file it leaves, run over any globals `g` (those of the same process or
of a new one), returns 0 with the superblock of `s`, the 32 FAT blocks of `s`,
the 8 root directory blocks of `s`, and all 128 slots of the open-file table
free. -/
theorem umount_mount_round_trip (s g : FS) :
    (vsumount s).1 = 0 ∧
    (vsmount { g with disk := (vsumount s).2.disk }).1 = 0 ∧
    (vsmount { g with disk := (vsumount s).2.disk }).2.superblock = s.superblock ∧
    (∀ a, a < 32 →
      (vsmount { g with disk := (vsumount s).2.disk }).2.fattable a = s.fattable a) ∧
    (∀ a, a < 8 →
      (vsmount { g with disk := (vsumount s).2.disk }).2.rootdir a = s.rootdir a) ∧
    ∀ i, i < 128 →
      ((vsmount { g with disk := (vsumount s).2.disk }).2.openfiletable i).free = true := by
  obtain ⟨hsb, hfat, hrd⟩ := vsumount_image s
  have hmount : vsmount { g with disk := (vsumount s).2.disk } =
      (0, { disk := (vsumount s).2.disk,
            superblock := s.superblock,
            fattable := fun a => if 1 - 1 ≤ a ∧ a < 1 + 32 - 1 then s.fattable a
              else g.fattable a,
            rootdir := fun a => if 33 - 33 ≤ a ∧ a < 33 + 8 - 33 then s.rootdir a
              else g.rootdir a,
            openfiletable := fun i =>
              if i < 128 then { g.openfiletable i with free := true }
              else g.openfiletable i }) := by
    simp only [vsmount, hsb]
    rw [mount_rootdir_gen _ s.rootdir 8 33 _ (le_refl _) hrd,
      mount_fattable_gen _ s.fattable 32 1 _ (le_refl _) hfat]
  rw [hmount]
  refine ⟨rfl, rfl, rfl, ?_, ?_, ?_⟩
  · intro a ha
    have : 1 - 1 ≤ a ∧ a < 1 + 32 - 1 := by omega
    simp only [this, and_self, if_true]
  · intro a ha
    have : 33 - 33 ≤ a ∧ a < 33 + 8 - 33 := by omega
    simp only [this, and_self, if_true]
  · intro i hi
    simp only [hi, if_true]

/-! ## Format and the walk to the last block -/

/-- C22: `vsformat` validates `m` and writes a clean image.  For `m < 18` or
`m > 23` it returns -1 and leaves the backing file as it was.  For `m` from 18
to 23 it returns 0 and the image has `2^m / 2048` blocks, `2^m` bytes; block 0
is a superblock with `blockcount = 2^m / 2048`, between 128 and 4096,
`blocksize = 2048` and all 4096 bits of the bit vector set; blocks 1 to 32 are
FAT blocks of zero entries; blocks 33 to 40 are directory blocks whose entries
are unoccupied with an all-zero name, size 0 and start block 0; the blocks from
41 to `blockcount - 1` are zero data blocks. -/
theorem vsformat_clean_image (d : vdisk) (m : Nat) :
    ((m < 18 ∨ m > 23) → vsformat d m = (-1, d)) ∧
    ((18 ≤ m ∧ m ≤ 23) →
      (vsformat d m).1 = 0 ∧
      (vsformat d m).2.nblocks = 2 ^ m / 2048 ∧ (vsformat d m).2.nblocks * 2048 = 2 ^ m ∧
      (∃ sb, read_super_block (vsformat d m).2 0 = some sb ∧
        sb.blockcount = 2 ^ m / 2048 ∧ 128 ≤ sb.blockcount ∧ sb.blockcount ≤ 4096 ∧
        sb.blocksize = 2048 ∧ ∀ i, i < 4096 → bitfree sb i = true) ∧
      (∀ k, 1 ≤ k → k ≤ 32 →
        ∃ b, read_fat_block (vsformat d m).2 k = some b ∧ ∀ x, b x = 0) ∧
      (∀ k, 33 ≤ k → k ≤ 40 →
        ∃ b, read_rootdir_block (vsformat d m).2 k = some b ∧
          ∀ j, (b j).isoccupied = false ∧ (b j).filename = List.replicate 30 0 ∧
            (b j).filesize = 0 ∧ (b j).startblock = 0) ∧
      (∀ k, 41 ≤ k → k < 2 ^ m / 2048 →
        ∃ b, read_data_block (vsformat d m).2 k = some b ∧ ∀ x, b x = 0)) := by
  constructor
  · intro h
    simp only [vsformat, h, if_true]
  · rintro ⟨h1, h2⟩
    have hcount : (1 <<< m) / BLOCKSIZE = 2 ^ m / 2048 := by
      rw [Nat.one_shiftLeft]; rfl
    have hb : 128 ≤ 2 ^ m / 2048 ∧ 2 ^ m / 2048 ≤ 4096 ∧ 2 ^ m / 2048 * 2048 = 2 ^ m := by
      interval_cases m <;> norm_num
    have hm : ¬ (m < 18 ∨ m > 23) := by omega
    have himg : vsformat d m = (0, fresh_disk (2 ^ m / 2048)) := by
      simp only [vsformat, hm, if_false, hcount]
      rw [format_image _ (by omega)]
    rw [himg]
    refine ⟨rfl, rfl, hb.2.2, ?_, ?_, ?_, ?_⟩
    · refine ⟨fresh_superblock (2 ^ m / 2048), ?_, rfl, hb.1, hb.2.1, rfl, ?_⟩
      · have : 0 < 2 ^ m / 2048 := by omega
        simp [read_super_block, fresh_disk, this]
      · intro i _
        have hlt : i % 16 < 16 := Nat.mod_lt _ (by norm_num)
        simp only [bitfree, fresh_superblock]
        interval_cases (i % 16) <;> decide
    · intro k hk1 hk2
      refine ⟨fun _ => FAT_LIST_NULL, ?_, fun _ => rfl⟩
      have a0 : k < 2 ^ m / 2048 := by omega
      have a1 : ¬ k = 0 := by omega
      simp [read_fat_block, fresh_disk, a0, a1, hk2]
    · intro k hk1 hk2
      have hblank : blank_entry.filename = List.replicate 30 0 := by decide
      refine ⟨fun _ => blank_entry, ?_, fun _ => ⟨rfl, hblank, rfl, rfl⟩⟩
      have a0 : k < 2 ^ m / 2048 := by omega
      have a1 : ¬ k = 0 := by omega
      have a2 : ¬ k ≤ 32 := by omega
      simp [read_rootdir_block, fresh_disk, a0, a1, a2, hk2]
    · intro k hk1 hk2
      refine ⟨new_datablock, ?_, fun _ => rfl⟩
      have a1 : ¬ k = 0 := by omega
      have a2 : ¬ k ≤ 32 := by omega
      have a3 : ¬ k ≤ 40 := by omega
      simp [read_data_block, fresh_disk, hk2, a1, a2, a3]

theorem vsformat_clean_image_witness :
    vsformat { nblocks := 0, block := fun _ => .data new_datablock } 17
      = (-1, { nblocks := 0, block := fun _ => .data new_datablock }) ∧
    (vsformat { nblocks := 0, block := fun _ => .data new_datablock } 18).1 = 0 ∧
    (vsformat { nblocks := 0, block := fun _ => .data new_datablock } 18).2.nblocks = 128 :=
  ⟨(vsformat_clean_image { nblocks := 0, block := fun _ => .data new_datablock } 17).1
      (by decide),
    ((vsformat_clean_image { nblocks := 0, block := fun _ => .data new_datablock } 18).2
      (by decide)).1,
    ((vsformat_clean_image { nblocks := 0, block := fun _ => .data new_datablock } 18).2
      (by decide)).2.1⟩

/-- C24: `get_lastallocatedblock` walks to the end of the chain.  For every FAT
and every start block whose chain `b1 -> ... -> bk` (`k = d + 1` blocks, block
`m` of the chain being `nth_block fattable start m`) has no zero block and ends
with a block whose FAT entry is `FAT_LIST_NULL`, the walk returns that last
block when it is given `2 d + 1` iterations or more, and it can return nothing
else; for `NO_START_BLOCK` it returns `NO_START_BLOCK`.  The function has no
output but the block: it writes no FAT entry. -/
theorem get_lastallocatedblock_walks_chain (fattable : Nat → fat_table_block)
    (start d fuel : Nat)
    (hnz : ∀ m, m ≤ d → nth_block fattable start m ≠ 0)
    (hend : fat_get fattable (nth_block fattable start d) = FAT_LIST_NULL)
    (hfuel : 2 * d + 1 ≤ fuel) :
    get_lastallocatedblock fuel fattable start = some (nth_block fattable start d) ∧
    (∀ fuel' r, get_lastallocatedblock fuel' fattable start = some r →
      r = nth_block fattable start d) ∧
    ∀ fuel', get_lastallocatedblock fuel' fattable NO_START_BLOCK = some NO_START_BLOCK := by
  refine ⟨get_lastallocatedblock_complete fattable start d fuel hnz hend hfuel, ?_, ?_⟩
  · intro fuel' r hr
    by_cases hle : fuel ≤ fuel'
    · have := get_lastallocatedblock_complete fattable start d fuel' hnz hend (by omega)
      rw [this] at hr
      exact (Option.some.inj hr).symm
    · have hmono := get_lastallocatedblock_mono fattable start fuel' fuel r (by omega) hr
      rw [get_lastallocatedblock_complete fattable start d fuel hnz hend hfuel] at hmono
      exact (Option.some.inj hmono).symm
  · intro fuel'
    simp [get_lastallocatedblock]

theorem get_lastallocatedblock_walks_chain_witness :
    nth_block three_block_fat 41 2 = 43 ∧
    get_lastallocatedblock 5 three_block_fat 41 = some (nth_block three_block_fat 41 2) ∧
    (∀ fuel' r, get_lastallocatedblock fuel' three_block_fat 41 = some r →
      r = nth_block three_block_fat 41 2) ∧
    ∀ fuel', get_lastallocatedblock fuel' three_block_fat NO_START_BLOCK
      = some NO_START_BLOCK :=
  ⟨by decide,
    get_lastallocatedblock_walks_chain three_block_fat 41 2 5 (by decide) (by decide)
      (by decide)⟩

/-! ## The low FAT entries and the unoccupied entries -/

/-- C23 (amended): in every state reached from `vsformat(m)` and `vsmount` by
calls of `vscreate`, `vsopen`, `vsclose`, `vsappend` and `vsdelete` that return,
the FAT entry of every block number `b` with `1 ≤ b < 41` is zero.  The entry
of block 0 is left out: the first append to a file writes the file's start
block there. -/
theorem low_fat_entries_zero (s : FS) (h : Reachable s) (b : Nat) (h1 : 1 ≤ b) (h2 : b < 41) :
    fat_get s.fattable b = 0 :=
  reachable_low_fat s h b h1 h2

theorem low_fat_entries_zero_witness :
    Reachable two_files ∧ fat_get two_files.fattable 0 = 42 ∧
      fat_get two_files.fattable 40 = 0 :=
  ⟨two_files_reachable, by decide!,
    low_fat_entries_zero two_files two_files_reachable 40 (by decide) (by decide)⟩

/-- C25 (amended): in every state reached from `vsformat(m)` and `vsmount` by
calls of `vscreate`, `vsopen`, `vsclose`, `vsappend` and `vsdelete` that return,
every unoccupied directory entry has an all-zero name; when no `vsappend` of
the sequence went through a handle whose entry was unoccupied (a handle that
outlived the `vsdelete` of its file), the entry also has `filesize = 0` and
`startblock = NO_START_BLOCK`. -/
theorem unoccupied_entries_blank (s : FS) (i j : Nat)
    (hocc : (s.rootdir i j).isoccupied = false) :
    (Reachable s → (s.rootdir i j).filename = List.replicate 30 0) ∧
    (ReachableLive s →
      (s.rootdir i j).filesize = 0 ∧ (s.rootdir i j).startblock = NO_START_BLOCK ∧
        (s.rootdir i j).filename = List.replicate 30 0) :=
  ⟨fun h => reachable_blank_names s h i j hocc, fun h => live_blank_entries s h i j hocc⟩

theorem unoccupied_entries_blank_witness :
    (created_and_deleted.rootdir 0 0).isoccupied = false ∧
    ReachableLive created_and_deleted ∧
    (created_and_deleted.rootdir 0 0).filesize = 0 ∧
    (created_and_deleted.rootdir 0 0).startblock = NO_START_BLOCK ∧
    (created_and_deleted.rootdir 0 0).filename = List.replicate 30 0 :=
  ⟨by decide!, created_and_deleted_live,
    (unoccupied_entries_blank created_and_deleted 0 0 (by decide!)).2 created_and_deleted_live⟩

/-! ## The blocks below the data region -/

/-- C26 (amended): in every state reached from `vsformat(m)` and `vsmount` by
calls of `vscreate`, `vsopen`, `vsclose`, `vsappend` and `vsdelete` that return,
the backing file has `blockcount` blocks; a `vsdelete` that returns leaves the
file at that size and its blocks 0 to 40 as they were; a `vsappend` of `n`
bytes that returns leaves the file at that size and its blocks 1 to 40 as they
were, and block 0 too when at least `n / 2048 + 1` blocks in range are free.
So no block from `blockcount` on and none of the blocks 1 to 40 is written,
and block 0 only by an append for which the allocator has run out. -/
theorem appends_and_deletes_keep_low_blocks (s : FS) (h : Reachable s) :
    s.disk.nblocks = s.superblock.blockcount ∧
    (∀ fuel fd buf n r s', vsappend fuel s fd buf n = .ok (r, s') →
      s'.disk.nblocks = s.disk.nblocks ∧
      (∀ k, 1 ≤ k → k < 41 → s'.disk.block k = s.disk.block k) ∧
      (n / 2048 + 1 ≤ free_in_range s.superblock → s'.disk.block 0 = s.disk.block 0)) ∧
    (∀ fuel name r s', vsdelete fuel s name = .ok (r, s') →
      s'.disk.nblocks = s.disk.nblocks ∧ ∀ k, k < 41 → s'.disk.block k = s.disk.block k) := by
  have hsz := reachable_disk_size s h
  have hok := reachable_ChainsOK s h
  refine ⟨hsz, ?_, ?_⟩
  · intro fuel fd buf n r s' ha
    exact (vsappend_low_blocks fuel s fd buf n r s' hok (by omega) ha).2
  · intro fuel name r s' hd
    exact (vsdelete_low_blocks fuel s name r s' hok (by omega) hd).2

theorem appends_and_deletes_keep_low_blocks_witness :
    Reachable empty_file_open ∧ empty_file_open.superblock.blockcount = 128 ∧
    empty_file_open.disk.nblocks = empty_file_open.superblock.blockcount ∧
    3000 / 2048 + 1 ≤ free_in_range empty_file_open.superblock ∧
    (state_after (vsappend 5 empty_file_open 0 (fun _ => 0x43) 3000) empty_file_open).disk.nblocks
      = empty_file_open.disk.nblocks ∧
    (∀ k, 1 ≤ k → k < 41 →
      (state_after (vsappend 5 empty_file_open 0 (fun _ => 0x43) 3000)
          empty_file_open).disk.block k
        = empty_file_open.disk.block k) ∧
    (state_after (vsappend 5 empty_file_open 0 (fun _ => 0x43) 3000) empty_file_open).disk.block 0
      = empty_file_open.disk.block 0 :=
  have h := (appends_and_deletes_keep_low_blocks empty_file_open empty_file_open_reachable).2.1
    5 0 (fun _ => 0x43) 3000 0
    (state_after (vsappend 5 empty_file_open 0 (fun _ => 0x43) 3000) empty_file_open)
    (ok_state_after _ _ (by decide!))
  have hfree : 3000 / 2048 + 1 ≤ free_in_range empty_file_open.superblock := by decide!
  ⟨empty_file_open_reachable, by decide!,
    (appends_and_deletes_keep_low_blocks empty_file_open empty_file_open_reachable).1, hfree,
    h.1, h.2.1, h.2.2 hfree⟩

end Vsfs
